import Mathlib

/-!
GPXSee IGC parser (`src/igcparser.cpp`)

A shallow embedding of the IGC flight-log decoder and the properties of it
that the specification states.

Conventions of the embedding.

* A byte is a `Nat` (`0..255`); an input device is the list of its bytes.
* A line buffer is the list of the `len` bytes that `readLine` stored; the
  C++ pair `(line, len)` is the list and its length.  `readLine` writes a NUL
  after the content, so reading index `len` gives `0`; `byteAt` returns `0`
  there.
* `qreal` coordinates are exact rationals; the NaN elevation of a 2D fix is
  `none`.
* A `bool` function with out-parameters or member updates returns the flag
  together with the new value.
-/

namespace GPXSee

/-! Section: C library and Qt value types -/

/-- The C-locale `isdigit`: bytes `'0'..'9'`. -/
def isdigit (c : Nat) : Bool := decide (48 ≤ c) && decide (c ≤ 57)

/-- The C-locale `isprint`: bytes `0x20..0x7E`. -/
def isprint (c : Nat) : Bool := decide (32 ≤ c) && decide (c ≤ 126)

/-- The read `line[i]` of a buffer holding `line.length` bytes and then NUL. -/
def byteAt (line : List Nat) (i : Nat) : Nat := line.getD i 0

/-- Qt `QTime`: milliseconds since midnight, `-1` for the null (invalid) time. -/
structure QTime where
  mds : Int
  deriving DecidableEq, Repr

/-- The default-constructed `QTime()`. -/
def QTime.null : QTime := ⟨-1⟩

/-- Qt `QTime::isValid(h, m, s)`. -/
def QTime.isValidHMS (h m s : Int) : Bool :=
  decide (0 ≤ h) && decide (h < 24) && decide (0 ≤ m) && decide (m < 60)
    && decide (0 ≤ s) && decide (s < 60)

/-- The constructor `QTime(h, m, s)`: the null time when the fields are out of range. -/
def QTime.hms (h m s : Int) : QTime :=
  if QTime.isValidHMS h m s then ⟨(h * 3600 + m * 60 + s) * 1000⟩ else QTime.null

/-- Qt `QTime::operator<`, a comparison of the millisecond counts. -/
def QTime.lt (a b : QTime) : Bool := decide (a.mds < b.mds)

/-- Qt `QTime::isValid()`: `mds > NullTime && mds < MSECS_PER_DAY`. -/
def QTime.isValid (t : QTime) : Bool := decide (-1 < t.mds) && decide (t.mds < 86400000)

/-- Qt `QDate`, as the calendar day it denotes; `null` is the default-constructed
date and the result of constructing an impossible one. -/
inductive QDate where
  | null : QDate
  | ymd (y m d : Int) : QDate
  deriving DecidableEq, Repr

/-- Qt `QDate::isLeapYear` for years of the common era. -/
def isLeapYear (y : Int) : Bool :=
  (decide (y % 4 = 0) && !decide (y % 100 = 0)) || decide (y % 400 = 0)

/-- Length of month `m` of year `y` in the Gregorian calendar (`0` for no such month). -/
def daysInMonth (y m : Int) : Int :=
  if m = 2 then (if isLeapYear y then 29 else 28)
  else if m = 4 ∨ m = 6 ∨ m = 9 ∨ m = 11 then 30
  else if 1 ≤ m ∧ m ≤ 12 then 31
  else 0

/-- Qt `QDate::isValid(y, m, d)`. -/
def QDate.isValidYMD (y m d : Int) : Bool :=
  !decide (y = 0) && decide (0 < d) && decide (0 < m) && decide (m ≤ 12)
    && decide (d ≤ daysInMonth y m)

/-- The constructor `QDate(y, m, d)`. -/
def QDate.ofYMD (y m d : Int) : QDate :=
  if QDate.isValidYMD y m d then QDate.ymd y m d else QDate.null

/-- Qt `QDate::isValid()`. -/
def QDate.isValid : QDate → Bool
  | QDate.null => false
  | QDate.ymd y m d => QDate.isValidYMD y m d

/-- Qt `QDate::isNull()`. -/
def QDate.isNull (d : QDate) : Bool := !d.isValid

/-- The day after a date. -/
def QDate.nextDay : QDate → QDate
  | QDate.null => QDate.null
  | QDate.ymd y m d =>
    if d < daysInMonth y m then QDate.ymd y m (d + 1)
    else if m < 12 then QDate.ymd y (m + 1) 1
    else QDate.ymd (if y = -1 then 1 else y + 1) 1 1

/-- Qt `QDate::addDays(n)` for `n ≥ 0`: a const member, it returns the new date
and leaves the receiver as it is. -/
def QDate.addDays (d : QDate) (n : Nat) : QDate := Nat.iterate QDate.nextDay n d

/-- Qt `QDateTime` in UTC, as the date and the time of day it holds. -/
structure QDateTime where
  date : QDate
  time : QTime
  deriving DecidableEq, Repr

/-- The constructor `QDateTime(date, time, Qt::UTC)` of Qt 4 and 5: when the date
is valid and the time is not, the time is set to midnight
(`date.isValid() && !time.isValid() ? QTime(0, 0, 0) : time`). -/
def QDateTime.utc (date : QDate) (time : QTime) : QDateTime :=
  if date.isValid && !time.isValid then ⟨date, QTime.hms 0 0 0⟩ else ⟨date, time⟩

/-! Section: Output model -/

/-- A coordinate pair, constructed as `Coordinates(lon, lat)`. -/
structure Coordinates where
  lon : ℚ
  lat : ℚ
  deriving DecidableEq

/-- A track fix. `elevation = none` is the NaN of a 2D fix. -/
structure Trackpoint where
  coordinates : Coordinates
  timestamp : QDateTime
  elevation : Option ℚ
  deriving DecidableEq

/-- A route turnpoint; the name is kept as the bytes of the `QString`. -/
structure Waypoint where
  coordinates : Coordinates
  name : List Nat
  deriving DecidableEq

abbrev TrackData := List Trackpoint

abbrev RouteData := List Waypoint

/-- The expression `xs.last().append(x)` on a list of lists. On an empty outer
list `last()` is undefined in C++; the driver never calls it there, and the
model leaves the list empty. -/
def appendToLast {α : Type} : List (List α) → α → List (List α)
  | [], _ => []
  | [t], x => [t ++ [x]]
  | t :: u :: ts, x => t :: appendToLast (u :: ts) x

/-! Section: Field primitives -/

/-- The loop of `str2int`: `n` bytes from offset `off`, accumulator `res`. -/
def str2intLoop (line : List Nat) : Nat → Nat → Int → Int
  | _, 0, res => res
  | off, n + 1, res =>
    if isdigit (byteAt line off) then
      str2intLoop line (off + 1) n (res * 10 + (byteAt line off : Int) - 48)
    else -1

/-- The function `str2int(line + off, len)`: the decimal value of `len` digit
bytes, `-1` on a non-digit. It is called with `len ≤ 5`, so the `int`
accumulator stays below `10^5`. -/
def str2int (line : List Nat) (off len : Nat) : Int := str2intLoop line off len 0

/-- The function `readLat(line + off, lat)`. -/
def readLat (line : List Nat) (off : Nat) : Option ℚ :=
  let d := str2int line off 2
  let mi := str2int line (off + 2) 2
  let mf := str2int line (off + 4) 3
  if d < 0 ∨ mi < 0 ∨ mf < 0 then none
  else if ¬ (byteAt line (off + 7) = 78 ∨ byteAt line (off + 7) = 83) then none
  else
    let lat : ℚ := (d : ℚ) + (((mi : ℚ) + (mf : ℚ) / 1000) / 60)
    if lat > 90 then none
    else if byteAt line (off + 7) = 83 then some (-lat)
    else some lat

/-- The function `readLon(line + off, lon)`. -/
def readLon (line : List Nat) (off : Nat) : Option ℚ :=
  let d := str2int line off 3
  let mi := str2int line (off + 3) 2
  let mf := str2int line (off + 5) 3
  if d < 0 ∨ mi < 0 ∨ mf < 0 then none
  else if ¬ (byteAt line (off + 8) = 69 ∨ byteAt line (off + 8) = 87) then none
  else
    let lon : ℚ := (d : ℚ) + (((mi : ℚ) + (mf : ℚ) / 1000) / 60)
    if lon > 180 then none
    else if byteAt line (off + 8) = 87 then some (-lon)
    else some lon

/-- The function `readAltitude(line + off, ele)`; the inner `none` is NaN. -/
def readAltitude (line : List Nat) (off : Nat) : Option (Option ℚ) :=
  if ¬ (byteAt line off = 65 ∨ byteAt line off = 86) then none
  else
    let p := if byteAt line (off + 1) = 45 then str2int line (off + 2) 4
             else str2int line (off + 1) 5
    let g := str2int line (off + 6) 5
    if p < 0 ∨ g < 0 then none
    else if byteAt line off = 65 then some (some (g : ℚ))
    else some none

/-- The function `readTimestamp(line + off, time)`. -/
def readTimestamp (line : List Nat) (off : Nat) : Option QTime :=
  let h := str2int line off 2
  let m := str2int line (off + 2) 2
  let s := str2int line (off + 4) 2
  if h < 0 ∨ m < 0 ∨ s < 0 then none
  else some (QTime.hms h m s)

/-! Section: Record handlers -/

/-- The loop `for (i = from; i < 7; i++) if (!isprint(line[i])) return false`. -/
def allPrint (line : List Nat) : Nat → Nat → Bool
  | _, 0 => true
  | i, n + 1 => if isprint (byteAt line i) then allPrint line (i + 1) n else false

/-- The function `readARecord(line, len)`. -/
def readARecord (line : List Nat) : Bool :=
  if line.length < 9 ∨ byteAt line 0 ≠ 65 then false
  else allPrint line 1 6

/-- The bytes of the literal `"HFDTE"`. -/
def HFDTE : List Nat := [72, 70, 68, 84, 69]

/-- The members of `IGCParser` that the decoder reads and writes. -/
structure IGCParser where
  _errorLine : Nat
  _errorString : String
  _date : QDate
  _time : QTime
  _tracks : List TrackData
  _routes : List RouteData
  deriving DecidableEq

/-- A newly constructed parser over empty output lists. -/
def IGCParser.fresh : IGCParser :=
  { _errorLine := 0, _errorString := "", _date := QDate.null, _time := QTime.null,
    _tracks := [], _routes := [] }

/-- The method `IGCParser::readHRecord(line, len)`. -/
def IGCParser.readHRecord (st : IGCParser) (line : List Nat) : Bool × IGCParser :=
  if line.length < 10 ∨ line.take 5 ≠ HFDTE then (true, st)
  else
    let d := str2int line 5 2
    let m := str2int line 7 2
    let y := str2int line 9 2
    if y < 0 ∨ m < 0 ∨ d < 0 then
      (false, { st with _errorString := "Invalid date header format" })
    else
      let st1 := { st with _date := QDate.ofYMD (2000 + y) m d }
      if ¬ st1._date.isValid then
        (false, { st1 with _errorString := "Invalid date" })
      else (true, st1)

/-- The method `IGCParser::readBRecord(line, len)`. -/
def IGCParser.readBRecord (st : IGCParser) (line : List Nat) : Bool × IGCParser :=
  if line.length < 35 then (false, st)
  else
    match readTimestamp line 1 with
    | none => (false, { st with _errorString := "Invalid timestamp" })
    | some time =>
      match readLat line 7 with
      | none => (false, { st with _errorString := "Invalid latitude" })
      | some lat =>
        match readLon line 15 with
        | none => (false, { st with _errorString := "Invalid longitude" })
        | some lon =>
          match readAltitude line 24 with
          | none => (false, { st with _errorString := "Invalid altitude" })
          | some ele =>
            -- `if (time < _time) _date.addDays(1);` computes a date and drops it
            let _advanced : QDate :=
              if time.lt st._time then st._date.addDays 1 else st._date
            let st1 := { st with _time := time }
            let t : Trackpoint :=
              { coordinates := ⟨lon, lat⟩, timestamp := QDateTime.utc st1._date st1._time,
                elevation := ele }
            (true, { st1 with _tracks := appendToLast st1._tracks t })

/-- The C `isspace` used by `QByteArray::trimmed`. -/
def isspace (c : Nat) : Bool := decide (c = 32) || (decide (9 ≤ c) && decide (c ≤ 13))

/-- Qt `QByteArray::trimmed`. -/
def trimmed (ba : List Nat) : List Nat :=
  ((ba.dropWhile isspace).reverse.dropWhile isspace).reverse

/-- The conversion `QString(ba)`, as the bytes it takes: it stops at the first NUL. -/
def qstringBytes (ba : List Nat) : List Nat := ba.takeWhile (fun c => !decide (c = 0))

/-- The method `IGCParser::readCRecord(line, len)`. -/
def IGCParser.readCRecord (st : IGCParser) (line : List Nat) : Bool × IGCParser :=
  if line.length < 18 then (false, st)
  else
    match readLat line 1 with
    | none => (false, { st with _errorString := "Invalid latitude" })
    | some lat =>
      match readLon line 9 with
      | none => (false, { st with _errorString := "Invalid longitude" })
      | some lon =>
        if ¬ (lat = 0 ∧ lon = 0) then
          let ba := (line.drop 18).take (line.length - 19)
          let w : Waypoint := { coordinates := ⟨lon, lat⟩, name := qstringBytes (trimmed ba) }
          (true, { st with _routes := appendToLast st._routes w })
        else (true, st)

/-! Section: Driver -/

/-- Qt `QIODevice::readLine(data, maxSize)` on a device holding `dev`, with
`n = maxSize - 1`: the bytes stored (at most `n`, ending after the first
`'\n'`) and the rest of the device. The returned `len` is the number of
bytes stored. -/
def readLine : Nat → List Nat → List Nat × List Nat
  | 0, dev => ([], dev)
  | _, [] => ([], [])
  | n + 1, b :: dev =>
    if b = 10 then ([b], dev) else ((b :: (readLine n dev).1), (readLine n dev).2)

/-- The size of the buffer `char line[76 + 2 + 1 + 1]`. -/
def sizeofLine : Nat := 76 + 2 + 1 + 1

/-- The body of the `while` loop of `loadFile` for one buffer `line` that
`readLine` returned with `len = line.length > 0`; `route` and `track` are the
local flags. `Except.error` is `return false`, `Except.ok` falls through to
`_errorLine++`. -/
def loopBody (route track : Bool) (st : IGCParser) (line : List Nat) :
    Except IGCParser (Bool × Bool × IGCParser) :=
  let len : Int := line.length
  if len < 0 then
    Except.error { st with _errorString := "I/O error" }
  else if len > (sizeofLine : Int) - 1 then
    Except.error { st with _errorString := "Line limit exceeded" }
  else if st._errorLine = 1 then
    if ¬ readARecord line then
      Except.error { st with _errorString := "Invalid/missing A record" }
    else Except.ok (route, track, st)
  else if byteAt line 0 = 72 then
    match st.readHRecord line with
    | (false, st1) => Except.error st1
    | (true, st1) => Except.ok (route, track, st1)
  else if byteAt line 0 = 67 then
    if route then
      match st.readCRecord line with
      | (false, st1) => Except.error st1
      | (true, st1) => Except.ok (route, track, st1)
    else
      Except.ok (true, track, { st with _routes := st._routes ++ [[]] })
  else if byteAt line 0 = 66 then
    if st._date.isNull then
      Except.error { st with _errorString := "Missing date header" }
    else
      let st1 := if ¬ track then
          { st with _tracks := st._tracks ++ [[]], _time := QTime.hms 0 0 0 }
        else st
      match st1.readBRecord line with
      | (false, st2) => Except.error st2
      | (true, st2) => Except.ok (route, true, st2)
  else Except.ok (route, track, st)

/-- The `while` loop of `loadFile`. Each turn reads at least one byte, so
`fuel = dev.length` turns are enough (`loadLoop_fuel`); with no fuel left the
device is empty, `readLine` stores nothing and the loop ends. -/
def loadLoop : Nat → Bool → Bool → IGCParser → List Nat → Bool × IGCParser
  | 0, _, _, st, _ => (true, st)
  | fuel + 1, route, track, st, dev =>
    let r := readLine (sizeofLine - 1) dev
    if r.1.length > 0 then
      match loopBody route track st r.1 with
      | Except.error st1 => (false, st1)
      | Except.ok (route1, track1, st1) =>
        loadLoop fuel route1 track1 { st1 with _errorLine := st1._errorLine + 1 } r.2
    else (true, st)

/-- The method `IGCParser::loadFile(file)` on a device holding the bytes `dev`. -/
def IGCParser.loadFile (st : IGCParser) (dev : List Nat) : Bool × IGCParser :=
  loadLoop dev.length false false { st with _errorLine := 1, _errorString := "" } dev

/-- The bytes of an ASCII string. -/
def bytes (s : String) : List Nat := s.toList.map Char.toNat

/-! Section: Inputs as the specification counts them -/

/-- The first line of an input: its bytes up to and including the first newline
(all of it when it has none). -/
def inputFirstLine : List Nat → List Nat
  | [] => []
  | b :: bs => if b = 10 then [b] else b :: inputFirstLine bs

/-- The lines of an input after the bytes `cur` of an unfinished line. -/
def inputLinesFrom : List Nat → List Nat → List (List Nat)
  | [], cur => if cur = [] then [] else [cur]
  | b :: bs, cur =>
    if b = 10 then (cur ++ [b]) :: inputLinesFrom bs [] else inputLinesFrom bs (cur ++ [b])

/-- The newline-terminated lines of an input, each with its newline. -/
def inputLines (dev : List Nat) : List (List Nat) := inputLinesFrom dev []

/-- The ten diagnostic strings the specification lists. -/
def diagnostics : List String :=
  ["Invalid/missing A record", "Invalid date header format", "Invalid date",
   "Missing date header", "Invalid timestamp", "Invalid latitude", "Invalid longitude",
   "Invalid altitude", "Line limit exceeded", "I/O error"]

/-! Section: Concrete inputs -/

/-- A parser inside a track, on 2099-12-31 with the last fix at 23:59:00. -/
def rolloverState : IGCParser :=
  { _errorLine := 4, _errorString := "", _date := QDate.ymd 2099 12 31,
    _time := QTime.hms 23 59 0, _tracks := [[]], _routes := [] }

/-- A fix at 00:00:01. -/
def rolloverLine : List Nat := bytes "B0000015000000N01000000EA0000000100\n"

/-- Seed scenario 1 of the specification, byte for byte. -/
def seed1 : List Nat :=
  bytes "AXXX000\nHFDTE010190\nB1000005000000N01000000EA0010000200\n"

/-- Seed scenario 1 with the A line ended by CR LF, which makes it 9 bytes long. -/
def seed1CRLF : List Nat :=
  bytes "AXXX000\r\nHFDTE010190\nB1000005000000N01000000EA0010000200\n"

/-- An input whose first line is a date header. -/
def noARecordInput : List Nat := bytes "HFDTE010190\nB1000005000000N01000000EA0010000200\n"

/-- An input whose third line is a `B` line of 16 bytes. -/
def shortBInput : List Nat := bytes "AXXX000\r\nHFDTE010190\nB1000005000000N\n"

/-- An input whose second `C` line has 10 bytes. -/
def shortCInput : List Nat := bytes "AXXX000\r\nC\nC5100000N\n"

/-- An A line and a line of 200 bytes `X` and a newline. -/
def longLineInput : List Nat := bytes "AXXX000\r\n" ++ List.replicate 200 88 ++ [10]

/-- An A line, a line of 100 bytes `X` and a newline, and a `B` line. -/
def chunkedInput : List Nat := bytes "AXXX000\r\n" ++ List.replicate 100 88 ++ bytes "\nB\n"

/-- A date header cut after the month. -/
def shortHfdte : List Nat := bytes "HFDTE010\n"

/-- A fix at 10:00:00. -/
def fixLine : List Nat := bytes "B1000005000000N01000000EA0010000200\n"

/-- A date header for 29 February 2024. -/
def leapDayLine : List Nat := bytes "HFDTE290224\n"

/-- A fix whose time digits, `256199`, are out of range. -/
def outOfRangeTimeLine : List Nat := bytes "B2561995000000N01000000EA0010000200\n"

/-- An A line, a date header and a fix whose time digits are out of range. -/
def outOfRangeTimeInput : List Nat :=
  bytes "AXXX000\r\nHFDTE010190\nB2561995000000N01000000EA0010000200\n"

/-! Section: Whole lines -/

/-- A line the reader returns whole: at most 79 bytes, ended by its only newline. -/
def isLine (x : List Nat) : Bool :=
  decide (x.length ≤ 79) && decide (x.getLast? = some 10) && !(x.dropLast.contains 10)

/-- The input made of the given lines. -/
def joinLines : List (List Nat) → List Nat
  | [] => []
  | x :: xs => x ++ joinLines xs

/-- The turns of the loop of `loadFile` over buffers already read, with the
`_errorLine++` after each turn that falls through. -/
def runLines (route track : Bool) (st : IGCParser) :
    List (List Nat) → Except IGCParser (Bool × Bool × IGCParser)
  | [] => Except.ok (route, track, st)
  | x :: xs =>
    match loopBody route track st x with
    | Except.error st1 => Except.error st1
    | Except.ok (route1, track1, st1) =>
      runLines route1 track1 { st1 with _errorLine := st1._errorLine + 1 } xs

/-- Every trackpoint of the parser carries a valid calendar date. -/
def datesValid (st : IGCParser) : Prop :=
  ∀ tr ∈ st._tracks, ∀ tp ∈ tr, tp.timestamp.date.isValid = true

/-- An A line, a comment line and a fix. -/
def noDateLines : List (List Nat) := [bytes "AXXX000\r\n", bytes "LXXX comment\n"]

/-- The parser state a turn of the loop leaves, whether it falls through or returns. -/
def outState : Except IGCParser (Bool × Bool × IGCParser) → IGCParser
  | Except.error st => st
  | Except.ok (_, _, st) => st

/-- A valid A line, a date header with letters for the day, and a fix. -/
def earlierErrorInput : List Nat :=
  bytes "AXXX000\r\nHFDTExx0190\nB1000005000000N01000000EA0010000200\n"

/-- The error strings `loadFile` can leave: empty, or one of eight diagnostics. -/
def producedDiagnostics : List String :=
  ["", "Invalid/missing A record", "Invalid date header format", "Invalid date",
   "Missing date header", "Invalid timestamp", "Invalid latitude", "Invalid longitude",
   "Invalid altitude"]

/-! Section: Decimal fields as the specification reads them -/

/-- The bytes `off .. off + n - 1` of a line are all ASCII digits. -/
def allDigits (line : List Nat) : Nat → Nat → Bool
  | _, 0 => true
  | off, n + 1 => isdigit (byteAt line off) && allDigits line (off + 1) n

/-- The decimal value of the `n` digit bytes from `off`. -/
def decimalValue (line : List Nat) : Nat → Nat → Nat
  | _, 0 => 0
  | off, n + 1 => (byteAt line off - 48) * 10 ^ n + decimalValue line (off + 1) n

/-- The angle `D + (MM + mmm / 1000) / 60` of a field whose degrees have `w` digits. -/
def angleValue (line : List Nat) (off w : Nat) : ℚ :=
  (decimalValue line off w : ℚ) +
    ((decimalValue line (off + w) 2 : ℚ) + (decimalValue line (off + w + 2) 3 : ℚ) / 1000) / 60

/-- A re-encoder of latitudes to `DDMMmmmH`: the absolute value in thousandths
of a minute, split into degrees, minutes and thousandths, then the hemisphere. -/
def encodeLat (v : ℚ) : List Nat :=
  let t : Nat := (Int.floor (|v| * 60000)).toNat
  let dd := t / 60000
  let mm := t % 60000 / 1000
  let f := t % 1000
  [48 + dd / 10, 48 + dd % 10, 48 + mm / 10, 48 + mm % 10,
   48 + f / 100, 48 + f / 10 % 10, 48 + f % 10, if v < 0 then 83 else 78]

/-! Section: The lines the driver reads -/

/-- The buffers that the successive `readLine` calls of `loadFile` return. -/
def readerLines : Nat → List Nat → List (List Nat)
  | 0, _ => []
  | fuel + 1, dev =>
    if (readLine (sizeofLine - 1) dev).1.length > 0 then
      (readLine (sizeofLine - 1) dev).1 :: readerLines fuel (readLine (sizeofLine - 1) dev).2
    else []

/-- The lines of a device as `loadFile` reads them: a line of the input that has
more than 79 bytes comes in pieces of 79 bytes. -/
def deviceLines (dev : List Nat) : List (List Nat) := readerLines dev.length dev

/-- The result of `loadFile` when its loop has ended: `false` after a `return
false`, `true` at the end of the device. -/
def finish : Except IGCParser (Bool × Bool × IGCParser) → Bool × IGCParser
  | Except.error st => (false, st)
  | Except.ok (_, _, st) => (true, st)

/-- The state with which `loadFile` enters its loop. -/
def IGCParser.entered (st : IGCParser) : IGCParser :=
  { st with _errorLine := 1, _errorString := "" }

/-- The raw name bytes of a turnpoint line: offsets `18 .. len - 2`. -/
def nameBytes (line : List Nat) : List Nat := (line.drop 18).take (line.length - 19)

/-- The coordinate, time and elevation of the trackpoint that a `B` line makes
under a valid date: a time of day out of range gives midnight. -/
def fixOf (line : List Nat) : Option (Coordinates × QTime × Option ℚ) :=
  match readTimestamp line 1, readLat line 7, readLon line 15, readAltitude line 24 with
  | some t, some lat, some lon, some ele =>
    some (⟨lon, lat⟩, if t.isValid then t else QTime.hms 0 0 0, ele)
  | _, _, _, _ => none

/-- The coordinate, time and elevation of a trackpoint. -/
def Trackpoint.fix (tp : Trackpoint) : Coordinates × QTime × Option ℚ :=
  (tp.coordinates, tp.timestamp.time, tp.elevation)

/-- An A line and the header of a task declaration, the only `C` line. -/
def headerOnlyInput : List Nat := bytes "AXXX000\r\nC0000000N00000000E TASK\n"

/-- An A line, a date header, a comment and two fixes. -/
def twoFixInput : List Nat :=
  bytes ("AXXX000\r\nHFDTE010190\nLXXX comment\nB1000005000000N01000000EA0010000200\n" ++
    "B1000105030123N01030123WV0010000210\n")

/-- An A line, a task header, a placeholder turnpoint and a turnpoint. -/
def taskInput : List Nat :=
  bytes ("AXXX000\r\nC0000000N00000000E TASK\nC0000000N00000000E\n" ++
    "C5100000N01000000E START \n")

/-- Every trackpoint of the parser satisfies `PT` and every waypoint `PW`. -/
def outputsSatisfy (PT : Trackpoint → Prop) (PW : Waypoint → Prop) (st : IGCParser) : Prop :=
  (∀ tr ∈ st._tracks, ∀ tp ∈ tr, PT tp) ∧ (∀ rt ∈ st._routes, ∀ w ∈ rt, PW w)

/-- A parser with a route open. -/
def routeOpenState : IGCParser :=
  { _errorLine := 3, _errorString := "", _date := QDate.null, _time := QTime.null,
    _tracks := [], _routes := [[]] }

/-- A turnpoint line whose name bytes are `AB`, a blank, a NUL and `CD`. -/
def nulNameLine : List Nat := bytes "C5100000N01000000EAB " ++ [0] ++ bytes "CD\n"

/-- A turnpoint line with blanks around the name. -/
def startLine : List Nat := bytes "C5100000N01000000E  START \n"

/-! Section: The decoder with bounds-checked reads -/

/-- The read `line[i]` with a bound: `none` beyond the NUL at index `len`. -/
def byteAtChecked (line : List Nat) (i : Nat) : Option Nat :=
  if i ≤ line.length then some (byteAt line i) else none

/-- The loop of `str2int` with checked reads; it stops at the first non-digit. -/
def str2intLoopChecked (line : List Nat) : Nat → Nat → Int → Option Int
  | _, 0, res => some res
  | off, n + 1, res =>
    match byteAtChecked line off with
    | none => none
    | some c =>
      if isdigit c then str2intLoopChecked line (off + 1) n (res * 10 + (c : Int) - 48)
      else some (-1)

/-- The function `str2int` with checked reads. -/
def str2intChecked (line : List Nat) (off len : Nat) : Option Int :=
  str2intLoopChecked line off len 0

/-- The function `readLat` with checked reads. -/
def readLatChecked (line : List Nat) (off : Nat) : Option (Option ℚ) := do
  let d ← str2intChecked line off 2
  let mi ← str2intChecked line (off + 2) 2
  let mf ← str2intChecked line (off + 4) 3
  if d < 0 ∨ mi < 0 ∨ mf < 0 then pure none
  else do
    let h ← byteAtChecked line (off + 7)
    if ¬ (h = 78 ∨ h = 83) then pure none
    else
      let lat : ℚ := (d : ℚ) + (((mi : ℚ) + (mf : ℚ) / 1000) / 60)
      if lat > 90 then pure none
      else if h = 83 then pure (some (-lat))
      else pure (some lat)

/-- The function `readLon` with checked reads. -/
def readLonChecked (line : List Nat) (off : Nat) : Option (Option ℚ) := do
  let d ← str2intChecked line off 3
  let mi ← str2intChecked line (off + 3) 2
  let mf ← str2intChecked line (off + 5) 3
  if d < 0 ∨ mi < 0 ∨ mf < 0 then pure none
  else do
    let h ← byteAtChecked line (off + 8)
    if ¬ (h = 69 ∨ h = 87) then pure none
    else
      let lon : ℚ := (d : ℚ) + (((mi : ℚ) + (mf : ℚ) / 1000) / 60)
      if lon > 180 then pure none
      else if h = 87 then pure (some (-lon))
      else pure (some lon)

/-- The function `readAltitude` with checked reads. -/
def readAltitudeChecked (line : List Nat) (off : Nat) : Option (Option (Option ℚ)) := do
  let v ← byteAtChecked line off
  if ¬ (v = 65 ∨ v = 86) then pure none
  else do
    let s ← byteAtChecked line (off + 1)
    let p ← if s = 45 then str2intChecked line (off + 2) 4 else str2intChecked line (off + 1) 5
    let g ← str2intChecked line (off + 6) 5
    if p < 0 ∨ g < 0 then pure none
    else if v = 65 then pure (some (some (g : ℚ)))
    else pure (some none)

/-- The function `readTimestamp` with checked reads. -/
def readTimestampChecked (line : List Nat) (off : Nat) : Option (Option QTime) := do
  let h ← str2intChecked line off 2
  let m ← str2intChecked line (off + 2) 2
  let s ← str2intChecked line (off + 4) 2
  if h < 0 ∨ m < 0 ∨ s < 0 then pure none
  else pure (some (QTime.hms h m s))

/-- The loop of `readARecord` with checked reads. -/
def allPrintChecked (line : List Nat) : Nat → Nat → Option Bool
  | _, 0 => some true
  | i, n + 1 =>
    match byteAtChecked line i with
    | none => none
    | some c => if isprint c then allPrintChecked line (i + 1) n else some false

/-- The function `readARecord` with checked reads: `line[0]` is read only when
`len < 9` is false. -/
def readARecordChecked (line : List Nat) : Option Bool :=
  if line.length < 9 then some false
  else
    match byteAtChecked line 0 with
    | none => none
    | some c => if c ≠ 65 then some false else allPrintChecked line 1 6

/-- The comparison `strncmp(line + i, lit, n) == 0` with checked reads: it stops
at the first byte that differs. -/
def strncmpChecked (line : List Nat) : Nat → List Nat → Option Bool
  | _, [] => some true
  | i, c :: cs =>
    match byteAtChecked line i with
    | none => none
    | some b => if b = c then strncmpChecked line (i + 1) cs else some false

/-- The method `readHRecord` with checked reads. -/
def IGCParser.readHRecordChecked (st : IGCParser) (line : List Nat) :
    Option (Bool × IGCParser) :=
  if line.length < 10 then some (true, st)
  else do
    let eq ← strncmpChecked line 0 HFDTE
    if ¬ eq then pure (true, st)
    else do
      let d ← str2intChecked line 5 2
      let m ← str2intChecked line 7 2
      let y ← str2intChecked line 9 2
      if y < 0 ∨ m < 0 ∨ d < 0 then
        pure (false, { st with _errorString := "Invalid date header format" })
      else
        let st1 := { st with _date := QDate.ofYMD (2000 + y) m d }
        if ¬ st1._date.isValid then
          pure (false, { st1 with _errorString := "Invalid date" })
        else pure (true, st1)

/-- The method `readBRecord` with checked reads. -/
def IGCParser.readBRecordChecked (st : IGCParser) (line : List Nat) :
    Option (Bool × IGCParser) :=
  if line.length < 35 then some (false, st)
  else do
    match ← readTimestampChecked line 1 with
    | none => pure (false, { st with _errorString := "Invalid timestamp" })
    | some time =>
      match ← readLatChecked line 7 with
      | none => pure (false, { st with _errorString := "Invalid latitude" })
      | some lat =>
        match ← readLonChecked line 15 with
        | none => pure (false, { st with _errorString := "Invalid longitude" })
        | some lon =>
          match ← readAltitudeChecked line 24 with
          | none => pure (false, { st with _errorString := "Invalid altitude" })
          | some ele =>
            let st1 := { st with _time := time }
            let t : Trackpoint :=
              { coordinates := ⟨lon, lat⟩, timestamp := QDateTime.utc st1._date st1._time,
                elevation := ele }
            pure (true, { st1 with _tracks := appendToLast st1._tracks t })

/-- The copy `QByteArray(line + from, n)` with checked reads of the `n` bytes. -/
def copyChecked (line : List Nat) : Nat → Nat → Option (List Nat)
  | _, 0 => some []
  | i, n + 1 =>
    match byteAtChecked line i with
    | none => none
    | some c =>
      match copyChecked line (i + 1) n with
      | none => none
      | some cs => some (c :: cs)

/-- The construction `QByteArray ba(line + 18, len - 19)` with checked reads. For
`len = 18` the size is `-1` and the constructor measures the string at
`line + 18`, which reads the terminating NUL at index 18. -/
def nameBytesChecked (line : List Nat) : Option (List Nat) :=
  if line.length = 18 then
    match byteAtChecked line 18 with
    | none => none
    | some _ => some []
  else copyChecked line 18 (line.length - 19)

/-- The method `readCRecord` with checked reads. -/
def IGCParser.readCRecordChecked (st : IGCParser) (line : List Nat) :
    Option (Bool × IGCParser) :=
  if line.length < 18 then some (false, st)
  else do
    match ← readLatChecked line 1 with
    | none => pure (false, { st with _errorString := "Invalid latitude" })
    | some lat =>
      match ← readLonChecked line 9 with
      | none => pure (false, { st with _errorString := "Invalid longitude" })
      | some lon =>
        if ¬ (lat = 0 ∧ lon = 0) then do
          let ba ← nameBytesChecked line
          let w : Waypoint := { coordinates := ⟨lon, lat⟩, name := qstringBytes (trimmed ba) }
          pure (true, { st with _routes := appendToLast st._routes w })
        else pure (true, st)

/-- The body of the loop of `loadFile` with checked reads. -/
def loopBodyChecked (route track : Bool) (st : IGCParser) (line : List Nat) :
    Option (Except IGCParser (Bool × Bool × IGCParser)) :=
  let len : Int := line.length
  if len < 0 then
    some (Except.error { st with _errorString := "I/O error" })
  else if len > (sizeofLine : Int) - 1 then
    some (Except.error { st with _errorString := "Line limit exceeded" })
  else if st._errorLine = 1 then do
    let a ← readARecordChecked line
    if ¬ a then
      pure (Except.error { st with _errorString := "Invalid/missing A record" })
    else pure (Except.ok (route, track, st))
  else do
    let c ← byteAtChecked line 0
    if c = 72 then
      match ← st.readHRecordChecked line with
      | (false, st1) => pure (Except.error st1)
      | (true, st1) => pure (Except.ok (route, track, st1))
    else if c = 67 then
      if route then
        match ← st.readCRecordChecked line with
        | (false, st1) => pure (Except.error st1)
        | (true, st1) => pure (Except.ok (route, track, st1))
      else
        pure (Except.ok (true, track, { st with _routes := st._routes ++ [[]] }))
    else if c = 66 then
      if st._date.isNull then
        pure (Except.error { st with _errorString := "Missing date header" })
      else
        let st1 := if ¬ track then
            { st with _tracks := st._tracks ++ [[]], _time := QTime.hms 0 0 0 }
          else st
        match ← st1.readBRecordChecked line with
        | (false, st2) => pure (Except.error st2)
        | (true, st2) => pure (Except.ok (route, true, st2))
    else pure (Except.ok (route, track, st))

/-- An A line, a date header and a line of 115 bytes: 79 bytes `X` and then the
text of a fix. -/
def hiddenFixInput : List Nat :=
  bytes "AXXX000\r\nHFDTE010190\n" ++ List.replicate 79 88 ++
    bytes "B1000005000000N01000000EA0010000200\n"

/-- An A line and a line of 81 bytes: `C`, 78 bytes `X`, `B` and a newline. -/
def longHeaderInput : List Nat :=
  bytes "AXXX000\r\n" ++ [67] ++ List.replicate 78 88 ++ bytes "B\n"

/-! Section: Lemmas -/

/-- The reader stores at most `n` bytes. -/
theorem readLine_length_le (n : Nat) (dev : List Nat) : (readLine n dev).1.length ≤ n := by
  induction n generalizing dev with
  | zero => simp [readLine]
  | succ n ih =>
    cases dev with
    | nil => simp [readLine]
    | cons b bs =>
      by_cases hb : b = 10
      · simp [readLine, hb]
      · simp [readLine, hb]; exact ih bs

/-- The reader splits the device: stored bytes and rest make up its length. -/
theorem readLine_length_add (n : Nat) (dev : List Nat) :
    (readLine n dev).1.length + (readLine n dev).2.length = dev.length := by
  induction n generalizing dev with
  | zero => simp [readLine]
  | succ n ih =>
    cases dev with
    | nil => simp [readLine]
    | cons b bs =>
      by_cases hb : b = 10
      · simp [readLine, hb]; omega
      · simp [readLine, hb]; have := ih bs; omega

/-- On a non-empty device the reader stores at least the first byte. -/
theorem readLine_cons_pos (n b : Nat) (bs : List Nat) :
    0 < (readLine (n + 1) (b :: bs)).1.length ∧ byteAt (readLine (n + 1) (b :: bs)).1 0 = b := by
  by_cases hb : b = 10
  · simp [readLine, hb, byteAt]
  · simp [readLine, hb, byteAt]

/-- The reader stores the first line, cut at `n` bytes. -/
theorem readLine_eq_take (n : Nat) (dev : List Nat) :
    (readLine n dev).1 = (inputFirstLine dev).take n := by
  induction n generalizing dev with
  | zero => simp [readLine]
  | succ n ih =>
    cases dev with
    | nil => simp [readLine, inputFirstLine]
    | cons b bs =>
      by_cases hb : b = 10
      · simp [readLine, inputFirstLine, hb]
      · simp [readLine, inputFirstLine, hb]; exact ih bs

/-- Any fuel from `dev.length` on gives the result of `loadFile`: the loop never
runs out of turns. -/
theorem loadLoop_fuel (fuel : Nat) (route track : Bool) (st : IGCParser) (dev : List Nat)
    (h : dev.length ≤ fuel) :
    loadLoop fuel route track st dev = loadLoop dev.length route track st dev := by
  induction fuel using Nat.strong_induction_on generalizing route track st dev with
  | _ fuel ih =>
    cases dev with
    | nil => cases fuel <;> simp [loadLoop, readLine]
    | cons b bs =>
      cases fuel with
      | zero => simp at h
      | succ k =>
        have hlen := readLine_length_add (sizeofLine - 1) (b :: bs)
        have hpos := (readLine_cons_pos 78 b bs).1
        have h79 : sizeofLine - 1 = 78 + 1 := by decide
        rw [h79] at hlen
        simp only [List.length_cons] at h hlen ⊢
        simp only [loadLoop, h79]
        have hr : (readLine (78 + 1) (b :: bs)).2.length ≤ bs.length := by omega
        simp only [gt_iff_lt, hpos, if_true]
        cases hb : loopBody route track st (readLine (78 + 1) (b :: bs)).1 with
        | error st1 => rfl
        | ok v =>
          obtain ⟨route1, track1, st1⟩ := v
          simp only
          rw [ih k (by omega) _ _ _ _ (by omega), ih bs.length (by omega) _ _ _ _ hr]

theorem allPrint_iff (line : List Nat) (i n : Nat) :
    allPrint line i n = true ↔ ∀ j, i ≤ j → j < i + n → isprint (byteAt line j) = true := by
  induction n generalizing i with
  | zero => simp [allPrint]; intro j h1 h2; omega
  | succ n ih =>
    simp only [allPrint]
    constructor
    · intro h j h1 h2
      by_cases hp : isprint (byteAt line i) = true
      · simp only [hp, if_true] at h
        by_cases hj : j = i
        · subst hj; exact hp
        · exact (ih (i + 1)).1 h j (by omega) (by omega)
      · simp [hp] at h
    · intro h
      have hp := h i (Nat.le_refl i) (by omega)
      simp only [hp, if_true]
      exact (ih (i + 1)).2 (fun j h1 h2 => h j (by omega) (by omega))

theorem isprint_iff (c : Nat) : isprint c = true ↔ 32 ≤ c ∧ c ≤ 126 := by
  simp [isprint]

/-- The test of `readARecord`, spelled out on the bytes. -/
theorem readARecord_iff (line : List Nat) :
    readARecord line = true ↔
      (9 ≤ line.length ∧ byteAt line 0 = 65 ∧
        ∀ i, 1 ≤ i → i ≤ 6 → 32 ≤ byteAt line i ∧ byteAt line i ≤ 126) := by
  unfold readARecord
  by_cases h : line.length < 9 ∨ byteAt line 0 ≠ 65
  · simp only [h, if_true]
    constructor
    · intro h'; cases h'
    · rintro ⟨h1, h2, -⟩
      rcases h with h | h
      · omega
      · exact absurd h2 h
  · simp only [h, if_false, allPrint_iff, isprint_iff]
    have h1 : 9 ≤ line.length := by
      by_contra hc; exact h (Or.inl (by omega))
    have h2 : byteAt line 0 = 65 := by
      by_contra hc; exact h (Or.inr hc)
    constructor
    · intro hp
      exact ⟨h1, h2, fun i hi1 hi2 => hp i hi1 (by omega)⟩
    · rintro ⟨-, -, hp⟩ j hj1 hj2
      exact hp j hj1 (by omega)

theorem byteAt_take (l : List Nat) (n i : Nat) (h : i < n) : byteAt (l.take n) i = byteAt l i := by
  unfold byteAt
  simp [List.getD_eq_getElem?_getD, List.getElem?_take, h]

theorem str2intLoop_congr (l l2 : List Nat) (off n : Nat) (res : Int)
    (h : ∀ j, off ≤ j → j < off + n → byteAt l2 j = byteAt l j) :
    str2intLoop l2 off n res = str2intLoop l off n res := by
  induction n generalizing off res with
  | zero => rfl
  | succ n ih =>
    simp only [str2intLoop]
    rw [h off (Nat.le_refl off) (by omega)]
    rw [ih (off + 1) _ (fun j h1 h2 => h j (by omega) (by omega))]

/-- The decimal reader depends on its `n` bytes only. -/
theorem str2int_congr (l l2 : List Nat) (off n : Nat)
    (h : ∀ j, off ≤ j → j < off + n → byteAt l2 j = byteAt l j) :
    str2int l2 off n = str2int l off n :=
  str2intLoop_congr l l2 off n 0 h

theorem readTimestamp_congr (l l2 : List Nat) (off : Nat)
    (h : ∀ j, off ≤ j → j < off + 6 → byteAt l2 j = byteAt l j) :
    readTimestamp l2 off = readTimestamp l off := by
  unfold readTimestamp
  rw [str2int_congr l l2 off 2 (fun j h1 h2 => h j h1 (by omega)),
    str2int_congr l l2 (off + 2) 2 (fun j h1 h2 => h j (by omega) (by omega)),
    str2int_congr l l2 (off + 4) 2 (fun j h1 h2 => h j (by omega) (by omega))]

theorem readLat_congr (l l2 : List Nat) (off : Nat)
    (h : ∀ j, off ≤ j → j < off + 8 → byteAt l2 j = byteAt l j) :
    readLat l2 off = readLat l off := by
  unfold readLat
  rw [str2int_congr l l2 off 2 (fun j h1 h2 => h j h1 (by omega)),
    str2int_congr l l2 (off + 2) 2 (fun j h1 h2 => h j (by omega) (by omega)),
    str2int_congr l l2 (off + 4) 3 (fun j h1 h2 => h j (by omega) (by omega)),
    h (off + 7) (by omega) (by omega)]

theorem readLon_congr (l l2 : List Nat) (off : Nat)
    (h : ∀ j, off ≤ j → j < off + 9 → byteAt l2 j = byteAt l j) :
    readLon l2 off = readLon l off := by
  unfold readLon
  rw [str2int_congr l l2 off 3 (fun j h1 h2 => h j h1 (by omega)),
    str2int_congr l l2 (off + 3) 2 (fun j h1 h2 => h j (by omega) (by omega)),
    str2int_congr l l2 (off + 5) 3 (fun j h1 h2 => h j (by omega) (by omega)),
    h (off + 8) (by omega) (by omega)]

theorem readAltitude_congr (l l2 : List Nat) (off : Nat)
    (h : ∀ j, off ≤ j → j < off + 11 → byteAt l2 j = byteAt l j) :
    readAltitude l2 off = readAltitude l off := by
  unfold readAltitude
  rw [str2int_congr l l2 (off + 2) 4 (fun j h1 h2 => h j (by omega) (by omega)),
    str2int_congr l l2 (off + 1) 5 (fun j h1 h2 => h j (by omega) (by omega)),
    str2int_congr l l2 (off + 6) 5 (fun j h1 h2 => h j (by omega) (by omega)),
    h off (by omega) (by omega), h (off + 1) (by omega) (by omega)]

/-- On a non-empty list of tracks the append goes to the end of the last one. -/
theorem appendToLast_append {α : Type} (init : List (List α)) (last : List α) (x : α) :
    appendToLast (init ++ [last]) x = init ++ [last ++ [x]] := by
  induction init with
  | nil => rfl
  | cons t ts ih =>
    cases ts with
    | nil => rfl
    | cons u us =>
      show t :: appendToLast (u :: (us ++ [last])) x = t :: (u :: (us ++ [last ++ [x]]))
      rw [← List.cons_append, ih]
      rfl

theorem isdigit_iff (c : Nat) : isdigit c = true ↔ 48 ≤ c ∧ c ≤ 57 := by
  simp [isdigit]

theorem str2int_two (line : List Nat) (off : Nat)
    (h0 : isdigit (byteAt line off) = true) (h1 : isdigit (byteAt line (off + 1)) = true) :
    str2int line off 2 = 10 * ((byteAt line off : Int) - 48) + ((byteAt line (off + 1) : Int) - 48) := by
  simp only [str2int, str2intLoop, h0, h1, if_true]
  ring

theorem str2int_two_bad (line : List Nat) (off : Nat)
    (h : isdigit (byteAt line off) = false ∨ isdigit (byteAt line (off + 1)) = false) :
    str2int line off 2 = -1 := by
  simp only [str2int, str2intLoop]
  rcases h with h | h
  · simp [h]
  · by_cases h0 : isdigit (byteAt line off) = true
    · simp [h0, h]
    · simp [h0]

theorem isLine_split (x : List Nat) (h : isLine x = true) :
    ∃ body, x = body ++ [10] ∧ 10 ∉ body ∧ body.length < 79 := by
  simp only [isLine, Bool.and_eq_true, decide_eq_true_eq, Bool.not_eq_true',
    List.contains_eq_any_beq, List.any_eq_false, beq_iff_eq] at h
  obtain ⟨⟨h1, h2⟩, h3⟩ := h
  have hx : x.dropLast ++ [10] = x := List.dropLast_append_getLast? 10 (by simp [h2])
  refine ⟨x.dropLast, hx.symm, ?_, ?_⟩
  · intro hm
    exact h3 10 hm rfl
  · have : (x.dropLast ++ [10]).length = x.length := by rw [hx]
    simp only [List.length_append, List.length_singleton] at this
    omega

theorem readLine_body (n : Nat) (body rest : List Nat) (h10 : 10 ∉ body)
    (hn : body.length < n) :
    readLine n (body ++ 10 :: rest) = (body ++ [10], rest) := by
  induction body generalizing n with
  | nil =>
    cases n with
    | zero => simp at hn
    | succ n => simp [readLine]
  | cons b bs ih =>
    cases n with
    | zero => simp at hn
    | succ n =>
      have hb : b ≠ 10 := fun hb => h10 (by simp [hb])
      have h10b : 10 ∉ bs := fun hm => h10 (List.mem_cons_of_mem _ hm)
      simp only [List.length_cons] at hn
      have e := ih n h10b (by omega)
      show readLine (n + 1) (b :: (bs ++ 10 :: rest)) = (b :: (bs ++ [10]), rest)
      simp only [readLine, hb, if_false, e]

theorem readLine_line (x rest : List Nat) (h : isLine x = true) :
    readLine (sizeofLine - 1) (x ++ rest) = (x, rest) ∧ 0 < x.length := by
  obtain ⟨body, hx, h10, hlen⟩ := isLine_split x h
  subst hx
  have h79 : sizeofLine - 1 = 79 := by decide
  rw [h79]
  constructor
  · rw [List.append_assoc]
    exact readLine_body 79 body rest h10 hlen
  · simp

/-- One turn of the loop on an input that starts with a whole line. -/
theorem loadLoop_line (fuel : Nat) (route track : Bool) (st : IGCParser) (x rest : List Nat)
    (h : isLine x = true) (hf : (x ++ rest).length ≤ fuel) :
    loadLoop fuel route track st (x ++ rest) =
      match loopBody route track st x with
      | Except.error st1 => (false, st1)
      | Except.ok (route1, track1, st1) =>
        loadLoop rest.length route1 track1 { st1 with _errorLine := st1._errorLine + 1 } rest := by
  obtain ⟨hr, hpos⟩ := readLine_line x rest h
  cases fuel with
  | zero =>
    simp only [List.length_append] at hf
    omega
  | succ k =>
    simp only [loadLoop, hr, gt_iff_lt, hpos, if_true]
    cases loopBody route track st x with
    | error st1 => rfl
    | ok v =>
      obtain ⟨route1, track1, st1⟩ := v
      simp only
      apply loadLoop_fuel
      simp only [List.length_append] at hf
      omega

/-- The loop on an input that starts with whole lines is `runLines` on them,
then the loop on the rest. -/
theorem loadLoop_lines (pre : List (List Nat)) (rest : List Nat) (route track : Bool)
    (st : IGCParser) (h : ∀ x ∈ pre, isLine x = true) :
    loadLoop (joinLines pre ++ rest).length route track st (joinLines pre ++ rest) =
      match runLines route track st pre with
      | Except.error st1 => (false, st1)
      | Except.ok (route1, track1, st1) => loadLoop rest.length route1 track1 st1 rest := by
  induction pre generalizing route track st with
  | nil => simp [joinLines, runLines]
  | cons x xs ih =>
    have hx := h x (List.mem_cons_self _ _)
    have hxs : ∀ y ∈ xs, isLine y = true := fun y hy => h y (List.mem_cons_of_mem _ hy)
    simp only [joinLines, List.append_assoc, runLines]
    rw [loadLoop_line _ route track st x (joinLines xs ++ rest) hx (Nat.le_refl _)]
    cases loopBody route track st x with
    | error st1 => rfl
    | ok v =>
      obtain ⟨route1, track1, st1⟩ := v
      simp only
      exact ih route1 track1 _ hxs

theorem readHRecord_frame (st : IGCParser) (line : List Nat) :
    (st.readHRecord line).2._errorLine = st._errorLine ∧
    (st.readHRecord line).2._tracks = st._tracks ∧
    ((st.readHRecord line).1 = true →
      (st.readHRecord line).2 = st ∨ (st.readHRecord line).2._date.isValid = true) := by
  unfold IGCParser.readHRecord
  split
  · exact ⟨rfl, rfl, fun _ => Or.inl rfl⟩
  · simp only []
    split
    · exact ⟨rfl, rfl, fun h => by cases h⟩
    · split
      · exact ⟨rfl, rfl, fun h => by cases h⟩
      · rename_i h3
        exact ⟨rfl, rfl, fun _ => Or.inr (by simpa using h3)⟩

theorem readCRecord_frame (st : IGCParser) (line : List Nat) :
    (st.readCRecord line).2._errorLine = st._errorLine ∧
    (st.readCRecord line).2._tracks = st._tracks ∧
    (st.readCRecord line).2._date = st._date := by
  unfold IGCParser.readCRecord
  split
  · exact ⟨rfl, rfl, rfl⟩
  · split
    · exact ⟨rfl, rfl, rfl⟩
    · split
      · exact ⟨rfl, rfl, rfl⟩
      · split <;> exact ⟨rfl, rfl, rfl⟩

/-- The constructor `QDateTime(date, time, Qt::UTC)` keeps the date. -/
theorem QDateTime.utc_date (d : QDate) (t : QTime) : (QDateTime.utc d t).date = d := by
  unfold QDateTime.utc
  split <;> rfl

/-- Under a valid date the constructor keeps a valid time and turns an invalid
one into midnight. -/
theorem QDateTime.utc_time (d : QDate) (t : QTime) (h : d.isValid = true) :
    (QDateTime.utc d t).time = if t.isValid then t else QTime.hms 0 0 0 := by
  unfold QDateTime.utc
  rw [h]
  cases t.isValid <;> rfl

/-- A valid time is kept by the constructor, whatever the date. -/
theorem QDateTime.utc_of_valid (d : QDate) (t : QTime) (h : t.isValid = true) :
    QDateTime.utc d t = ⟨d, t⟩ := by
  unfold QDateTime.utc
  rw [h]
  cases d.isValid <;> rfl

/-- An invalid date is kept with the time as it is. -/
theorem QDateTime.utc_of_invalid_date (d : QDate) (t : QTime) (h : d.isValid = false) :
    QDateTime.utc d t = ⟨d, t⟩ := by
  unfold QDateTime.utc
  rw [h]
  rfl

/-- The time built from fields is valid exactly when the fields are in range. -/
theorem QTime.hms_isValid (h m s : Int) :
    (QTime.hms h m s).isValid = QTime.isValidHMS h m s := by
  unfold QTime.hms
  by_cases hv : QTime.isValidHMS h m s = true
  · rw [if_pos hv, hv]
    simp only [QTime.isValidHMS, Bool.and_eq_true, decide_eq_true_eq] at hv
    simp only [QTime.isValid, Bool.and_eq_true, decide_eq_true_eq]
    omega
  · rw [if_neg hv]
    simp only [Bool.not_eq_true] at hv
    rw [hv]
    rfl

/-- The handler of `B` lines keeps the line counter and the date, and either keeps
the tracks or appends one trackpoint dated with the stored date. -/
theorem readBRecord_frame (st : IGCParser) (line : List Nat) :
    (st.readBRecord line).2._errorLine = st._errorLine ∧
    (st.readBRecord line).2._date = st._date ∧
    ((st.readBRecord line).2._tracks = st._tracks ∨
      ∃ tp : Trackpoint, tp.timestamp.date = st._date ∧
        (st.readBRecord line).2._tracks = appendToLast st._tracks tp) := by
  unfold IGCParser.readBRecord
  split
  · exact ⟨rfl, rfl, Or.inl rfl⟩
  · split
    · exact ⟨rfl, rfl, Or.inl rfl⟩
    · split
      · exact ⟨rfl, rfl, Or.inl rfl⟩
      · split
        · exact ⟨rfl, rfl, Or.inl rfl⟩
        · split
          · exact ⟨rfl, rfl, Or.inl rfl⟩
          · exact ⟨rfl, rfl, Or.inr ⟨_, QDateTime.utc_date _ _, rfl⟩⟩

theorem isNull_false_iff (d : QDate) : d.isNull = false ↔ d.isValid = true := by
  unfold QDate.isNull
  cases d.isValid <;> simp

/-- A turn that falls through keeps the line counter, and if it leaves no date
there was none before and the tracks are as before. -/
theorem loopBody_ok (route track route1 track1 : Bool) (st st1 : IGCParser) (x : List Nat)
    (h : loopBody route track st x = Except.ok (route1, track1, st1)) :
    st1._errorLine = st._errorLine ∧
    (st1._date.isNull = true → st._date.isNull = true ∧ st1._tracks = st._tracks) := by
  unfold loopBody at h
  simp only at h
  split at h
  · cases h
  split at h
  · cases h
  split at h
  · split at h
    · cases h
    · cases h
      exact ⟨rfl, fun hn => ⟨hn, rfl⟩⟩
  split at h
  · have hf := readHRecord_frame st x
    rcases hr : st.readHRecord x with ⟨b, s2⟩
    rw [hr] at h hf
    cases b
    · cases h
    · simp only [Except.ok.injEq, Prod.mk.injEq] at h
      obtain ⟨-, -, rfl⟩ := h
      obtain ⟨h1, h2, h3⟩ := hf
      refine ⟨h1, fun hn => ?_⟩
      rcases h3 rfl with h3 | h3
      · simp only at h3
        subst h3
        exact ⟨hn, rfl⟩
      · simp only at h3 hn
        simp [QDate.isNull, h3] at hn
  split at h
  · split at h
    · have hf := readCRecord_frame st x
      rcases hr : st.readCRecord x with ⟨b, s2⟩
      rw [hr] at h hf
      cases b
      · cases h
      · simp only [Except.ok.injEq, Prod.mk.injEq] at h
        obtain ⟨-, -, rfl⟩ := h
        obtain ⟨h1, h2, h3⟩ := hf
        simp only at h1 h2 h3
        refine ⟨h1, fun hn => ⟨?_, h2⟩⟩
        rw [← h3]; exact hn
    · cases h
      exact ⟨rfl, fun hn => ⟨hn, rfl⟩⟩
  split at h
  · split at h
    · cases h
    · rename_i hnn
      split at h
      · cases h
      · rename_i s2 hr
        cases h
        have key : ∀ sB : IGCParser, sB.readBRecord x = (true, st1) →
            st1._errorLine = sB._errorLine ∧ st1._date = sB._date := by
          intro sB hB
          have hf := readBRecord_frame sB x
          rw [hB] at hf
          exact ⟨hf.1, hf.2.1⟩
        obtain ⟨k1, k2⟩ := key _ hr
        refine ⟨?_, fun hn => ?_⟩
        · rw [k1]; split <;> rfl
        · exfalso
          apply hnn
          rw [k2] at hn
          rw [← hn]
          split <;> rfl
  · cases h
    exact ⟨rfl, fun hn => ⟨hn, rfl⟩⟩

theorem runLines_ok (pre : List (List Nat)) (route track route1 track1 : Bool)
    (st st1 : IGCParser)
    (h : runLines route track st pre = Except.ok (route1, track1, st1)) :
    st1._errorLine = st._errorLine + pre.length ∧
    (st1._date.isNull = true → st._date.isNull = true ∧ st1._tracks = st._tracks) := by
  induction pre generalizing route track st with
  | nil =>
    simp only [runLines, Except.ok.injEq, Prod.mk.injEq] at h
    obtain ⟨-, -, rfl⟩ := h
    exact ⟨rfl, fun hn => ⟨hn, rfl⟩⟩
  | cons x xs ih =>
    simp only [runLines] at h
    cases hb : loopBody route track st x with
    | error s2 => rw [hb] at h; cases h
    | ok v =>
      obtain ⟨r2, t2, s2⟩ := v
      rw [hb] at h
      simp only at h
      obtain ⟨e1, e2⟩ := loopBody_ok _ _ _ _ _ _ _ hb
      obtain ⟨i1, i2⟩ := ih _ _ _ h
      simp only [List.length_cons] at i1 i2 ⊢
      refine ⟨by omega, fun hn => ?_⟩
      obtain ⟨j1, j2⟩ := i2 hn
      obtain ⟨k1, k2⟩ := e2 j1
      exact ⟨k1, by rw [j2, k2]⟩

theorem appendToLast_mem {α : Type} (ts : List (List α)) (x : α) (tr : List α)
    (h : tr ∈ appendToLast ts x) : ∀ tp ∈ tr, tp = x ∨ ∃ t ∈ ts, tp ∈ t := by
  induction ts with
  | nil => simp [appendToLast] at h
  | cons t us ih =>
    cases us with
    | nil =>
      simp only [appendToLast, List.mem_singleton] at h
      subst h
      intro tp htp
      rcases List.mem_append.1 htp with h1 | h1
      · exact Or.inr ⟨t, List.mem_cons_self _ _, h1⟩
      · exact Or.inl (List.mem_singleton.1 h1)
    | cons u vs =>
      simp only [appendToLast, List.mem_cons] at h
      intro tp htp
      rcases h with h | h
      · subst h
        exact Or.inr ⟨tr, List.mem_cons_self _ _, htp⟩
      · rcases ih (by simpa [appendToLast] using h) tp htp with h1 | ⟨t2, ht2, h2⟩
        · exact Or.inl h1
        · exact Or.inr ⟨t2, List.mem_cons_of_mem _ ht2, h2⟩

theorem datesValid_of_tracks (st st1 : IGCParser) (h : st1._tracks = st._tracks)
    (hv : datesValid st) : datesValid st1 := by
  unfold datesValid at hv ⊢
  rw [h]
  exact hv

theorem readBRecord_datesValid (st : IGCParser) (line : List Nat) (hv : datesValid st)
    (hd : st._date.isValid = true) : datesValid (st.readBRecord line).2 := by
  rcases (readBRecord_frame st line).2.2 with h | ⟨tp, h1, h2⟩
  · exact datesValid_of_tracks _ _ h hv
  · intro tr htr p hp
    rw [h2] at htr
    rcases appendToLast_mem _ _ _ htr p hp with h3 | ⟨t, ht, h3⟩
    · rw [h3, h1]; exact hd
    · exact hv t ht p h3

/-- A turn of the loop keeps every trackpoint validly dated. -/
theorem loopBody_datesValid (route track : Bool) (st : IGCParser) (x : List Nat)
    (hv : datesValid st) : datesValid (outState (loopBody route track st x)) := by
  unfold loopBody
  simp only
  split
  · exact hv
  split
  · exact hv
  split
  · split <;> exact hv
  split
  · have hf := (readHRecord_frame st x).2.1
    rcases hr : st.readHRecord x with ⟨b, s2⟩
    rw [hr] at hf
    cases b <;> exact datesValid_of_tracks _ _ hf hv
  split
  · split
    · have hf := (readCRecord_frame st x).2.1
      rcases hr : st.readCRecord x with ⟨b, s2⟩
      rw [hr] at hf
      cases b <;> exact datesValid_of_tracks _ _ hf hv
    · exact hv
  split
  · split
    · exact hv
    · rename_i hnn
      have hd : st._date.isValid = true := by
        rw [← isNull_false_iff]
        simpa using hnn
      have key : ∀ sB : IGCParser, datesValid sB → sB._date = st._date →
          datesValid (outState (match sB.readBRecord x with
            | (false, st2) => Except.error st2
            | (true, st2) => Except.ok (route, true, st2))) := by
        intro sB hB hdB
        have := readBRecord_datesValid sB x hB (by rw [hdB]; exact hd)
        rcases hr : sB.readBRecord x with ⟨b, s2⟩
        rw [hr] at this
        cases b <;> exact this
      apply key
      · split
        · intro tr htr p hp
          simp only [List.mem_append, List.mem_singleton] at htr
          rcases htr with h | h
          · exact hv tr h p hp
          · subst h; cases hp
        · exact hv
      · split <;> rfl
  · exact hv

theorem loadLoop_datesValid (fuel : Nat) (route track : Bool) (st : IGCParser)
    (dev : List Nat) (hv : datesValid st) :
    datesValid (loadLoop fuel route track st dev).2 := by
  induction fuel generalizing route track st dev with
  | zero => exact hv
  | succ k ih =>
    simp only [loadLoop]
    split
    · have hb := loopBody_datesValid route track st (readLine (sizeofLine - 1) dev).1 hv
      cases hl : loopBody route track st (readLine (sizeofLine - 1) dev).1 with
      | error s2 => rw [hl] at hb; exact hb
      | ok v =>
        obtain ⟨r2, t2, s2⟩ := v
        rw [hl] at hb
        exact ih _ _ _ _ (datesValid_of_tracks _ _ rfl hb)
    · exact hv

/-- The `'B'` branch of the loop with no date stored. -/
theorem loopBody_missing_date (route track : Bool) (st : IGCParser) (x : List Nat)
    (hlen : x.length ≤ 79) (hline : st._errorLine ≠ 1) (hB : byteAt x 0 = 66)
    (hd : st._date.isNull = true) :
    loopBody route track st x =
      Except.error { st with _errorString := "Missing date header" } := by
  have hs : (sizeofLine : Int) - 1 = 79 := by decide
  unfold loopBody
  simp only [hs, hB, hd, hline, if_true, if_false]
  rw [if_neg (by omega), if_neg (by omega)]
  simp

theorem readHRecord_errorString (st : IGCParser) (line : List Nat)
    (h : st._errorString ∈ producedDiagnostics) :
    (st.readHRecord line).2._errorString ∈ producedDiagnostics := by
  unfold IGCParser.readHRecord
  split
  · exact h
  · simp only []
    split
    · dsimp only [outState]; decide
    · split
      · dsimp only [outState]; decide
      · exact h

theorem readCRecord_errorString (st : IGCParser) (line : List Nat)
    (h : st._errorString ∈ producedDiagnostics) :
    (st.readCRecord line).2._errorString ∈ producedDiagnostics := by
  unfold IGCParser.readCRecord
  split
  · exact h
  · split
    · dsimp only [outState]; decide
    · split
      · dsimp only [outState]; decide
      · split <;> exact h

theorem readBRecord_errorString (st : IGCParser) (line : List Nat)
    (h : st._errorString ∈ producedDiagnostics) :
    (st.readBRecord line).2._errorString ∈ producedDiagnostics := by
  unfold IGCParser.readBRecord
  split
  · exact h
  · split
    · dsimp only [outState]; decide
    · split
      · dsimp only [outState]; decide
      · split
        · dsimp only [outState]; decide
        · split
          · dsimp only [outState]; decide
          · exact h

theorem loopBody_errorString (route track : Bool) (st : IGCParser) (x : List Nat)
    (hlen : x.length ≤ 79) (h : st._errorString ∈ producedDiagnostics) :
    (outState (loopBody route track st x))._errorString ∈ producedDiagnostics := by
  have hs : (sizeofLine : Int) - 1 = 79 := by decide
  unfold loopBody
  simp only [hs]
  split
  · omega
  split
  · omega
  split
  · split
    · dsimp only [outState]; decide
    · exact h
  split
  · have hf := readHRecord_errorString st x h
    rcases hr : st.readHRecord x with ⟨b, s2⟩
    rw [hr] at hf
    cases b <;> exact hf
  split
  · split
    · have hf := readCRecord_errorString st x h
      rcases hr : st.readCRecord x with ⟨b, s2⟩
      rw [hr] at hf
      cases b <;> exact hf
    · exact h
  split
  · split
    · dsimp only [outState]; decide
    · have key : ∀ sB : IGCParser, sB._errorString ∈ producedDiagnostics →
          (outState (match sB.readBRecord x with
            | (false, st2) => Except.error st2
            | (true, st2) => Except.ok (route, true, st2)))._errorString
            ∈ producedDiagnostics := by
        intro sB hB
        have := readBRecord_errorString sB x hB
        rcases hr : sB.readBRecord x with ⟨b, s2⟩
        rw [hr] at this
        cases b <;> exact this
      apply key
      split <;> exact h
  · exact h

theorem loadLoop_errorString (fuel : Nat) (route track : Bool) (st : IGCParser)
    (dev : List Nat) (h : st._errorString ∈ producedDiagnostics) :
    (loadLoop fuel route track st dev).2._errorString ∈ producedDiagnostics := by
  induction fuel generalizing route track st dev with
  | zero => exact h
  | succ k ih =>
    have h79 : sizeofLine - 1 = 79 := by decide
    simp only [loadLoop]
    split
    · have hb := loopBody_errorString route track st (readLine (sizeofLine - 1) dev).1
        (by rw [h79]; exact readLine_length_le 79 dev) h
      cases hl : loopBody route track st (readLine (sizeofLine - 1) dev).1 with
      | error s2 => rw [hl] at hb; exact hb
      | ok v =>
        obtain ⟨r2, t2, s2⟩ := v
        rw [hl] at hb
        exact ih _ _ _ _ hb
    · exact h

/-- The error string `loadFile` leaves is empty or one of eight diagnostics. -/
theorem loadFile_errorString (st : IGCParser) (dev : List Nat) :
    (st.loadFile dev).2._errorString ∈ producedDiagnostics :=
  loadLoop_errorString _ _ _ _ _ (by dsimp only; decide)

theorem allDigits_iff (line : List Nat) (off n : Nat) :
    allDigits line off n = true ↔
      ∀ j, off ≤ j → j < off + n → 48 ≤ byteAt line j ∧ byteAt line j ≤ 57 := by
  induction n generalizing off with
  | zero =>
    simp only [allDigits, true_iff]
    intro j h1 h2
    omega
  | succ n ih =>
    simp only [allDigits, Bool.and_eq_true, isdigit_iff, ih]
    constructor
    · rintro ⟨h0, h⟩ j h1 h2
      by_cases hj : j = off
      · subst hj; exact h0
      · exact h j (by omega) (by omega)
    · intro h
      exact ⟨h off (Nat.le_refl _) (by omega), fun j h1 h2 => h j (by omega) (by omega)⟩

theorem allDigits_add (line : List Nat) (off m n : Nat) :
    allDigits line off (m + n) = (allDigits line off m && allDigits line (off + m) n) := by
  rw [Bool.eq_iff_iff]
  simp only [Bool.and_eq_true, allDigits_iff]
  constructor
  · intro h
    exact ⟨fun j h1 h2 => h j h1 (by omega), fun j h1 h2 => h j (by omega) (by omega)⟩
  · rintro ⟨h1, h2⟩ j hj1 hj2
    by_cases hj : j < off + m
    · exact h1 j hj1 hj
    · exact h2 j (by omega) (by omega)

/-- The loop of `str2int` gives the decimal value on digits and `-1` otherwise. -/
theorem str2intLoop_eq (line : List Nat) (off n : Nat) (res : Int) :
    str2intLoop line off n res =
      if allDigits line off n then res * 10 ^ n + (decimalValue line off n : Int) else -1 := by
  induction n generalizing off res with
  | zero => simp [str2intLoop, allDigits, decimalValue]
  | succ n ih =>
    simp only [str2intLoop, allDigits, decimalValue]
    by_cases hd : isdigit (byteAt line off) = true
    · have hb := (isdigit_iff _).1 hd
      simp only [hd, if_true, Bool.true_and, ih]
      by_cases ha : allDigits line (off + 1) n = true
      · simp only [ha, if_true]
        have h48 : ((byteAt line off - 48 : Nat) : Int) = (byteAt line off : Int) - 48 := by
          omega
        push_cast
        rw [h48]
        ring
      · simp [ha]
    · simp [hd]

theorem str2int_eq (line : List Nat) (off n : Nat) :
    str2int line off n =
      if allDigits line off n then (decimalValue line off n : Int) else -1 := by
  unfold str2int
  rw [str2intLoop_eq]
  simp

theorem str2int_neg_iff (line : List Nat) (off n : Nat) :
    str2int line off n < 0 ↔ allDigits line off n = false := by
  rw [str2int_eq]
  by_cases h : allDigits line off n = true
  · simp only [h, if_true]
    constructor
    · intro h2; omega
    · intro h2; cases h2
  · simp [h]

theorem decimalValue_lt (line : List Nat) (off n : Nat) (h : allDigits line off n = true) :
    decimalValue line off n < 10 ^ n := by
  induction n generalizing off with
  | zero => simp [decimalValue]
  | succ n ih =>
    simp only [allDigits, Bool.and_eq_true, isdigit_iff] at h
    have := ih (off + 1) h.2
    simp only [decimalValue]
    have h9 : byteAt line off - 48 ≤ 9 := by omega
    calc (byteAt line off - 48) * 10 ^ n + decimalValue line (off + 1) n
        < (byteAt line off - 48) * 10 ^ n + 10 ^ n := by omega
      _ = (byteAt line off - 48 + 1) * 10 ^ n := by ring
      _ ≤ 10 * 10 ^ n := Nat.mul_le_mul_right _ (by omega)
      _ = 10 ^ (n + 1) := by ring

theorem angleValue_nonneg (line : List Nat) (off w : Nat) : 0 ≤ angleValue line off w := by
  unfold angleValue
  positivity

/-- The decoder `readLat` in closed form. -/
theorem readLat_eq (line : List Nat) (off : Nat) :
    readLat line off =
      if allDigits line off 7 = true ∧
          (byteAt line (off + 7) = 78 ∨ byteAt line (off + 7) = 83) ∧
          angleValue line off 2 ≤ 90 then
        (if byteAt line (off + 7) = 83 then some (-angleValue line off 2)
         else some (angleValue line off 2))
      else none := by
  have h7 : allDigits line off 7 =
      (allDigits line off 2 && (allDigits line (off + 2) 2 && allDigits line (off + 4) 3)) := by
    rw [show (7 : Nat) = 2 + (2 + 3) from rfl, allDigits_add, allDigits_add]
  unfold readLat
  simp only [str2int_neg_iff, h7, Bool.and_eq_true]
  by_cases h1 : allDigits line off 2 = true
  · by_cases h2 : allDigits line (off + 2) 2 = true
    · by_cases h3 : allDigits line (off + 4) 3 = true
      · simp only [h1, h2, h3, str2int_eq, if_true, true_and, Bool.true_eq_false,
          or_self, if_false, angleValue, Int.cast_natCast, gt_iff_lt, not_lt]
        by_cases hH : byteAt line (off + 7) = 78 ∨ byteAt line (off + 7) = 83
        · simp only [hH, not_true_eq_false, if_false, true_and]
          split
          · rename_i hgt
            rw [if_neg (not_le.2 hgt)]
          · rename_i hgt
            rw [if_pos (not_lt.1 hgt)]
        · simp [hH]
      · simp [h1, h2, h3]
    · simp [h1, h2]
  · simp [h1]

/-- The decoder `readLon` in closed form. -/
theorem readLon_eq (line : List Nat) (off : Nat) :
    readLon line off =
      if allDigits line off 8 = true ∧
          (byteAt line (off + 8) = 69 ∨ byteAt line (off + 8) = 87) ∧
          angleValue line off 3 ≤ 180 then
        (if byteAt line (off + 8) = 87 then some (-angleValue line off 3)
         else some (angleValue line off 3))
      else none := by
  have h8 : allDigits line off 8 =
      (allDigits line off 3 && (allDigits line (off + 3) 2 && allDigits line (off + 5) 3)) := by
    rw [show (8 : Nat) = 3 + (2 + 3) from rfl, allDigits_add, allDigits_add]
  unfold readLon
  simp only [str2int_neg_iff, h8, Bool.and_eq_true]
  by_cases h1 : allDigits line off 3 = true
  · by_cases h2 : allDigits line (off + 3) 2 = true
    · by_cases h3 : allDigits line (off + 5) 3 = true
      · simp only [h1, h2, h3, str2int_eq, if_true, true_and, Bool.true_eq_false,
          or_self, if_false, angleValue, Int.cast_natCast, gt_iff_lt, not_lt]
        by_cases hH : byteAt line (off + 8) = 69 ∨ byteAt line (off + 8) = 87
        · simp only [hH, not_true_eq_false, if_false, true_and]
          split
          · rename_i hgt
            rw [if_neg (not_le.2 hgt)]
          · rename_i hgt
            rw [if_pos (not_lt.1 hgt)]
        · simp [hH]
      · simp [h1, h2, h3]
    · simp [h1, h2]
  · simp [h1]

theorem decimalValue_congr (l l2 : List Nat) (off n : Nat)
    (h : ∀ j, off ≤ j → j < off + n → byteAt l2 j = byteAt l j) :
    decimalValue l2 off n = decimalValue l off n := by
  induction n generalizing off with
  | zero => rfl
  | succ n ih =>
    simp only [decimalValue]
    rw [h off (Nat.le_refl _) (by omega), ih (off + 1) (fun j h1 h2 => h j (by omega) (by omega))]

/-- The decoder `readAltitude` in closed form. -/
theorem readAltitude_eq (line : List Nat) (off : Nat) :
    readAltitude line off =
      if (byteAt line off = 65 ∨ byteAt line off = 86) ∧
          (if byteAt line (off + 1) = 45 then allDigits line (off + 2) 4 = true
           else allDigits line (off + 1) 5 = true) ∧
          allDigits line (off + 6) 5 = true then
        (if byteAt line off = 65 then some (some (decimalValue line (off + 6) 5 : ℚ))
         else some none)
      else none := by
  unfold readAltitude
  by_cases h0 : byteAt line off = 65 ∨ byteAt line off = 86
  · simp only [h0, not_true_eq_false, if_false, true_and]
    by_cases hg : allDigits line (off + 6) 5 = true
    · by_cases hm : byteAt line (off + 1) = 45
      · by_cases hp : allDigits line (off + 2) 4 = true
        · simp [hm, hp, hg, str2int_eq]
        · simp [hm, hp, hg, str2int_eq]
      · by_cases hp : allDigits line (off + 1) 5 = true
        · simp [hm, hp, hg, str2int_eq]
        · simp [hm, hp, hg, str2int_eq]
    · have : str2int line (off + 6) 5 < 0 := (str2int_neg_iff _ _ _).2 (by simpa using hg)
      simp [hg, this]
  · simp [h0]

theorem eq_of_length_eight (f : List Nat) (h : f.length = 8) :
    f = [byteAt f 0, byteAt f 1, byteAt f 2, byteAt f 3, byteAt f 4, byteAt f 5,
      byteAt f 6, byteAt f 7] := by
  rcases f with _ | ⟨a0, f⟩
  · simp at h
  rcases f with _ | ⟨a1, f⟩
  · simp at h
  rcases f with _ | ⟨a2, f⟩
  · simp at h
  rcases f with _ | ⟨a3, f⟩
  · simp at h
  rcases f with _ | ⟨a4, f⟩
  · simp at h
  rcases f with _ | ⟨a5, f⟩
  · simp at h
  rcases f with _ | ⟨a6, f⟩
  · simp at h
  rcases f with _ | ⟨a7, f⟩
  · simp at h
  rcases f with _ | ⟨a8, f⟩
  · rfl
  · simp at h

/-- The latitude of an accepted field, in thousandths of a minute. -/
theorem angleValue_lat_scaled (f : List Nat) :
    angleValue f 0 2 * 60000 =
      ((decimalValue f 0 2 * 60000 + decimalValue f 2 2 * 1000 + decimalValue f 4 3 : Nat) : ℚ) := by
  show ((decimalValue f 0 2 : ℚ) +
      ((decimalValue f 2 2 : ℚ) + (decimalValue f 4 3 : ℚ) / 1000) / 60) * 60000 = _
  push_cast
  ring

/-- Re-encoding the value of an accepted latitude field whose minutes are below
60 gives the field back, the southern zero apart. -/
theorem encodeLat_readLat (f : List Nat) (v : ℚ) (hlen : f.length = 8)
    (hv : readLat f 0 = some v) (hmm : decimalValue f 2 2 ≤ 59)
    (hz : f ≠ [48, 48, 48, 48, 48, 48, 48, 83]) : encodeLat v = f := by
  rw [readLat_eq] at hv
  by_cases hc : allDigits f 0 7 = true ∧ (byteAt f (0 + 7) = 78 ∨ byteAt f (0 + 7) = 83) ∧
      angleValue f 0 2 ≤ 90
  swap
  · rw [if_neg hc] at hv; cases hv
  rw [if_pos hc] at hv
  obtain ⟨hd, hH, -⟩ := hc
  rw [allDigits_iff] at hd
  have b0 := hd 0 (by omega) (by omega)
  have b1 := hd 1 (by omega) (by omega)
  have b2 := hd 2 (by omega) (by omega)
  have b3 := hd 3 (by omega) (by omega)
  have b4 := hd 4 (by omega) (by omega)
  have b5 := hd 5 (by omega) (by omega)
  have b6 := hd 6 (by omega) (by omega)
  have e2 : decimalValue f 0 2 = (byteAt f 0 - 48) * 10 + (byteAt f 1 - 48) := by
    simp [decimalValue]
  have e3 : decimalValue f 2 2 = (byteAt f 2 - 48) * 10 + (byteAt f 3 - 48) := by
    simp [decimalValue]
  have e4 : decimalValue f 4 3 =
      (byteAt f 4 - 48) * 100 + ((byteAt f 5 - 48) * 10 + (byteAt f 6 - 48)) := by
    simp [decimalValue]
  have hL := angleValue_lat_scaled f
  have hnn := angleValue_nonneg f 0 2
  simp only [Nat.zero_add] at hH hv
  -- the absolute value and the sign of the decoded value
  have habs : |v| = angleValue f 0 2 := by
    by_cases hS : byteAt f 7 = 83
    · rw [if_pos hS] at hv
      rw [← Option.some.inj hv, abs_neg, abs_of_nonneg hnn]
    · rw [if_neg hS] at hv
      rw [← Option.some.inj hv, abs_of_nonneg hnn]
  have hT : (Int.floor (|v| * 60000)).toNat =
      decimalValue f 0 2 * 60000 + decimalValue f 2 2 * 1000 + decimalValue f 4 3 := by
    rw [habs, hL, Int.floor_natCast, Int.toNat_natCast]
  have hsign : (if v < 0 then 83 else 78) = byteAt f 7 := by
    by_cases hS : byteAt f 7 = 83
    · rw [if_pos hS] at hv
      have hv2 := Option.some.inj hv
      have hpos : 0 < angleValue f 0 2 := by
        rcases lt_or_eq_of_le hnn with h | h
        · exact h
        · exfalso
          have h0 : ((decimalValue f 0 2 * 60000 + decimalValue f 2 2 * 1000 +
              decimalValue f 4 3 : Nat) : ℚ) = 0 := by
            rw [← hL, ← h]; ring
          have h0n : decimalValue f 0 2 * 60000 + decimalValue f 2 2 * 1000 +
              decimalValue f 4 3 = 0 := by exact_mod_cast h0
          apply hz
          rw [eq_of_length_eight f hlen]
          have a0 : byteAt f 0 = 48 := by omega
          have a1 : byteAt f 1 = 48 := by omega
          have a2 : byteAt f 2 = 48 := by omega
          have a3 : byteAt f 3 = 48 := by omega
          have a4 : byteAt f 4 = 48 := by omega
          have a5 : byteAt f 5 = 48 := by omega
          have a6 : byteAt f 6 = 48 := by omega
          rw [a0, a1, a2, a3, a4, a5, a6, hS]
      have : v < 0 := by rw [← hv2]; linarith
      rw [if_pos this, hS]
    · rw [if_neg hS] at hv
      have hv2 := Option.some.inj hv
      have : ¬ v < 0 := by rw [← hv2]; exact not_lt.2 hnn
      rw [if_neg this]
      omega
  unfold encodeLat
  simp only [hT, hsign]
  rw [e2, e3, e4]
  rw [e3] at hmm
  conv_rhs => rw [eq_of_length_eight f hlen]
  simp only [List.cons.injEq, and_true]
  refine ⟨?_, ?_, ?_, ?_, ?_, ?_, ?_⟩ <;> omega

theorem loadLoop_eq_runLines (fuel : Nat) (route track : Bool) (st : IGCParser)
    (dev : List Nat) :
    loadLoop fuel route track st dev = finish (runLines route track st (readerLines fuel dev)) := by
  induction fuel generalizing route track st dev with
  | zero => rfl
  | succ k ih =>
    simp only [loadLoop, readerLines]
    by_cases hpos : (readLine (sizeofLine - 1) dev).1.length > 0
    · simp only [hpos, if_true, runLines]
      cases loopBody route track st (readLine (sizeofLine - 1) dev).1 with
      | error s1 => rfl
      | ok v =>
        obtain ⟨r1, t1, s1⟩ := v
        exact ih _ _ _ _
    · simp only [hpos, if_false, runLines, finish]

/-- The result of `loadFile` is that of the turns of its loop over the lines it reads. -/
theorem loadFile_eq_runLines (st : IGCParser) (dev : List Nat) :
    st.loadFile dev = finish (runLines false false st.entered (deviceLines dev)) :=
  loadLoop_eq_runLines _ _ _ _ _

theorem readerLines_bounds (fuel : Nat) (dev : List Nat) :
    ∀ x ∈ readerLines fuel dev, 0 < x.length ∧ x.length ≤ 79 := by
  induction fuel generalizing dev with
  | zero => intro x hx; cases hx
  | succ k ih =>
    intro x hx
    simp only [readerLines] at hx
    by_cases hpos : (readLine (sizeofLine - 1) dev).1.length > 0
    · simp only [hpos, if_true, List.mem_cons] at hx
      rcases hx with h | h
      · subst h
        exact ⟨hpos, readLine_length_le 79 dev⟩
      · exact ih _ x h
    · simp only [hpos, if_false] at hx
      cases hx

theorem runLines_append (route track : Bool) (st : IGCParser) (a b : List (List Nat)) :
    runLines route track st (a ++ b) =
      match runLines route track st a with
      | Except.error s1 => Except.error s1
      | Except.ok (r1, t1, s1) => runLines r1 t1 s1 b := by
  induction a generalizing route track st with
  | nil => rfl
  | cons x xs ih =>
    simp only [List.cons_append, runLines]
    cases loopBody route track st x with
    | error s1 => rfl
    | ok v =>
      obtain ⟨r1, t1, s1⟩ := v
      exact ih _ _ _

/-- The handler of `B` lines either fails, changing the error string at most, or
appends the trackpoint that the line encodes and stores its time. -/
theorem readBRecord_cases (st : IGCParser) (line : List Nat) :
    (∃ e, st.readBRecord line = (false, { st with _errorString := e })) ∨
    (∃ t lat lon ele, 35 ≤ line.length ∧ readTimestamp line 1 = some t ∧
      readLat line 7 = some lat ∧ readLon line 15 = some lon ∧
      readAltitude line 24 = some ele ∧
      st.readBRecord line = (true, { st with
        _time := t
        _tracks := appendToLast st._tracks
          { coordinates := ⟨lon, lat⟩, timestamp := QDateTime.utc st._date t,
            elevation := ele } })) := by
  unfold IGCParser.readBRecord
  split
  · exact Or.inl ⟨st._errorString, rfl⟩
  · rename_i hlen
    split
    · exact Or.inl ⟨_, rfl⟩
    · rename_i t ht
      split
      · exact Or.inl ⟨_, rfl⟩
      · rename_i lat hlat
        split
        · exact Or.inl ⟨_, rfl⟩
        · rename_i lon hlon
          split
          · exact Or.inl ⟨_, rfl⟩
          · rename_i ele hele
            exact Or.inr ⟨t, lat, lon, ele, by omega, ht, hlat, hlon, hele, rfl⟩

/-- The handler of turnpoint lines either fails, changing the error string at
most, or skips a `(0, 0)` turnpoint, or appends the waypoint that the line
encodes. -/
theorem readCRecord_cases (st : IGCParser) (line : List Nat) :
    (∃ e, st.readCRecord line = (false, { st with _errorString := e })) ∨
    (18 ≤ line.length ∧ readLat line 1 = some 0 ∧ readLon line 9 = some 0 ∧
      st.readCRecord line = (true, st)) ∨
    (∃ lat lon, 18 ≤ line.length ∧ readLat line 1 = some lat ∧ readLon line 9 = some lon ∧
      ¬ (lat = 0 ∧ lon = 0) ∧
      st.readCRecord line = (true, { st with
        _routes := appendToLast st._routes
          { coordinates := ⟨lon, lat⟩, name := qstringBytes (trimmed (nameBytes line)) } })) := by
  unfold IGCParser.readCRecord
  split
  · exact Or.inl ⟨st._errorString, rfl⟩
  · rename_i hlen
    split
    · exact Or.inl ⟨_, rfl⟩
    · rename_i lat hlat
      split
      · exact Or.inl ⟨_, rfl⟩
      · rename_i lon hlon
        split
        · rename_i hz
          exact Or.inr (Or.inr ⟨lat, lon, by omega, hlat, hlon, hz, rfl⟩)
        · rename_i hz
          have hz2 : lat = 0 ∧ lon = 0 := by
            by_contra hc; exact hz hc
          refine Or.inr (Or.inl ⟨by omega, ?_, ?_, rfl⟩)
          · rw [hlat, hz2.1]
          · rw [hlon, hz2.2]

/-- The handler of `H` lines either fails, changing the date and the error
string at most, or leaves the parser as it is, or stores a valid date. -/
theorem readHRecord_cases (st : IGCParser) (line : List Nat) :
    (∃ d e, st.readHRecord line = (false, { st with _date := d, _errorString := e })) ∨
    st.readHRecord line = (true, st) ∨
    (∃ d, d.isValid = true ∧ st.readHRecord line = (true, { st with _date := d })) := by
  unfold IGCParser.readHRecord
  split
  · exact Or.inr (Or.inl rfl)
  · simp only []
    split
    · exact Or.inl ⟨st._date, _, rfl⟩
    · split
      · exact Or.inl ⟨_, _, rfl⟩
      · rename_i h3
        exact Or.inr (Or.inr ⟨_, by simpa using h3, rfl⟩)

theorem loopBody_ok_length (route track : Bool) (st : IGCParser) (x : List Nat)
    (v : Bool × Bool × IGCParser) (h : loopBody route track st x = Except.ok v) :
    x.length ≤ 79 := by
  have hs : (sizeofLine : Int) - 1 = 79 := by decide
  unfold loopBody at h
  simp only [hs] at h
  split at h
  · cases h
  · split at h
    · cases h
    · omega

/-- The turn of the loop on the first line. -/
theorem loopBody_first (route track : Bool) (st : IGCParser) (x : List Nat)
    (hl : x.length ≤ 79) (h1 : st._errorLine = 1) :
    loopBody route track st x =
      if readARecord x = true then Except.ok (route, track, st)
      else Except.error { st with _errorString := "Invalid/missing A record" } := by
  have hs : (sizeofLine : Int) - 1 = 79 := by decide
  unfold loopBody
  simp only [hs, h1, if_true]
  rw [if_neg (by omega), if_neg (by omega)]
  by_cases hA : readARecord x = true
  · simp [hA]
  · simp [hA]

/-- The turn of the loop on a line after the first: the dispatch on byte 0. -/
theorem loopBody_later (route track : Bool) (st : IGCParser) (x : List Nat)
    (hl : x.length ≤ 79) (h1 : st._errorLine ≠ 1) :
    loopBody route track st x =
      if byteAt x 0 = 72 then
        match st.readHRecord x with
        | (false, st1) => Except.error st1
        | (true, st1) => Except.ok (route, track, st1)
      else if byteAt x 0 = 67 then
        if route then
          match st.readCRecord x with
          | (false, st1) => Except.error st1
          | (true, st1) => Except.ok (route, track, st1)
        else
          Except.ok (true, track, { st with _routes := st._routes ++ [[]] })
      else if byteAt x 0 = 66 then
        if st._date.isNull then
          Except.error { st with _errorString := "Missing date header" }
        else
          match (if ¬ track then
              { st with _tracks := st._tracks ++ [[]], _time := QTime.hms 0 0 0 }
            else st).readBRecord x with
          | (false, st2) => Except.error st2
          | (true, st2) => Except.ok (route, true, st2)
      else Except.ok (route, track, st) := by
  have hs : (sizeofLine : Int) - 1 = 79 := by decide
  unfold loopBody
  simp only [hs, h1, if_false]
  rw [if_neg (by omega), if_neg (by omega)]

/-- A turn on a line after the first that does not begin with `'H'`, `'C'` or
`'B'` falls through and changes nothing. -/
theorem loopBody_skip (route track : Bool) (st : IGCParser) (x : List Nat)
    (hl : x.length ≤ 79) (h1 : st._errorLine ≠ 1)
    (hH : byteAt x 0 ≠ 72) (hC : byteAt x 0 ≠ 67) (hB : byteAt x 0 ≠ 66) :
    loopBody route track st x = Except.ok (route, track, st) := by
  rw [loopBody_later route track st x hl h1, if_neg hH, if_neg hC, if_neg hB]

/-- A turn on the first line beginning with `'C'` after line 1. -/
theorem loopBody_first_C (track : Bool) (st : IGCParser) (x : List Nat)
    (hl : x.length ≤ 79) (h1 : st._errorLine ≠ 1) (hC : byteAt x 0 = 67) :
    loopBody false track st x =
      Except.ok (true, track, { st with _routes := st._routes ++ [[]] }) := by
  rw [loopBody_later false track st x hl h1, if_neg (by omega), if_pos hC]
  rfl

/-- A turn that falls through on a line after the first beginning with `'B'`. -/
theorem loopBody_ok_B (route track r1 t1 : Bool) (st s1 : IGCParser) (x : List Nat)
    (h : loopBody route track st x = Except.ok (r1, t1, s1))
    (h1 : st._errorLine ≠ 1) (hB : byteAt x 0 = 66) :
    r1 = route ∧ t1 = true ∧ s1._routes = st._routes ∧ s1._errorLine = st._errorLine ∧
    s1._date = st._date ∧ st._date.isValid = true ∧
    ∃ tp : Trackpoint, fixOf x = some tp.fix ∧ tp.timestamp.date = st._date ∧
      s1._tracks = appendToLast (if track then st._tracks else st._tracks ++ [[]]) tp := by
  have hl := loopBody_ok_length _ _ _ _ _ h
  rw [loopBody_later route track st x hl h1, if_neg (by omega), if_neg (by omega),
    if_pos hB] at h
  by_cases hn : st._date.isNull = true
  · rw [if_pos hn] at h; cases h
  rw [if_neg hn] at h
  have hval : st._date.isValid = true := by
    rw [← isNull_false_iff]; simpa using hn
  have key : ∀ sB : IGCParser, sB._routes = st._routes → sB._errorLine = st._errorLine →
      sB._date = st._date →
      (match sB.readBRecord x with
        | (false, st2) => Except.error st2
        | (true, st2) => Except.ok (route, true, st2)) = Except.ok (r1, t1, s1) →
      r1 = route ∧ t1 = true ∧ s1._routes = st._routes ∧ s1._errorLine = st._errorLine ∧
      s1._date = st._date ∧
      ∃ tp : Trackpoint, fixOf x = some tp.fix ∧ tp.timestamp.date = st._date ∧
        s1._tracks = appendToLast sB._tracks tp := by
    intro sB e1 e2 e3 hm
    rcases readBRecord_cases sB x with ⟨e, he⟩ | ⟨t, lat, lon, ele, -, ht, hlat, hlon, hele, he⟩
    · rw [he] at hm; cases hm
    · rw [he] at hm
      simp only [Except.ok.injEq, Prod.mk.injEq] at hm
      obtain ⟨rfl, rfl, rfl⟩ := hm
      refine ⟨rfl, rfl, e1, e2, e3, ⟨⟨lon, lat⟩, QDateTime.utc sB._date t, ele⟩, ?_,
        (QDateTime.utc_date _ _).trans e3, rfl⟩
      simp only [fixOf, ht, hlat, hlon, hele, Trackpoint.fix]
      rw [QDateTime.utc_time _ _ (by rw [e3]; exact hval)]
  obtain ⟨a, b, c, d, e, tp, f1, f2, f3⟩ := key _ (by split <;> rfl) (by split <;> rfl)
    (by split <;> rfl) h
  refine ⟨a, b, c, d, e, hval, tp, f1, f2, ?_⟩
  rw [f3]
  cases track <;> rfl

/-- A turn that falls through on a line after the first not beginning with `'B'`
keeps the tracks and the track flag. -/
theorem loopBody_ok_notB (route track r1 t1 : Bool) (st s1 : IGCParser) (x : List Nat)
    (h : loopBody route track st x = Except.ok (r1, t1, s1))
    (h1 : st._errorLine ≠ 1) (hB : byteAt x 0 ≠ 66) :
    t1 = track ∧ s1._tracks = st._tracks := by
  have hl := loopBody_ok_length _ _ _ _ _ h
  rw [loopBody_later route track st x hl h1] at h
  split at h
  · rcases readHRecord_cases st x with ⟨d, e, he⟩ | he | ⟨d, -, he⟩
    · rw [he] at h; cases h
    · rw [he] at h; cases h; exact ⟨rfl, rfl⟩
    · rw [he] at h; cases h; exact ⟨rfl, rfl⟩
  split at h
  · split at h
    · rcases readCRecord_cases st x with ⟨e, he⟩ | ⟨-, -, -, he⟩ | ⟨lat, lon, -, -, -, -, he⟩
      · rw [he] at h; cases h
      · rw [he] at h; cases h; exact ⟨rfl, rfl⟩
      · rw [he] at h; cases h; exact ⟨rfl, rfl⟩
    · cases h; exact ⟨rfl, rfl⟩
  try rw [if_neg hB] at h
  cases h
  exact ⟨rfl, rfl⟩

/-- A turn that falls through on a line after the first not beginning with `'C'`
keeps the routes and the route flag. -/
theorem loopBody_ok_notC (route track r1 t1 : Bool) (st s1 : IGCParser) (x : List Nat)
    (h : loopBody route track st x = Except.ok (r1, t1, s1))
    (h1 : st._errorLine ≠ 1) (hC : byteAt x 0 ≠ 67) :
    r1 = route ∧ s1._routes = st._routes := by
  have hl := loopBody_ok_length _ _ _ _ _ h
  by_cases hB : byteAt x 0 = 66
  · obtain ⟨a, -, c, -⟩ := loopBody_ok_B _ _ _ _ _ _ _ h h1 hB
    exact ⟨a, c⟩
  rw [loopBody_later route track st x hl h1] at h
  split at h
  · rcases readHRecord_cases st x with ⟨d, e, he⟩ | he | ⟨d, -, he⟩
    · rw [he] at h; cases h
    · rw [he] at h; cases h; exact ⟨rfl, rfl⟩
    · rw [he] at h; cases h; exact ⟨rfl, rfl⟩
  try rw [if_neg hC] at h
  try rw [if_neg hB] at h
  cases h
  exact ⟨rfl, rfl⟩

/-- A turn that falls through on a line after the first beginning with `'C'`:
the first such line opens an empty route, a later one keeps the routes or
appends one waypoint to the last. -/
theorem loopBody_ok_C (route track r1 t1 : Bool) (st s1 : IGCParser) (x : List Nat)
    (h : loopBody route track st x = Except.ok (r1, t1, s1))
    (h1 : st._errorLine ≠ 1) (hC : byteAt x 0 = 67) :
    r1 = true ∧
    (route = false → s1._routes = st._routes ++ [[]]) ∧
    (route = true → s1._routes = st._routes ∨
      ∃ w : Waypoint, s1._routes = appendToLast st._routes w) := by
  have hl := loopBody_ok_length _ _ _ _ _ h
  rw [loopBody_later route track st x hl h1, if_neg (by omega), if_pos hC] at h
  by_cases hr : route = true
  · subst hr
    simp only [if_true] at h
    rcases readCRecord_cases st x with ⟨e, he⟩ | ⟨-, -, -, he⟩ | ⟨lat, lon, -, -, -, -, he⟩
    · rw [he] at h; cases h
    · rw [he] at h; cases h
      exact ⟨rfl, fun hf => absurd hf (by decide), fun _ => Or.inl rfl⟩
    · rw [he] at h; cases h
      exact ⟨rfl, fun hf => absurd hf (by decide), fun _ => Or.inr ⟨_, rfl⟩⟩
  · have hrf : route = false := by simpa using hr
    subst hrf
    simp only [Bool.false_eq_true, if_false] at h
    cases h
    exact ⟨rfl, fun _ => rfl, fun hf => absurd hf (by decide)⟩

/-- A turn that falls through keeps the line counter. -/
theorem loopBody_ok_errorLine (route track r1 t1 : Bool) (st s1 : IGCParser) (x : List Nat)
    (h : loopBody route track st x = Except.ok (r1, t1, s1)) :
    s1._errorLine = st._errorLine :=
  (loopBody_ok _ _ _ _ _ _ _ h).1

/-- With a track open, the turns of the loop over lines after the first append
to the last track the fixes of the lines that begin with `'B'`, in order. -/
theorem runLines_track_open (ls : List (List Nat)) (route r1 t1 : Bool) (st s1 : IGCParser)
    (init : List TrackData) (last : TrackData)
    (h : runLines route true st ls = Except.ok (r1, t1, s1))
    (h1 : 2 ≤ st._errorLine) (ht : st._tracks = init ++ [last]) :
    t1 = true ∧ ∃ tps : List Trackpoint, s1._tracks = init ++ [last ++ tps] ∧
      tps.map (fun tp => some tp.fix) =
        (ls.filter (fun x => decide (byteAt x 0 = 66))).map fixOf := by
  induction ls generalizing route st last with
  | nil =>
    simp only [runLines, Except.ok.injEq, Prod.mk.injEq] at h
    obtain ⟨-, rfl, rfl⟩ := h
    exact ⟨rfl, [], by simp [ht], rfl⟩
  | cons x xs ih =>
    simp only [runLines] at h
    cases hb : loopBody route true st x with
    | error s2 => rw [hb] at h; cases h
    | ok v =>
      obtain ⟨r2, t2, s2⟩ := v
      rw [hb] at h
      simp only at h
      have hline := loopBody_ok_errorLine _ _ _ _ _ _ _ hb
      by_cases hB : byteAt x 0 = 66
      · obtain ⟨-, e2, -, -, -, -, tp, f1, -, f3⟩ :=
          loopBody_ok_B _ _ _ _ _ _ _ hb (by omega) hB
        subst e2
        simp only [if_true] at f3
        rw [ht, appendToLast_append] at f3
        obtain ⟨i1, tps, i2, i3⟩ := ih _ _ (last ++ [tp]) h
          (by show 2 ≤ s2._errorLine + 1; omega) f3
        refine ⟨i1, tp :: tps, ?_, ?_⟩
        · rw [i2, List.append_assoc]; rfl
        · simp only [List.map_cons, List.filter_cons, hB, decide_True, if_true, i3, f1]
      · obtain ⟨e2, e3⟩ := loopBody_ok_notB _ _ _ _ _ _ _ hb (by omega) hB
        subst e2
        obtain ⟨i1, tps, i2, i3⟩ := ih _ _ last h
          (by show 2 ≤ s2._errorLine + 1; omega) (by show s2._tracks = _; rw [e3, ht])
        refine ⟨i1, tps, i2, ?_⟩
        simp only [List.filter_cons, hB, decide_False, Bool.false_eq_true, if_false, i3]

/-- With no track open, the turns of the loop over lines after the first leave
the tracks as they are when no line begins with `'B'`, and otherwise add one
track holding the fixes of the lines that begin with `'B'`, in order. -/
theorem runLines_track_closed (ls : List (List Nat)) (route r1 t1 : Bool) (st s1 : IGCParser)
    (h : runLines route false st ls = Except.ok (r1, t1, s1))
    (h1 : 2 ≤ st._errorLine) :
    (ls.filter (fun x => decide (byteAt x 0 = 66)) = [] → t1 = false ∧ s1._tracks = st._tracks) ∧
    (ls.filter (fun x => decide (byteAt x 0 = 66)) ≠ [] →
      t1 = true ∧ ∃ tps : List Trackpoint, s1._tracks = st._tracks ++ [tps] ∧
        tps.map (fun tp => some tp.fix) =
          (ls.filter (fun x => decide (byteAt x 0 = 66))).map fixOf) := by
  induction ls generalizing route st with
  | nil =>
    simp only [runLines, Except.ok.injEq, Prod.mk.injEq] at h
    obtain ⟨-, rfl, rfl⟩ := h
    exact ⟨fun _ => ⟨rfl, rfl⟩, fun hne => absurd rfl hne⟩
  | cons x xs ih =>
    simp only [runLines] at h
    cases hb : loopBody route false st x with
    | error s2 => rw [hb] at h; cases h
    | ok v =>
      obtain ⟨r2, t2, s2⟩ := v
      rw [hb] at h
      simp only at h
      have hline := loopBody_ok_errorLine _ _ _ _ _ _ _ hb
      by_cases hB : byteAt x 0 = 66
      · obtain ⟨-, e2, -, -, -, -, tp, f1, -, f3⟩ :=
          loopBody_ok_B _ _ _ _ _ _ _ hb (by omega) hB
        subst e2
        simp only [Bool.false_eq_true, if_false] at f3
        rw [appendToLast_append] at f3
        obtain ⟨i1, tps, i2, i3⟩ := runLines_track_open xs _ r1 t1 _ s1 st._tracks
          ([] ++ [tp]) h (by show 2 ≤ s2._errorLine + 1; omega) f3
        constructor
        · intro hnil
          simp [List.filter_cons, hB] at hnil
        · intro _
          refine ⟨i1, tp :: tps, ?_, ?_⟩
          · rw [i2]; rfl
          · simp only [List.map_cons, List.filter_cons, hB, decide_True, if_true, i3, f1]
      · obtain ⟨e2, e3⟩ := loopBody_ok_notB _ _ _ _ _ _ _ hb (by omega) hB
        subst e2
        have j1 := ih _ _ h (by show 2 ≤ s2._errorLine + 1; omega)
        simp only [List.filter_cons, hB, decide_False, Bool.false_eq_true, if_false]
        change (_ → t1 = false ∧ s1._tracks = s2._tracks) ∧
          (_ → t1 = true ∧ ∃ tps : List Trackpoint, s1._tracks = s2._tracks ++ [tps] ∧ _) at j1
        rw [e3] at j1
        exact j1

theorem inputFirstLine_pos (b : Nat) (bs : List Nat) : 0 < (inputFirstLine (b :: bs)).length := by
  simp only [inputFirstLine]
  split <;> simp

theorem inputFirstLine_length_le (dev : List Nat) : (inputFirstLine dev).length ≤ dev.length := by
  induction dev with
  | nil => simp [inputFirstLine]
  | cons b bs ih =>
    simp only [inputFirstLine]
    split
    · simp
    · simp only [List.length_cons]; omega

theorem inputLinesFrom_cons (b : Nat) (bs cur : List Nat) :
    inputLinesFrom (b :: bs) cur =
      (cur ++ inputFirstLine (b :: bs)) ::
        inputLinesFrom ((b :: bs).drop (inputFirstLine (b :: bs)).length) [] := by
  induction bs generalizing b cur with
  | nil =>
    by_cases hb : b = 10
    · simp [inputLinesFrom, inputFirstLine, hb]
    · simp [inputLinesFrom, inputFirstLine, hb]
  | cons c cs ih =>
    by_cases hb : b = 10
    · simp [inputLinesFrom, inputFirstLine, hb]
    · have := ih c (cur ++ [b])
      simp only [inputLinesFrom, hb, if_false] at this ⊢
      rw [this]
      simp [inputFirstLine, hb]

theorem readLine_first (n : Nat) (dev : List Nat) (h : (inputFirstLine dev).length ≤ n) :
    readLine n dev = (inputFirstLine dev, dev.drop (inputFirstLine dev).length) := by
  induction n generalizing dev with
  | zero =>
    cases dev with
    | nil => simp [readLine, inputFirstLine]
    | cons b bs =>
      have := inputFirstLine_pos b bs
      omega
  | succ n ih =>
    cases dev with
    | nil => simp [readLine, inputFirstLine]
    | cons b bs =>
      by_cases hb : b = 10
      · simp [readLine, inputFirstLine, hb]
      · simp only [inputFirstLine, hb, if_false, List.length_cons] at h ⊢
        simp only [readLine, hb, if_false, ih bs (by omega), List.drop_succ_cons]

theorem readerLines_eq_inputLines (fuel : Nat) (dev : List Nat) (hf : dev.length ≤ fuel)
    (h : ∀ l ∈ inputLines dev, l.length ≤ 79) : readerLines fuel dev = inputLines dev := by
  induction fuel generalizing dev with
  | zero =>
    have : dev = [] := List.length_eq_zero.1 (by omega)
    subst this
    rfl
  | succ k ih =>
    cases dev with
    | nil => simp [readerLines, readLine, inputLines, inputLinesFrom]
    | cons b bs =>
      have hcons : inputLines (b :: bs) =
          inputFirstLine (b :: bs) ::
            inputLines ((b :: bs).drop (inputFirstLine (b :: bs)).length) := by
        unfold inputLines
        rw [inputLinesFrom_cons]
        simp
      rw [hcons] at h ⊢
      have hfl := h _ (List.mem_cons_self _ _)
      have hpos := inputFirstLine_pos b bs
      have h79 : sizeofLine - 1 = 79 := by decide
      simp only [readerLines, h79, readLine_first 79 (b :: bs) hfl, gt_iff_lt, hpos, if_true]
      congr 1
      apply ih
      · simp only [List.length_drop, List.length_cons] at hf ⊢
        omega
      · intro l hl
        exact h l (List.mem_cons_of_mem _ hl)

/-- When no line of the input has more than 79 bytes, the driver reads the
input line by line. -/
theorem deviceLines_eq_inputLines (dev : List Nat)
    (h : ∀ l ∈ inputLines dev, l.length ≤ 79) : deviceLines dev = inputLines dev :=
  readerLines_eq_inputLines _ _ (Nat.le_refl _) h

theorem appendToLast_length {α : Type} (ts : List (List α)) (x : α) :
    (appendToLast ts x).length = ts.length := by
  induction ts with
  | nil => rfl
  | cons t us ih =>
    cases us with
    | nil => rfl
    | cons u vs =>
      simp only [appendToLast, List.length_cons] at ih ⊢
      rw [ih]

/-- With a route open, the turns of the loop over lines after the first append
to the last route at most one waypoint for each line that begins with `'C'`. -/
theorem runLines_route_open (ls : List (List Nat)) (track r1 t1 : Bool) (st s1 : IGCParser)
    (init : List RouteData) (last : RouteData)
    (h : runLines true track st ls = Except.ok (r1, t1, s1))
    (h1 : 2 ≤ st._errorLine) (hr : st._routes = init ++ [last]) :
    r1 = true ∧ ∃ wps : List Waypoint, s1._routes = init ++ [last ++ wps] ∧
      wps.length ≤ (ls.filter (fun x => decide (byteAt x 0 = 67))).length := by
  induction ls generalizing track st last with
  | nil =>
    simp only [runLines, Except.ok.injEq, Prod.mk.injEq] at h
    obtain ⟨rfl, -, rfl⟩ := h
    exact ⟨rfl, [], by simp [hr], by simp⟩
  | cons x xs ih =>
    simp only [runLines] at h
    cases hb : loopBody true track st x with
    | error s2 => rw [hb] at h; cases h
    | ok v =>
      obtain ⟨r2, t2, s2⟩ := v
      rw [hb] at h
      simp only at h
      have hline := loopBody_ok_errorLine _ _ _ _ _ _ _ hb
      by_cases hC : byteAt x 0 = 67
      · obtain ⟨e1, -, e3⟩ := loopBody_ok_C _ _ _ _ _ _ _ hb (by omega) hC
        subst e1
        rcases e3 rfl with e | ⟨w, e⟩
        · obtain ⟨i1, wps, i2, i3⟩ := ih _ _ last h
            (by show 2 ≤ s2._errorLine + 1; omega) (by show s2._routes = _; rw [e, hr])
          refine ⟨i1, wps, i2, ?_⟩
          simp only [List.filter_cons, hC, decide_True, if_true, List.length_cons]
          omega
        · rw [hr, appendToLast_append] at e
          obtain ⟨i1, wps, i2, i3⟩ := ih _ _ (last ++ [w]) h
            (by show 2 ≤ s2._errorLine + 1; omega) e
          refine ⟨i1, w :: wps, ?_, ?_⟩
          · rw [i2, List.append_assoc]; rfl
          · simp only [List.filter_cons, hC, decide_True, if_true, List.length_cons]
            omega
      · obtain ⟨e1, e2⟩ := loopBody_ok_notC _ _ _ _ _ _ _ hb (by omega) hC
        subst e1
        obtain ⟨i1, wps, i2, i3⟩ := ih _ _ last h
          (by show 2 ≤ s2._errorLine + 1; omega) (by show s2._routes = _; rw [e2, hr])
        refine ⟨i1, wps, i2, ?_⟩
        simp only [List.filter_cons, hC, decide_False, Bool.false_eq_true, if_false]
        exact i3

/-- With no route open, the turns of the loop over lines after the first leave
the routes as they are when no line begins with `'C'`; otherwise they add one
route, which holds at most one waypoint for each such line but the first. -/
theorem runLines_route_closed (ls : List (List Nat)) (track r1 t1 : Bool) (st s1 : IGCParser)
    (h : runLines false track st ls = Except.ok (r1, t1, s1))
    (h1 : 2 ≤ st._errorLine) :
    (ls.filter (fun x => decide (byteAt x 0 = 67)) = [] → r1 = false ∧ s1._routes = st._routes) ∧
    (ls.filter (fun x => decide (byteAt x 0 = 67)) ≠ [] →
      r1 = true ∧ ∃ wps : List Waypoint, s1._routes = st._routes ++ [wps] ∧
        wps.length + 1 ≤ (ls.filter (fun x => decide (byteAt x 0 = 67))).length) := by
  induction ls generalizing track st with
  | nil =>
    simp only [runLines, Except.ok.injEq, Prod.mk.injEq] at h
    obtain ⟨rfl, -, rfl⟩ := h
    exact ⟨fun _ => ⟨rfl, rfl⟩, fun hne => absurd rfl hne⟩
  | cons x xs ih =>
    simp only [runLines] at h
    cases hb : loopBody false track st x with
    | error s2 => rw [hb] at h; cases h
    | ok v =>
      obtain ⟨r2, t2, s2⟩ := v
      rw [hb] at h
      simp only at h
      have hline := loopBody_ok_errorLine _ _ _ _ _ _ _ hb
      by_cases hC : byteAt x 0 = 67
      · obtain ⟨e1, e2, -⟩ := loopBody_ok_C _ _ _ _ _ _ _ hb (by omega) hC
        subst e1
        have e := e2 rfl
        obtain ⟨i1, wps, i2, i3⟩ := runLines_route_open xs _ r1 t1 _ s1 st._routes [] h
          (by show 2 ≤ s2._errorLine + 1; omega) e
        constructor
        · intro hnil
          simp [List.filter_cons, hC] at hnil
        · intro _
          refine ⟨i1, wps, by simpa using i2, ?_⟩
          simp only [List.filter_cons, hC, decide_True, if_true, List.length_cons]
          omega
      · obtain ⟨e1, e2⟩ := loopBody_ok_notC _ _ _ _ _ _ _ hb (by omega) hC
        subst e1
        have j1 := ih _ _ h (by show 2 ≤ s2._errorLine + 1; omega)
        simp only [List.filter_cons, hC, decide_False, Bool.false_eq_true, if_false]
        change (_ → r1 = false ∧ s1._routes = s2._routes) ∧
          (_ → r1 = true ∧ ∃ wps : List Waypoint, s1._routes = s2._routes ++ [wps] ∧ _) at j1
        rw [e2] at j1
        exact j1

/-- An accepted run: the first line passes the A-record test and leaves the
parser as entered, and the other lines are run from line 2 with both flags off. -/
theorem loadFile_accepted (st s : IGCParser) (dev : List Nat)
    (h : st.loadFile dev = (true, s)) :
    (deviceLines dev = [] ∧ s = st.entered) ∨
    (∃ r t, runLines false false { st.entered with _errorLine := 2 } (deviceLines dev).tail =
      Except.ok (r, t, s)) := by
  rw [loadFile_eq_runLines] at h
  cases hd : deviceLines dev with
  | nil =>
    rw [hd] at h
    simp only [runLines, finish, Prod.mk.injEq, true_and] at h
    exact Or.inl ⟨rfl, h.symm⟩
  | cons l1 ls =>
    right
    rw [hd] at h
    simp only [runLines] at h
    cases hb : loopBody false false st.entered l1 with
    | error s2 => rw [hb] at h; cases h
    | ok v =>
      obtain ⟨r2, t2, s2⟩ := v
      have hl := loopBody_ok_length _ _ _ _ _ hb
      have hb2 := hb
      rw [loopBody_first false false st.entered l1 hl rfl] at hb2
      split at hb2
      · simp only [Except.ok.injEq, Prod.mk.injEq] at hb2
        obtain ⟨rfl, rfl, rfl⟩ := hb2
        rw [hb] at h
        simp only [List.tail_cons]
        change finish (runLines false false { st.entered with _errorLine := 2 } ls) =
          (true, s) at h
        cases hrun : runLines false false { st.entered with _errorLine := 2 } ls with
        | error s3 => rw [hrun] at h; cases h
        | ok v =>
          obtain ⟨r3, t3, s3⟩ := v
          rw [hrun] at h
          simp only [finish, Prod.mk.injEq, true_and] at h
          subst h
          exact ⟨r3, t3, rfl⟩
      · cases hb2

/-- What a turn of the loop does to the routes and to the tracks, whether it
falls through or returns. -/
theorem loopBody_effect (route track : Bool) (st s : IGCParser) (x : List Nat)
    (hs : outState (loopBody route track st x) = s) :
    (s._routes = st._routes ∨ s._routes = st._routes ++ [[]] ∨
      ∃ lat lon, byteAt x 0 = 67 ∧ 18 ≤ x.length ∧
        readLat x 1 = some lat ∧ readLon x 9 = some lon ∧ ¬ (lat = 0 ∧ lon = 0) ∧
        s._routes = appendToLast st._routes
          { coordinates := ⟨lon, lat⟩, name := qstringBytes (trimmed (nameBytes x)) }) ∧
    (s._tracks = st._tracks ∨ s._tracks = st._tracks ++ [[]] ∨
      ∃ lat lon t ele base, readLat x 7 = some lat ∧ readLon x 15 = some lon ∧
        (base = st._tracks ∨ base = st._tracks ++ [[]]) ∧
        s._tracks = appendToLast base
          { coordinates := ⟨lon, lat⟩, timestamp := QDateTime.utc st._date t,
            elevation := ele }) := by
  unfold loopBody at hs
  simp only at hs
  split at hs
  · rw [← hs]; exact ⟨Or.inl rfl, Or.inl rfl⟩
  split at hs
  · rw [← hs]; exact ⟨Or.inl rfl, Or.inl rfl⟩
  split at hs
  · split at hs <;> (rw [← hs]; exact ⟨Or.inl rfl, Or.inl rfl⟩)
  split at hs
  · rcases readHRecord_cases st x with ⟨d, e, he⟩ | he | ⟨d, -, he⟩ <;>
      (rw [he] at hs; rw [← hs]; exact ⟨Or.inl rfl, Or.inl rfl⟩)
  split at hs
  · rename_i hC
    split at hs
    · rcases readCRecord_cases st x with ⟨e, he⟩ | ⟨-, -, -, he⟩ |
        ⟨lat, lon, hlen, hlat, hlon, hz, he⟩
      · rw [he] at hs; rw [← hs]; exact ⟨Or.inl rfl, Or.inl rfl⟩
      · rw [he] at hs; rw [← hs]; exact ⟨Or.inl rfl, Or.inl rfl⟩
      · rw [he] at hs; rw [← hs]
        exact ⟨Or.inr (Or.inr ⟨lat, lon, hC, hlen, hlat, hlon, hz, rfl⟩), Or.inl rfl⟩
    · rw [← hs]; exact ⟨Or.inr (Or.inl rfl), Or.inl rfl⟩
  split at hs
  · split at hs
    · rw [← hs]; exact ⟨Or.inl rfl, Or.inl rfl⟩
    · have key : ∀ sB : IGCParser, sB._routes = st._routes → sB._date = st._date →
          (sB._tracks = st._tracks ∨ sB._tracks = st._tracks ++ [[]]) →
          outState (match sB.readBRecord x with
              | (false, st2) => Except.error st2
              | (true, st2) => Except.ok (route, true, st2)) = s →
          s._routes = st._routes ∧
          (s._tracks = st._tracks ∨ s._tracks = st._tracks ++ [[]] ∨
            ∃ lat lon t ele base, readLat x 7 = some lat ∧ readLon x 15 = some lon ∧
              (base = st._tracks ∨ base = st._tracks ++ [[]]) ∧
              s._tracks = appendToLast base
                { coordinates := ⟨lon, lat⟩, timestamp := QDateTime.utc st._date t,
                  elevation := ele }) := by
        intro sB e1 e2 e3 hm
        rcases readBRecord_cases sB x with ⟨e, he⟩ |
          ⟨t, lat, lon, ele, -, -, hlat, hlon, -, he⟩
        · rw [he] at hm; rw [← hm]
          refine ⟨e1, ?_⟩
          rcases e3 with e3 | e3
          · exact Or.inl e3
          · exact Or.inr (Or.inl e3)
        · rw [he] at hm; rw [← hm]
          refine ⟨e1, Or.inr (Or.inr ⟨lat, lon, t, ele, sB._tracks, hlat, hlon, e3, ?_⟩)⟩
          show appendToLast sB._tracks _ = _
          rw [e2]
      obtain ⟨k1, k2⟩ := key _ (by split <;> rfl) (by split <;> rfl)
        (by split
            · exact Or.inr rfl
            · exact Or.inl rfl) hs
      exact ⟨Or.inl k1, k2⟩
  · rw [← hs]; exact ⟨Or.inl rfl, Or.inl rfl⟩

/-- A property of all trackpoints and waypoints that holds of what the handlers
append is kept by a turn of the loop. -/
theorem loopBody_outputsSatisfy (PT : Trackpoint → Prop) (PW : Waypoint → Prop)
    (hT : ∀ (x : List Nat) (lat lon : ℚ) (d : QDate) (t : QTime) (ele : Option ℚ),
      readLat x 7 = some lat → readLon x 15 = some lon →
      PT { coordinates := ⟨lon, lat⟩, timestamp := ⟨d, t⟩, elevation := ele })
    (hW : ∀ (x : List Nat) (lat lon : ℚ), readLat x 1 = some lat → readLon x 9 = some lon →
      ¬ (lat = 0 ∧ lon = 0) →
      PW { coordinates := ⟨lon, lat⟩, name := qstringBytes (trimmed (nameBytes x)) })
    (route track : Bool) (st : IGCParser) (x : List Nat)
    (h : outputsSatisfy PT PW st) :
    outputsSatisfy PT PW (outState (loopBody route track st x)) := by
  obtain ⟨hr, ht⟩ := loopBody_effect route track st _ x rfl
  obtain ⟨h1, h2⟩ := h
  constructor
  · rcases ht with e | e | ⟨lat, lon, t, ele, base, hlat, hlon, hbase, e⟩
    · rw [e]; exact h1
    · rw [e]
      intro tr htr tp htp
      rcases List.mem_append.1 htr with h | h
      · exact h1 tr h tp htp
      · rw [List.mem_singleton.1 h] at htp; cases htp
    · rw [e]
      intro tr htr tp htp
      rcases appendToLast_mem _ _ _ htr tp htp with h | ⟨t2, ht2, h⟩
      · rw [h]
        exact hT x lat lon (QDateTime.utc st._date t).date (QDateTime.utc st._date t).time ele
          hlat hlon
      · rcases hbase with hb | hb
        · rw [hb] at ht2; exact h1 t2 ht2 tp h
        · rw [hb] at ht2
          rcases List.mem_append.1 ht2 with h3 | h3
          · exact h1 t2 h3 tp h
          · rw [List.mem_singleton.1 h3] at h; cases h
  · rcases hr with e | e | ⟨lat, lon, -, -, hlat, hlon, hz, e⟩
    · rw [e]; exact h2
    · rw [e]
      intro rt hrt w hw
      rcases List.mem_append.1 hrt with h | h
      · exact h2 rt h w hw
      · rw [List.mem_singleton.1 h] at hw; cases hw
    · rw [e]
      intro rt hrt w hw
      rcases appendToLast_mem _ _ _ hrt w hw with h | ⟨r2, hr2, h⟩
      · rw [h]; exact hW x lat lon hlat hlon hz
      · exact h2 r2 hr2 w h

theorem loadLoop_outputsSatisfy (PT : Trackpoint → Prop) (PW : Waypoint → Prop)
    (hT : ∀ (x : List Nat) (lat lon : ℚ) (d : QDate) (t : QTime) (ele : Option ℚ),
      readLat x 7 = some lat → readLon x 15 = some lon →
      PT { coordinates := ⟨lon, lat⟩, timestamp := ⟨d, t⟩, elevation := ele })
    (hW : ∀ (x : List Nat) (lat lon : ℚ), readLat x 1 = some lat → readLon x 9 = some lon →
      ¬ (lat = 0 ∧ lon = 0) →
      PW { coordinates := ⟨lon, lat⟩, name := qstringBytes (trimmed (nameBytes x)) })
    (fuel : Nat) (route track : Bool) (st : IGCParser) (dev : List Nat)
    (h : outputsSatisfy PT PW st) :
    outputsSatisfy PT PW (loadLoop fuel route track st dev).2 := by
  induction fuel generalizing route track st dev with
  | zero => exact h
  | succ k ih =>
    simp only [loadLoop]
    split
    · have hb := loopBody_outputsSatisfy PT PW hT hW route track st
        (readLine (sizeofLine - 1) dev).1 h
      cases hl : loopBody route track st (readLine (sizeofLine - 1) dev).1 with
      | error s2 => rw [hl] at hb; exact hb
      | ok v =>
        obtain ⟨r2, t2, s2⟩ := v
        rw [hl] at hb
        exact ih _ _ _ _ hb
    · exact h

/-- A property of all trackpoints and waypoints that holds of what the handlers
append holds of the whole output of `loadFile` on a parser without output. -/
theorem loadFile_outputsSatisfy (PT : Trackpoint → Prop) (PW : Waypoint → Prop)
    (hT : ∀ (x : List Nat) (lat lon : ℚ) (d : QDate) (t : QTime) (ele : Option ℚ),
      readLat x 7 = some lat → readLon x 15 = some lon →
      PT { coordinates := ⟨lon, lat⟩, timestamp := ⟨d, t⟩, elevation := ele })
    (hW : ∀ (x : List Nat) (lat lon : ℚ), readLat x 1 = some lat → readLon x 9 = some lon →
      ¬ (lat = 0 ∧ lon = 0) →
      PW { coordinates := ⟨lon, lat⟩, name := qstringBytes (trimmed (nameBytes x)) })
    (st : IGCParser) (dev : List Nat) (ht : st._tracks = []) (hr : st._routes = []) :
    outputsSatisfy PT PW (st.loadFile dev).2 := by
  apply loadLoop_outputsSatisfy PT PW hT hW
  constructor
  · intro tr htr
    change tr ∈ st._tracks at htr
    rw [ht] at htr; cases htr
  · intro rt hrt
    change rt ∈ st._routes at hrt
    rw [hr] at hrt; cases hrt

/-- A waypoint that a turn of the loop leaves was there before or is the one
that the line of this turn, a turnpoint line, encodes. -/
theorem loopBody_waypoints (route track : Bool) (st : IGCParser) (x : List Nat) :
    ∀ rt ∈ (outState (loopBody route track st x))._routes, ∀ w ∈ rt,
      (∃ r0 ∈ st._routes, w ∈ r0) ∨
      (byteAt x 0 = 67 ∧ 18 ≤ x.length ∧
        ∃ lat lon, readLat x 1 = some lat ∧ readLon x 9 = some lon ∧ ¬ (lat = 0 ∧ lon = 0) ∧
          w = { coordinates := ⟨lon, lat⟩,
                name := qstringBytes (trimmed (nameBytes x)) }) := by
  intro rt hrt w hw
  rcases (loopBody_effect route track st _ x rfl).1 with e | e |
    ⟨lat, lon, hC, hlen, hlat, hlon, hz, e⟩
  · rw [e] at hrt
    exact Or.inl ⟨rt, hrt, hw⟩
  · rw [e] at hrt
    rcases List.mem_append.1 hrt with h | h
    · exact Or.inl ⟨rt, h, hw⟩
    · rw [List.mem_singleton.1 h] at hw; cases hw
  · rw [e] at hrt
    rcases appendToLast_mem _ _ _ hrt w hw with h | ⟨r2, hr2, h⟩
    · exact Or.inr ⟨hC, hlen, lat, lon, hlat, hlon, hz, h⟩
    · exact Or.inl ⟨r2, hr2, h⟩

/-- A waypoint that the turns of the loop over some lines leave was there before
or is the one that one of these lines, a turnpoint line, encodes. -/
theorem runLines_waypoints (ls : List (List Nat)) (route track : Bool) (st : IGCParser) :
    ∀ rt ∈ (outState (runLines route track st ls))._routes, ∀ w ∈ rt,
      (∃ r0 ∈ st._routes, w ∈ r0) ∨
      ∃ x ∈ ls, byteAt x 0 = 67 ∧ 18 ≤ x.length ∧
        ∃ lat lon, readLat x 1 = some lat ∧ readLon x 9 = some lon ∧ ¬ (lat = 0 ∧ lon = 0) ∧
          w = { coordinates := ⟨lon, lat⟩,
                name := qstringBytes (trimmed (nameBytes x)) } := by
  induction ls generalizing route track st with
  | nil =>
    intro rt hrt w hw
    exact Or.inl ⟨rt, hrt, hw⟩
  | cons x xs ih =>
    intro rt hrt w hw
    have hx := loopBody_waypoints route track st x
    unfold runLines at hrt
    cases hb : loopBody route track st x with
    | error s1 =>
      rw [hb] at hrt hx
      rcases hx rt hrt w hw with h | h
      · exact Or.inl h
      · exact Or.inr ⟨x, List.mem_cons_self _ _, h⟩
    | ok v =>
      obtain ⟨r1, t1, s1⟩ := v
      rw [hb] at hrt hx
      rcases ih r1 t1 _ rt hrt w hw with ⟨r0, hr0, h0⟩ | ⟨y, hy, h⟩
      · rcases hx r0 hr0 w h0 with h | h
        · exact Or.inl h
        · exact Or.inr ⟨x, List.mem_cons_self _ _, h⟩
      · exact Or.inr ⟨y, List.mem_cons_of_mem _ hy, h⟩

theorem finish_outState (r : Except IGCParser (Bool × Bool × IGCParser)) :
    (finish r).2 = outState r := by
  cases r with
  | error s => rfl
  | ok v => rfl

/-- Every waypoint that `loadFile` produces, starting with no routes, is the one
that a turnpoint line read after the first line encodes. -/
theorem loadFile_waypoints (st : IGCParser) (dev : List Nat) (hr : st._routes = []) :
    ∀ rt ∈ (st.loadFile dev).2._routes, ∀ w ∈ rt,
      ∃ x ∈ (deviceLines dev).tail, byteAt x 0 = 67 ∧ 18 ≤ x.length ∧
        ∃ lat lon, readLat x 1 = some lat ∧ readLon x 9 = some lon ∧ ¬ (lat = 0 ∧ lon = 0) ∧
          w = { coordinates := ⟨lon, lat⟩,
                name := qstringBytes (trimmed (nameBytes x)) } := by
  intro rt hrt w hw
  rw [loadFile_eq_runLines, finish_outState] at hrt
  have hnone : ∀ r0 ∈ st.entered._routes, w ∉ r0 := by
    intro r0 h0
    change r0 ∈ st._routes at h0
    rw [hr] at h0
    cases h0
  cases hd : deviceLines dev with
  | nil =>
    rw [hd] at hrt
    exact absurd hw (hnone rt hrt)
  | cons x0 xs =>
    rw [hd] at hrt
    have hm : x0 ∈ deviceLines dev := by rw [hd]; exact List.mem_cons_self _ _
    have hl : x0.length ≤ 79 := (readerLines_bounds _ _ x0 hm).2
    unfold runLines at hrt
    rw [loopBody_first false false st.entered x0 hl rfl] at hrt
    by_cases hA : readARecord x0 = true
    · rw [if_pos hA] at hrt
      rcases runLines_waypoints xs false false _ rt hrt w hw with ⟨r0, hr0, h0⟩ | h
      · exact absurd h0 (hnone r0 hr0)
      · exact h
    · rw [if_neg hA] at hrt
      exact absurd hw (hnone rt hrt)

theorem readLat_range (line : List Nat) (off : Nat) (v : ℚ) (h : readLat line off = some v) :
    -90 ≤ v ∧ v ≤ 90 := by
  rw [readLat_eq] at h
  have hnn := angleValue_nonneg line off 2
  split at h
  · rename_i hc
    obtain ⟨-, -, hle⟩ := hc
    split at h
    · rw [← Option.some.inj h]
      constructor <;> linarith
    · rw [← Option.some.inj h]
      constructor <;> linarith
  · cases h

theorem readLon_range (line : List Nat) (off : Nat) (v : ℚ) (h : readLon line off = some v) :
    -180 ≤ v ∧ v ≤ 180 := by
  rw [readLon_eq] at h
  have hnn := angleValue_nonneg line off 3
  split at h
  · rename_i hc
    obtain ⟨-, -, hle⟩ := hc
    split at h
    · rw [← Option.some.inj h]
      constructor <;> linarith
    · rw [← Option.some.inj h]
      constructor <;> linarith
  · cases h

theorem dropWhile_head_not (p : Nat → Bool) (l : List Nat) (c : Nat)
    (h : (l.dropWhile p).head? = some c) : p c = false := by
  have := List.head?_dropWhile_not p l
  rw [h] at this
  exact this

/-- The first byte of a trimmed byte array is not whitespace. -/
theorem trimmed_head (ba : List Nat) (c : Nat) (h : (trimmed ba).head? = some c) :
    isspace c = false := by
  unfold trimmed at h
  -- the trimmed array is a prefix of the array with its leading whitespace dropped
  have hsplit : ba.dropWhile isspace =
      ((ba.dropWhile isspace).reverse.dropWhile isspace).reverse ++
        ((ba.dropWhile isspace).reverse.takeWhile isspace).reverse := by
    rw [← List.reverse_append, List.takeWhile_append_dropWhile, List.reverse_reverse]
  have hne : ((ba.dropWhile isspace).reverse.dropWhile isspace).reverse ≠ [] := by
    intro hnil
    rw [hnil] at h
    cases h
  have hh : (ba.dropWhile isspace).head? = some c := by
    rw [hsplit, List.head?_append_of_ne_nil _ hne]
    exact h
  exact dropWhile_head_not isspace ba c hh

/-- The last byte of a trimmed byte array is not whitespace. -/
theorem trimmed_last (ba : List Nat) (c : Nat) (h : (trimmed ba).getLast? = some c) :
    isspace c = false := by
  unfold trimmed at h
  rw [List.getLast?_reverse] at h
  exact dropWhile_head_not isspace _ c h

/-- A byte array is its trimmed part between two runs of whitespace. -/
theorem trimmed_split (ba : List Nat) :
    ∃ pre post, ba = pre ++ trimmed ba ++ post ∧
      (∀ c ∈ pre, isspace c = true) ∧ (∀ c ∈ post, isspace c = true) := by
  refine ⟨ba.takeWhile isspace,
    ((ba.dropWhile isspace).reverse.takeWhile isspace).reverse, ?_, ?_, ?_⟩
  · unfold trimmed
    rw [List.append_assoc, ← List.reverse_append, List.takeWhile_append_dropWhile,
      List.reverse_reverse, List.takeWhile_append_dropWhile]
  · intro c hc
    exact List.mem_takeWhile_imp hc
  · intro c hc
    exact List.mem_takeWhile_imp (List.mem_reverse.1 hc)

theorem qstringBytes_of_no_nul (t : List Nat) (h : 0 ∉ t) : qstringBytes t = t := by
  unfold qstringBytes
  rw [List.takeWhile_eq_self_iff]
  intro x hx
  have : x ≠ 0 := fun h0 => h (h0 ▸ hx)
  simp [this]

theorem qstringBytes_head (t : List Nat) (c : Nat) (h : (qstringBytes t).head? = some c) :
    t.head? = some c := by
  unfold qstringBytes at h
  rw [List.head?_takeWhile] at h
  cases ht : t.head? with
  | none => rw [ht] at h; cases h
  | some d =>
    rw [ht] at h
    simp only [Option.filter] at h
    split at h
    · exact h
    · cases h

theorem nameBytes_spec (line : List Nat) :
    (nameBytes line).length = line.length - 19 ∧
    ∀ i, i < line.length - 19 → byteAt (nameBytes line) i = byteAt line (18 + i) := by
  unfold nameBytes
  constructor
  · simp only [List.length_take, List.length_drop]
    omega
  · intro i hi
    unfold byteAt
    simp [List.getD_eq_getElem?_getD, List.getElem?_take, hi, List.getElem?_drop]

theorem readLine_append_eq (n : Nat) (dev : List Nat) :
    (readLine n dev).1 ++ (readLine n dev).2 = dev := by
  induction n generalizing dev with
  | zero => simp [readLine]
  | succ n ih =>
    cases dev with
    | nil => simp [readLine]
    | cons b bs =>
      by_cases hb : b = 10
      · simp [readLine, hb]
      · simp only [readLine, hb, if_false, List.cons_append, ih bs]

/-- The fuel of `readerLines` does not matter from the length of the device on. -/
theorem readerLines_fuel (fuel : Nat) (dev : List Nat) (h : dev.length ≤ fuel) :
    readerLines fuel dev = readerLines dev.length dev := by
  induction fuel using Nat.strong_induction_on generalizing dev with
  | _ fuel ih =>
    cases dev with
    | nil => cases fuel <;> simp [readerLines, readLine]
    | cons b bs =>
      cases fuel with
      | zero => simp at h
      | succ k =>
        have hlen := readLine_length_add (sizeofLine - 1) (b :: bs)
        have h79 : sizeofLine - 1 = 78 + 1 := by decide
        rw [h79] at hlen
        have hpos := (readLine_cons_pos 78 b bs).1
        simp only [List.length_cons] at h hlen ⊢
        simp only [readerLines, h79, gt_iff_lt, hpos, if_true]
        have hr : (readLine (78 + 1) (b :: bs)).2.length ≤ bs.length := by omega
        rw [ih k (by omega) _ (by omega), ih bs.length (by omega) _ hr]

theorem readLine_append_newline (n : Nat) (pre rest : List Nat) (h : 10 ∈ pre) :
    readLine n (pre ++ rest) = ((readLine n pre).1, (readLine n pre).2 ++ rest) := by
  induction n generalizing pre with
  | zero => simp [readLine]
  | succ n ih =>
    cases pre with
    | nil => cases h
    | cons b bs =>
      by_cases hb : b = 10
      · simp [readLine, hb]
      · have hbs : 10 ∈ bs := by
          rcases List.mem_cons.1 h with h | h
          · exact absurd h.symm hb
          · exact h
        show readLine (n + 1) (b :: (bs ++ rest)) = _
        simp only [readLine, hb, if_false, ih bs hbs]

theorem readLine_rest_ends (n : Nat) (pre : List Nat) (h : pre.getLast? = some 10) :
    (readLine n pre).2 = [] ∨ (readLine n pre).2.getLast? = some 10 := by
  by_cases hr : (readLine n pre).2 = []
  · exact Or.inl hr
  · right
    have := readLine_append_eq n pre
    rw [← this, List.getLast?_append_of_ne_nil _ hr] at h
    exact h

theorem mem_of_getLast? (l : List Nat) (c : Nat) (h : l.getLast? = some c) : c ∈ l :=
  List.mem_of_getLast?_eq_some h

theorem deviceLines_append_aux (k : Nat) (pre rest : List Nat) (hk : pre.length ≤ k)
    (h : pre = [] ∨ pre.getLast? = some 10) :
    deviceLines (pre ++ rest) = deviceLines pre ++ deviceLines rest := by
  induction k generalizing pre with
  | zero =>
    have : pre = [] := List.length_eq_zero.1 (by omega)
    subst this
    simp [deviceLines, readerLines]
  | succ k ih =>
    rcases h with h | h
    · subst h
      simp [deviceLines, readerLines]
    · cases pre with
      | nil => cases h
      | cons b bs =>
        have h10 : 10 ∈ b :: bs := mem_of_getLast? _ _ h
        have h79 : sizeofLine - 1 = 78 + 1 := by decide
        have hpos := (readLine_cons_pos 78 b bs).1
        have hlen := readLine_length_add (78 + 1) (b :: bs)
        have happ := readLine_append_newline (78 + 1) (b :: bs) rest h10
        have hrest := readLine_rest_ends (78 + 1) (b :: bs) h
        simp only [List.length_cons] at hlen hk
        unfold deviceLines
        simp only [List.cons_append, List.length_cons, readerLines, h79]
        rw [show b :: (bs ++ rest) = (b :: bs) ++ rest from rfl, happ]
        simp only [gt_iff_lt, hpos, if_true, List.cons_append, List.cons.injEq, true_and]
        have hfuel : ((readLine (78 + 1) (b :: bs)).2 ++ rest).length ≤
            (bs ++ rest).length := by
          simp only [List.length_append]; omega
        show readerLines (bs ++ rest).length ((readLine (78 + 1) (b :: bs)).2 ++ rest) =
          readerLines bs.length (readLine (78 + 1) (b :: bs)).2 ++ readerLines rest.length rest
        rw [readerLines_fuel (bs ++ rest).length _ hfuel,
          readerLines_fuel bs.length _ (by omega)]
        exact ih _ (by omega) hrest

/-- The driver reads an input that follows a newline as if it were alone. -/
theorem deviceLines_append (pre rest : List Nat) (h : pre = [] ∨ pre.getLast? = some 10) :
    deviceLines (pre ++ rest) = deviceLines pre ++ deviceLines rest :=
  deviceLines_append_aux pre.length pre rest (Nat.le_refl _) h

theorem readHRecord_withLine (st : IGCParser) (n : Nat) (x : List Nat) :
    ({ st with _errorLine := n } : IGCParser).readHRecord x =
      ((st.readHRecord x).1, { (st.readHRecord x).2 with _errorLine := n }) := by
  unfold IGCParser.readHRecord
  split
  · rfl
  · simp only []
    split
    · rfl
    · split <;> rfl

theorem readCRecord_withLine (st : IGCParser) (n : Nat) (x : List Nat) :
    ({ st with _errorLine := n } : IGCParser).readCRecord x =
      ((st.readCRecord x).1, { (st.readCRecord x).2 with _errorLine := n }) := by
  unfold IGCParser.readCRecord
  split
  · rfl
  · split
    · rfl
    · split
      · rfl
      · split <;> rfl

theorem readBRecord_withLine (st : IGCParser) (n : Nat) (x : List Nat) :
    ({ st with _errorLine := n } : IGCParser).readBRecord x =
      ((st.readBRecord x).1, { (st.readBRecord x).2 with _errorLine := n }) := by
  unfold IGCParser.readBRecord
  split
  · rfl
  · split
    · rfl
    · split
      · rfl
      · split
        · rfl
        · split <;> rfl

/-- After the first line a turn of the loop does not look at the line counter. -/
theorem loopBody_withLine (route track r1 t1 : Bool) (st s1 : IGCParser) (n : Nat)
    (x : List Nat) (h : loopBody route track st x = Except.ok (r1, t1, s1))
    (h1 : st._errorLine ≠ 1) (hn : n ≠ 1) :
    loopBody route track { st with _errorLine := n } x =
      Except.ok (r1, t1, { s1 with _errorLine := n }) := by
  have hl := loopBody_ok_length _ _ _ _ _ h
  rw [loopBody_later route track st x hl h1] at h
  rw [loopBody_later route track _ x hl (by show n ≠ 1; exact hn)]
  by_cases hH : byteAt x 0 = 72
  · rw [if_pos hH] at h ⊢
    rw [readHRecord_withLine]
    rcases hr : st.readHRecord x with ⟨b, s2⟩
    rw [hr] at h
    cases b
    · cases h
    · cases h; rfl
  rw [if_neg hH] at h ⊢
  by_cases hC : byteAt x 0 = 67
  · rw [if_pos hC] at h ⊢
    by_cases hr : route = true
    · rw [if_pos hr] at h ⊢
      rw [readCRecord_withLine]
      rcases hc : st.readCRecord x with ⟨b, s2⟩
      rw [hc] at h
      cases b
      · cases h
      · cases h; rfl
    · rw [if_neg hr] at h ⊢
      cases h; rfl
  rw [if_neg hC] at h ⊢
  by_cases hB : byteAt x 0 = 66
  · rw [if_pos hB] at h ⊢
    by_cases hd : st._date.isNull = true
    · rw [if_pos hd] at h; cases h
    · rw [if_neg hd] at h
      rw [if_neg (by show ¬ st._date.isNull = true; exact hd)]
      have e : (if ¬ track = true then
            ({ ({ st with _errorLine := n } : IGCParser) with
              _tracks := ({ st with _errorLine := n } : IGCParser)._tracks ++ [[]],
              _time := QTime.hms 0 0 0 } : IGCParser)
          else { st with _errorLine := n }) =
          { (if ¬ track = true then
              ({ st with _tracks := st._tracks ++ [[]], _time := QTime.hms 0 0 0 } : IGCParser)
            else st) with _errorLine := n } := by
        split <;> rfl
      rw [e, readBRecord_withLine]
      rcases hb : (if ¬ track = true then
              ({ st with _tracks := st._tracks ++ [[]], _time := QTime.hms 0 0 0 } : IGCParser)
            else st).readBRecord x with ⟨b, s2⟩
      rw [hb] at h
      cases b
      · cases h
      · cases h; rfl
  · rw [if_neg hB] at h ⊢
    cases h; rfl

/-- After the first line the turns of the loop do not look at the line counter. -/
theorem runLines_withLine (ls : List (List Nat)) (route track r1 t1 : Bool)
    (st s1 : IGCParser) (n : Nat)
    (h : runLines route track st ls = Except.ok (r1, t1, s1))
    (h1 : 2 ≤ st._errorLine) (hn : 2 ≤ n) :
    runLines route track { st with _errorLine := n } ls =
      Except.ok (r1, t1, { s1 with _errorLine := n + ls.length }) := by
  induction ls generalizing route track st n with
  | nil =>
    simp only [runLines, Except.ok.injEq, Prod.mk.injEq] at h
    obtain ⟨rfl, rfl, rfl⟩ := h
    rfl
  | cons x xs ih =>
    simp only [runLines] at h ⊢
    cases hb : loopBody route track st x with
    | error s2 => rw [hb] at h; cases h
    | ok v =>
      obtain ⟨r2, t2, s2⟩ := v
      rw [hb] at h
      simp only at h
      have hline := loopBody_ok_errorLine _ _ _ _ _ _ _ hb
      rw [loopBody_withLine _ _ _ _ _ _ n x hb (by omega) (by omega)]
      simp only
      have := ih _ _ _ (n + 1) h (by show 2 ≤ s2._errorLine + 1; omega) (by omega)
      rw [show n + (x :: xs).length = n + 1 + xs.length by simp only [List.length_cons]; omega]
      exact this

theorem inputFirstLine_whole (x : List Nat) (h : 10 ∉ x.dropLast) : inputFirstLine x = x := by
  induction x with
  | nil => rfl
  | cons b bs ih =>
    cases bs with
    | nil =>
      simp only [inputFirstLine]
      split <;> rfl
    | cons c cs =>
      have hb : b ≠ 10 := by
        intro hb
        apply h
        simp [hb]
      have hrest : 10 ∉ (c :: cs).dropLast := by
        intro hm
        apply h
        simp only [List.dropLast_cons₂, List.mem_cons]
        exact Or.inr hm
      simp only [inputFirstLine, hb, if_false]
      rw [← ih hrest]
      simp only [inputFirstLine]

/-- The driver reads a line of at most 79 bytes, whose newline if any is its last
byte, as one line. -/
theorem deviceLines_single (x : List Nat) (hpos : 0 < x.length) (hlen : x.length ≤ 79)
    (h : 10 ∉ x.dropLast) : deviceLines x = [x] := by
  have h79 : sizeofLine - 1 = 79 := by decide
  have hf := inputFirstLine_whole x h
  cases x with
  | nil => simp at hpos
  | cons b bs =>
    unfold deviceLines
    simp only [List.length_cons, readerLines, h79]
    rw [readLine_first 79 (b :: bs) (by rw [hf]; exact hlen), hf]
    simp only [List.length_cons, gt_iff_lt, Nat.zero_lt_succ, if_true, List.drop_succ_cons,
      List.drop_length, List.cons.injEq, true_and]
    generalize bs.length = k
    cases k <;> simp [readerLines, readLine]

theorem deviceLines_ne_nil (dev : List Nat) (h : dev ≠ []) : deviceLines dev ≠ [] := by
  cases dev with
  | nil => exact absurd rfl h
  | cons b bs =>
    have h79 : sizeofLine - 1 = 78 + 1 := by decide
    have hpos := (readLine_cons_pos 78 b bs).1
    unfold deviceLines
    simp only [List.length_cons, readerLines, h79, gt_iff_lt, hpos, if_true]
    exact List.cons_ne_nil _ _

theorem deviceLines_bounds (dev : List Nat) :
    ∀ x ∈ deviceLines dev, 0 < x.length ∧ x.length ≤ 79 :=
  readerLines_bounds _ _

theorem withLine_self (st : IGCParser) : { st with _errorLine := st._errorLine } = st := by
  cases st
  rfl

/-- The turns of the loop over the first line and further lines of which none
begins with `'C'` leave the route flag off, and the line counter beyond 1. -/
theorem runLines_before_first_C (st : IGCParser) (pre : List (List Nat)) (r t : Bool)
    (s : IGCParser) (hne : pre ≠ []) (hC : ∀ y ∈ pre.tail, byteAt y 0 ≠ 67)
    (h : runLines false false st.entered pre = Except.ok (r, t, s)) :
    r = false ∧ 2 ≤ s._errorLine := by
  have hline := (runLines_ok _ _ _ _ _ _ _ h).1
  have hlen : 0 < pre.length := List.length_pos.2 hne
  refine ⟨?_, by rw [hline]; show 2 ≤ 1 + pre.length; omega⟩
  cases pre with
  | nil => exact absurd rfl hne
  | cons l1 ls =>
    simp only [runLines] at h
    cases hb : loopBody false false st.entered l1 with
    | error s2 => rw [hb] at h; cases h
    | ok v =>
      obtain ⟨r2, t2, s2⟩ := v
      rw [hb] at h
      simp only at h
      have hl := loopBody_ok_length _ _ _ _ _ hb
      have hb2 := hb
      rw [loopBody_first false false st.entered l1 hl rfl] at hb2
      split at hb2
      · simp only [Except.ok.injEq, Prod.mk.injEq] at hb2
        obtain ⟨rfl, rfl, rfl⟩ := hb2
        have hnil : ls.filter (fun x => decide (byteAt x 0 = 67)) = [] := by
          rw [List.filter_eq_nil_iff]
          intro y hy
          simpa using hC y hy
        exact ((runLines_route_closed ls _ _ _ _ _ h
          (by show 2 ≤ st.entered._errorLine + 1; exact Nat.le_refl 2)).1 hnil).1
      · cases hb2

theorem byteAtChecked_eq (line : List Nat) (i : Nat) (h : i ≤ line.length) :
    byteAtChecked line i = some (byteAt line i) := by
  unfold byteAtChecked
  rw [if_pos h]

theorem str2intLoopChecked_eq (line : List Nat) (off n : Nat) (res : Int)
    (h : off + n ≤ line.length + 1) :
    str2intLoopChecked line off n res = some (str2intLoop line off n res) := by
  induction n generalizing off res with
  | zero => rfl
  | succ n ih =>
    simp only [str2intLoopChecked, str2intLoop, byteAtChecked_eq line off (by omega)]
    split
    · exact ih (off + 1) _ (by omega)
    · rfl

theorem str2intChecked_eq (line : List Nat) (off n : Nat) (h : off + n ≤ line.length + 1) :
    str2intChecked line off n = some (str2int line off n) :=
  str2intLoopChecked_eq line off n 0 h

theorem readLatChecked_eq (line : List Nat) (off : Nat) (h : off + 7 ≤ line.length) :
    readLatChecked line off = some (readLat line off) := by
  unfold readLatChecked readLat
  simp only [str2intChecked_eq line off 2 (by omega),
    str2intChecked_eq line (off + 2) 2 (by omega),
    str2intChecked_eq line (off + 4) 3 (by omega),
    byteAtChecked_eq line (off + 7) (by omega), Option.bind_eq_bind, Option.some_bind,
    Option.pure_def]
  split
  · rfl
  · split
    · rfl
    · try simp only []
      split
      · rfl
      · split <;> rfl

theorem readLonChecked_eq (line : List Nat) (off : Nat) (h : off + 8 ≤ line.length) :
    readLonChecked line off = some (readLon line off) := by
  unfold readLonChecked readLon
  simp only [str2intChecked_eq line off 3 (by omega),
    str2intChecked_eq line (off + 3) 2 (by omega),
    str2intChecked_eq line (off + 5) 3 (by omega),
    byteAtChecked_eq line (off + 8) (by omega), Option.bind_eq_bind, Option.some_bind,
    Option.pure_def]
  split
  · rfl
  · split
    · rfl
    · try simp only []
      split
      · rfl
      · split <;> rfl

theorem readAltitudeChecked_eq (line : List Nat) (off : Nat) (h : off + 10 ≤ line.length) :
    readAltitudeChecked line off = some (readAltitude line off) := by
  unfold readAltitudeChecked readAltitude
  simp only [str2intChecked_eq line (off + 2) 4 (by omega),
    str2intChecked_eq line (off + 1) 5 (by omega),
    str2intChecked_eq line (off + 6) 5 (by omega),
    byteAtChecked_eq line off (by omega), byteAtChecked_eq line (off + 1) (by omega),
    Option.bind_eq_bind, Option.some_bind, Option.pure_def]
  split
  · rfl
  · by_cases hm : byteAt line (off + 1) = 45
    · simp only [hm, if_true, Option.some_bind]
      split
      · rfl
      · split <;> rfl
    · simp only [hm, if_false, Option.some_bind]
      split
      · rfl
      · split <;> rfl

theorem readTimestampChecked_eq (line : List Nat) (off : Nat) (h : off + 5 ≤ line.length) :
    readTimestampChecked line off = some (readTimestamp line off) := by
  unfold readTimestampChecked readTimestamp
  simp only [str2intChecked_eq line off 2 (by omega),
    str2intChecked_eq line (off + 2) 2 (by omega),
    str2intChecked_eq line (off + 4) 2 (by omega), Option.bind_eq_bind, Option.some_bind,
    Option.pure_def]
  split <;> rfl

theorem allPrintChecked_eq (line : List Nat) (i n : Nat) (h : i + n ≤ line.length + 1) :
    allPrintChecked line i n = some (allPrint line i n) := by
  induction n generalizing i with
  | zero => rfl
  | succ n ih =>
    simp only [allPrintChecked, allPrint, byteAtChecked_eq line i (by omega)]
    split
    · exact ih (i + 1) (by omega)
    · rfl

theorem readARecordChecked_eq (line : List Nat) :
    readARecordChecked line = some (readARecord line) := by
  unfold readARecordChecked readARecord
  by_cases h9 : line.length < 9
  · simp [h9]
  · simp only [h9, if_false, false_or, byteAtChecked_eq line 0 (by omega)]
    by_cases hA : byteAt line 0 = 65
    · simp only [hA, ne_eq, not_true_eq_false, if_false]
      exact allPrintChecked_eq line 1 6 (by omega)
    · simp [hA]

theorem strncmpChecked_eq (line lit : List Nat) (i : Nat) (h : i + lit.length ≤ line.length) :
    strncmpChecked line i lit = some (decide ((line.drop i).take lit.length = lit)) := by
  induction lit generalizing i with
  | nil => simp [strncmpChecked]
  | cons c cs ih =>
    simp only [List.length_cons] at h
    simp only [strncmpChecked, byteAtChecked_eq line i (by omega)]
    have hi : i < line.length := by omega
    have hdrop : line.drop i = byteAt line i :: line.drop (i + 1) := by
      rw [List.drop_eq_getElem_cons hi]
      congr 1
      unfold byteAt
      simp [List.getD_eq_getElem?_getD, hi]
    rw [hdrop]
    by_cases hb : byteAt line i = c
    · simp only [hb, if_true, List.length_cons, List.take_succ_cons, List.cons.injEq, true_and]
      exact ih (i + 1) (by omega)
    · simp [hb]

theorem copyChecked_eq (line : List Nat) (i n : Nat) (h : i + n ≤ line.length) :
    copyChecked line i n = some ((line.drop i).take n) := by
  induction n generalizing i with
  | zero => simp [copyChecked]
  | succ n ih =>
    have hi : i < line.length := by omega
    have hdrop : line.drop i = byteAt line i :: line.drop (i + 1) := by
      rw [List.drop_eq_getElem_cons hi]
      congr 1
      unfold byteAt
      simp [List.getD_eq_getElem?_getD, hi]
    simp only [copyChecked, byteAtChecked_eq line i (by omega), ih (i + 1) (by omega)]
    rw [hdrop]
    rfl

theorem nameBytesChecked_eq (line : List Nat) (h : 18 ≤ line.length) :
    nameBytesChecked line = some (nameBytes line) := by
  unfold nameBytesChecked nameBytes
  by_cases h18 : line.length = 18
  · simp only [h18, if_true, byteAtChecked_eq line 18 (by omega)]
    simp
  · simp only [h18, if_false]
    exact copyChecked_eq line 18 _ (by omega)

theorem readHRecordChecked_eq (st : IGCParser) (line : List Nat) :
    st.readHRecordChecked line = some (st.readHRecord line) := by
  unfold IGCParser.readHRecordChecked IGCParser.readHRecord
  by_cases h10 : line.length < 10
  · simp [h10]
  · have hp := strncmpChecked_eq line HFDTE 0 (by show 0 + 5 ≤ line.length; omega)
    simp only [List.drop_zero, show HFDTE.length = 5 from rfl] at hp
    simp only [h10, if_false, false_or, hp, str2intChecked_eq line 5 2 (by omega),
      str2intChecked_eq line 7 2 (by omega), str2intChecked_eq line 9 2 (by omega),
      Option.bind_eq_bind, Option.some_bind, Option.pure_def, decide_eq_true_eq]
    split
    · rfl
    · split
      · rfl
      · try simp only []
        split <;> rfl

theorem readBRecordChecked_eq (st : IGCParser) (line : List Nat) :
    st.readBRecordChecked line = some (st.readBRecord line) := by
  unfold IGCParser.readBRecordChecked IGCParser.readBRecord
  by_cases h35 : line.length < 35
  · simp [h35]
  · simp only [h35, if_false, readTimestampChecked_eq line 1 (by omega),
      readLatChecked_eq line 7 (by omega), readLonChecked_eq line 15 (by omega),
      readAltitudeChecked_eq line 24 (by omega), Option.bind_eq_bind, Option.some_bind,
      Option.pure_def]
    cases readTimestamp line 1 with
    | none => rfl
    | some t =>
      cases readLat line 7 with
      | none => rfl
      | some lat =>
        cases readLon line 15 with
        | none => rfl
        | some lon =>
          cases readAltitude line 24 with
          | none => rfl
          | some ele => rfl

theorem readCRecordChecked_eq (st : IGCParser) (line : List Nat) :
    st.readCRecordChecked line = some (st.readCRecord line) := by
  unfold IGCParser.readCRecordChecked IGCParser.readCRecord
  by_cases h18 : line.length < 18
  · simp [h18]
  · simp only [h18, if_false, readLatChecked_eq line 1 (by omega),
      readLonChecked_eq line 9 (by omega), nameBytesChecked_eq line (by omega),
      Option.bind_eq_bind, Option.some_bind, Option.pure_def, nameBytes]
    cases readLat line 1 with
    | none => rfl
    | some lat =>
      cases readLon line 9 with
      | none => rfl
      | some lon =>
        try simp only []
        split <;> rfl

/-- With checked reads the body of the loop computes what it computes without:
no read goes beyond the NUL that ends the line. -/
theorem loopBodyChecked_eq (route track : Bool) (st : IGCParser) (line : List Nat)
    (hpos : 1 ≤ line.length) :
    loopBodyChecked route track st line = some (loopBody route track st line) := by
  unfold loopBodyChecked loopBody
  simp only [readARecordChecked_eq, byteAtChecked_eq line 0 (by omega),
    readHRecordChecked_eq, readCRecordChecked_eq, readBRecordChecked_eq,
    Option.bind_eq_bind, Option.some_bind, Option.pure_def]
  split
  · rfl
  split
  · rfl
  split
  · split <;> rfl
  split
  · rcases st.readHRecord line with ⟨b, s1⟩
    cases b <;> rfl
  split
  · split
    · rcases st.readCRecord line with ⟨b, s1⟩
      cases b <;> rfl
    · rfl
  split
  · split
    · rfl
    · try simp only []
      rcases (if ¬ track = true then
          ({ st with _tracks := st._tracks ++ [[]], _time := QTime.hms 0 0 0 } : IGCParser)
        else st).readBRecord line with ⟨b, s1⟩
      cases b <;> rfl
  · rfl

/-- When `loadFile` accepts an input, starting with no tracks, the output has no
track if no line read after the first begins with `'B'`, and exactly one track
otherwise, whose trackpoints are, one for one and in order, the fixes that those
lines encode. The lines read are the newline-terminated lines of the input
whenever none of these has more than 79 bytes. -/
theorem loadFile_track_count (st s : IGCParser) (dev : List Nat)
    (hst : st._tracks = []) (h : st.loadFile dev = (true, s)) :
    (((deviceLines dev).tail.filter (fun x => decide (byteAt x 0 = 66)) = [] →
        s._tracks = [] ∧ s._tracks.length = 0) ∧
      ((deviceLines dev).tail.filter (fun x => decide (byteAt x 0 = 66)) ≠ [] →
        s._tracks.length = 1 ∧
        ∃ tps : List Trackpoint, s._tracks = [tps] ∧
          tps.map (fun tp => some tp.fix) =
            ((deviceLines dev).tail.filter (fun x => decide (byteAt x 0 = 66))).map fixOf)) ∧
    ((∀ l ∈ inputLines dev, l.length ≤ 79) → deviceLines dev = inputLines dev) := by
  refine ⟨?_, deviceLines_eq_inputLines dev⟩
  rcases loadFile_accepted st s dev h with ⟨hd, hs⟩ | ⟨r, t, hrun⟩
  · rw [hd, hs]
    constructor
    · intro _
      exact ⟨hst, by show st._tracks.length = 0; rw [hst]; rfl⟩
    · intro hne
      exact absurd rfl hne
  · obtain ⟨j1, j2⟩ := runLines_track_closed _ _ _ _ _ _ hrun (Nat.le_refl 2)
    constructor
    · intro hnil
      have := (j1 hnil).2
      change s._tracks = st._tracks at this
      rw [hst] at this
      exact ⟨this, by rw [this]; rfl⟩
    · intro hne
      obtain ⟨-, tps, e1, e2⟩ := j2 hne
      change s._tracks = st._tracks ++ [tps] at e1
      rw [hst] at e1
      exact ⟨by rw [e1]; rfl, tps, e1, e2⟩

/-! Section: The claims -/

/-- C1 (midnight rollover), a defect of the code: `readBRecord` never changes the
stored date. On 2099-12-31 with the previous fix at 23:59:00, a fix decoded as
00:00:01 is earlier than the stored time and is accepted, yet the stored date
stays 2099-12-31 and the appended trackpoint is stamped 2099-12-31, while the
day after, which `addDays(1)` returns, is 2100-01-01. -/
theorem C1_rollover_date_not_advanced :
    (∀ (st : IGCParser) (line : List Nat), (st.readBRecord line).2._date = st._date) ∧
    (readTimestamp rolloverLine 1 = some (QTime.hms 0 0 1) ∧
      (QTime.hms 0 0 1).lt rolloverState._time = true ∧
      (rolloverState.readBRecord rolloverLine).1 = true ∧
      (rolloverState.readBRecord rolloverLine).2._date = QDate.ymd 2099 12 31 ∧
      rolloverState._date.addDays 1 = QDate.ymd 2100 1 1 ∧
      (rolloverState.readBRecord rolloverLine).2._tracks =
        [[{ coordinates := ⟨10, 50⟩,
            timestamp := ⟨QDate.ymd 2099 12 31, QTime.hms 0 0 1⟩,
            elevation := some 100 }]]) := by
  refine ⟨fun st line => (readBRecord_frame st line).2.1, ?_⟩
  decide!

/-- C2, the claim as stated fails: on the byte stream of seed scenario 1 a fresh
parser returns failure and yields no track. -/
theorem C2_counterexample :
    (IGCParser.fresh.loadFile seed1).1 = false ∧
    (IGCParser.fresh.loadFile seed1).2._tracks = [] := by
  decide

/-- C2 (seed scenario 1), amended: the stream as given is rejected at line 1 with
"Invalid/missing A record", its A line having 8 bytes; with the A line ended by
CR LF (9 bytes) decoding succeeds and yields exactly one track of exactly one
trackpoint, longitude 10, latitude 50, timestamp 2090-01-01 10:00:00 UTC,
elevation 200. -/
theorem C2_seed1 :
    IGCParser.fresh.loadFile seed1 =
      (false, { IGCParser.fresh with
        _errorLine := 1, _errorString := "Invalid/missing A record" }) ∧
    IGCParser.fresh.loadFile seed1CRLF =
      (true, { IGCParser.fresh with
        _errorLine := 4
        _date := QDate.ymd 2090 1 1
        _time := QTime.hms 10 0 0
        _tracks := [[{ coordinates := ⟨10, 50⟩,
                       timestamp := ⟨QDate.ymd 2090 1 1, QTime.hms 10 0 0⟩,
                       elevation := some 200 }]] }) := by
  decide!

/-- C3 (A-record check): `readARecord` succeeds exactly when `len ≥ 9`, byte 0 is
`'A'` and bytes 1..6 are printable ASCII (`0x20..0x7E`); and on every non-empty
input whose first line fails that test `loadFile` fails with
"Invalid/missing A record" and error line 1, changing nothing else, so that
tracks and routes that were empty stay empty. -/
theorem C3_a_record_check :
    (∀ line : List Nat, readARecord line = true ↔
        (9 ≤ line.length ∧ byteAt line 0 = 65 ∧
          ∀ i, 1 ≤ i → i ≤ 6 → 32 ≤ byteAt line i ∧ byteAt line i ≤ 126)) ∧
    (∀ (st : IGCParser) (dev : List Nat), dev ≠ [] →
        ¬ (9 ≤ (inputFirstLine dev).length ∧ byteAt (inputFirstLine dev) 0 = 65 ∧
          ∀ i, 1 ≤ i → i ≤ 6 →
            32 ≤ byteAt (inputFirstLine dev) i ∧ byteAt (inputFirstLine dev) i ≤ 126) →
        st.loadFile dev =
          (false, { st with _errorLine := 1, _errorString := "Invalid/missing A record" }) ∧
        (st._tracks = [] → st._routes = [] →
          (st.loadFile dev).2._tracks = [] ∧ (st.loadFile dev).2._routes = [])) := by
  refine ⟨readARecord_iff, ?_⟩
  intro st dev hne hbad
  have key : st.loadFile dev =
      (false, { st with _errorLine := 1, _errorString := "Invalid/missing A record" }) := by
    cases dev with
    | nil => exact absurd rfl hne
    | cons b bs =>
      have hpos := (readLine_cons_pos 78 b bs).1
      have hle := readLine_length_le (78 + 1) (b :: bs)
      have hA : readARecord (readLine (78 + 1) (b :: bs)).1 = false := by
        rw [Bool.eq_false_iff]
        intro hA
        rw [readARecord_iff, readLine_eq_take] at hA
        apply hbad
        obtain ⟨h1, h2, h3⟩ := hA
        rw [byteAt_take _ _ _ (by omega)] at h2
        refine ⟨?_, h2, ?_⟩
        · rw [List.length_take] at h1; omega
        · intro i hi1 hi2
          have := h3 i hi1 hi2
          rwa [byteAt_take _ _ _ (by omega)] at this
      have h79 : sizeofLine - 1 = 78 + 1 := by decide
      have hs : (sizeofLine : Int) - 1 = 79 := by decide
      unfold IGCParser.loadFile
      simp only [List.length_cons, loadLoop, h79, gt_iff_lt, hpos, if_true]
      have hb : loopBody false false { st with _errorLine := 1, _errorString := "" }
          (readLine (78 + 1) (b :: bs)).1 =
          Except.error { st with _errorLine := 1, _errorString := "Invalid/missing A record" } := by
        unfold loopBody
        simp only [hs, hA]
        rw [if_neg (by omega), if_neg (by omega)]
        simp
      rw [hb]
  refine ⟨key, ?_⟩
  intro ht hr
  rw [key]
  exact ⟨ht, hr⟩

/-- C3 at an input that starts with a date header instead of an A line. -/
theorem C3_a_record_check_witness :
    IGCParser.fresh.loadFile noARecordInput =
      (false, { IGCParser.fresh with
        _errorLine := 1, _errorString := "Invalid/missing A record" }) :=
  (C3_a_record_check.2 IGCParser.fresh noARecordInput (by decide)
    (fun h => absurd h.2.1 (by decide))).1

/-- C4, the claim as stated fails: the first line is a valid A line, line 3 is a
`B` line and no line before it stores a date, yet `loadFile` stops at line 2
with "Invalid date header format", because line 2 is a date header whose day is
not numeric. And with a line of 101 bytes before a `B` line that is line 3 of
the input, the error "Missing date header" is reported at line 4. -/
theorem C4_counterexample :
    readARecord (inputFirstLine earlierErrorInput) = true ∧
    (inputLines earlierErrorInput).get? 2 = some fixLine ∧
    byteAt fixLine 0 = 66 ∧
    IGCParser.fresh.loadFile earlierErrorInput =
      (false, { IGCParser.fresh with
        _errorLine := 2, _errorString := "Invalid date header format" }) ∧
    (IGCParser.fresh.loadFile earlierErrorInput).2._date = QDate.null ∧
    (IGCParser.fresh.loadFile earlierErrorInput).2._errorString ≠ "Missing date header" ∧
    (IGCParser.fresh.loadFile earlierErrorInput).2._errorLine ≠ 3 ∧
    (inputLines chunkedInput).get? 2 = some (bytes "B\n") ∧
    (IGCParser.fresh.loadFile chunkedInput).2._errorLine = 4 := by
  decide!

/-- C4 (missing date header), amended: when the input starts with `k - 1 ≥ 1`
lines of at most 79 bytes each, newline included, that a fresh parser processes
without error and without storing a date, and the next line begins with `'B'`,
`loadFile` fails with "Missing date header" and error line `k`, and no track and
no trackpoint has been appended. And on every input, every trackpoint a fresh
parser appends carries a valid calendar date. -/
theorem C4_missing_date_header :
    (∀ (pre : List (List Nat)) (rest : List Nat) (s : IGCParser),
      pre ≠ [] → (∀ x ∈ pre, isLine x = true) →
      IGCParser.fresh.loadFile (joinLines pre) = (true, s) →
      s._date.isNull = true →
      IGCParser.fresh.loadFile (joinLines pre ++ 66 :: rest) =
        (false, { s with _errorString := "Missing date header" }) ∧
      s._errorLine = pre.length + 1 ∧ s._tracks = []) ∧
    (∀ (dev : List Nat), ∀ tr ∈ (IGCParser.fresh.loadFile dev).2._tracks, ∀ tp ∈ tr,
      tp.timestamp.date.isValid = true) := by
  constructor
  · intro pre rest s hne hlines hload hnull
    unfold IGCParser.loadFile at hload ⊢
    have h1 := loadLoop_lines pre [] false false
      { IGCParser.fresh with _errorLine := 1, _errorString := "" } hlines
    simp only [List.append_nil] at h1
    rw [h1] at hload
    rw [loadLoop_lines pre (66 :: rest) false false _ hlines]
    cases hrun : runLines false false
        { IGCParser.fresh with _errorLine := 1, _errorString := "" } pre with
    | error s2 => rw [hrun] at hload; cases hload
    | ok v =>
      obtain ⟨r1, t1, s1⟩ := v
      rw [hrun] at hload
      simp only [List.length_nil, loadLoop, Prod.mk.injEq, true_and] at hload
      subst hload
      obtain ⟨e1, e2⟩ := runLines_ok _ _ _ _ _ _ _ hrun
      simp only at e1
      have hlen : 0 < pre.length := List.length_pos.2 hne
      obtain ⟨hpos, hb0⟩ := readLine_cons_pos 78 66 rest
      have hle := readLine_length_le (78 + 1) (66 :: rest)
      have h79 : sizeofLine - 1 = 78 + 1 := by decide
      refine ⟨?_, by omega, (e2 hnull).2⟩
      simp only [List.length_cons, loadLoop, h79, gt_iff_lt, hpos, if_true]
      rw [loopBody_missing_date r1 t1 s1 _ hle (by omega) hb0 hnull]
  · intro dev
    exact loadLoop_datesValid _ _ _ _ _ (by intro tr htr; cases htr)

/-- C4 at an A line, a comment line and then a fix with no date header before it:
"Missing date header" at line 3. -/
theorem C4_missing_date_header_witness :
    IGCParser.fresh.loadFile
        (joinLines noDateLines ++ 66 :: bytes "1000005000000N01000000EA0010000200\n") =
      (false, { IGCParser.fresh with
        _errorLine := 3, _errorString := "Missing date header" }) :=
  (C4_missing_date_header.1 noDateLines (bytes "1000005000000N01000000EA0010000200\n")
    { IGCParser.fresh with _errorLine := 3 } (by decide) (by decide) (by decide)
    (by decide)).1

/-- C5 (closed diagnostic set), a defect of the code: a `B` line shorter than 35
bytes and a second `C` line shorter than 18 bytes make `loadFile` fail at line 3
with the error string left empty, which is none of the ten diagnostics. On every
input the error string left behind is empty or one of eight of them. -/
theorem C5_short_record_empty_error :
    ((IGCParser.fresh.loadFile shortBInput).1 = false ∧
      (IGCParser.fresh.loadFile shortBInput).2._errorString = "" ∧
      (IGCParser.fresh.loadFile shortBInput).2._errorLine = 3 ∧
      (IGCParser.fresh.loadFile shortBInput).2._errorString ∉ diagnostics) ∧
    ((IGCParser.fresh.loadFile shortCInput).1 = false ∧
      (IGCParser.fresh.loadFile shortCInput).2._errorString = "" ∧
      (IGCParser.fresh.loadFile shortCInput).2._errorLine = 3 ∧
      (IGCParser.fresh.loadFile shortCInput).2._errorString ∉ diagnostics) ∧
    (∀ (st : IGCParser) (dev : List Nat),
      (st.loadFile dev).2._errorString ∈ producedDiagnostics) := by
  refine ⟨by decide, by decide, loadFile_errorString⟩

/-- C6 (line limit), a defect of the code: an input whose second line has 201
bytes is accepted, the line being read as buffers of 79, 79 and 43 bytes that
are each skipped; and no input at all makes `loadFile` report
"Line limit exceeded". -/
theorem C6_long_line_accepted :
    (inputLines longLineInput).map List.length = [9, 201] ∧
    IGCParser.fresh.loadFile longLineInput =
      (true, { IGCParser.fresh with _errorLine := 5 }) ∧
    (∀ (st : IGCParser) (dev : List Nat),
      (st.loadFile dev).2._errorString ≠ "Line limit exceeded") := by
  refine ⟨by decide!, by decide!, ?_⟩
  intro st dev h
  have hm := loadFile_errorString st dev
  rw [h] at hm
  exact absurd hm (by decide)

/-- C7 (error line), a defect of the code: the input has three lines of 9, 101
and 2 bytes, the third being the `B` line that fails for want of a date, and
`loadFile` reports error line 4, having counted the two buffers of the second
line as two lines. -/
theorem C7_error_line_counts_reads :
    (inputLines chunkedInput).map List.length = [9, 101, 2] ∧
    (inputLines chunkedInput).get? 2 = some (bytes "B\n") ∧
    IGCParser.fresh.loadFile chunkedInput =
      (false, { IGCParser.fresh with
        _errorLine := 4, _errorString := "Missing date header" }) := by
  decide!

/-- C8, the claim as stated fails: the time digits `256199` decode, and the
decoded time `QTime(25, 61, 99)` is the invalid time. The fix is accepted and the
invalid time is stored, but the trackpoint appended under a valid date carries
midnight, not the decoded time; `loadFile` accepts a file with such a fix. -/
theorem C8_counterexample :
    35 ≤ outOfRangeTimeLine.length ∧
    readTimestamp outOfRangeTimeLine 1 = some (QTime.hms 25 61 99) ∧
    QTime.hms 25 61 99 = QTime.null ∧
    readLat outOfRangeTimeLine 7 = some 50 ∧ readLon outOfRangeTimeLine 15 = some 10 ∧
    readAltitude outOfRangeTimeLine 24 = some (some 200) ∧
    (rolloverState.readBRecord outOfRangeTimeLine).1 = true ∧
    (rolloverState.readBRecord outOfRangeTimeLine).2._time = QTime.null ∧
    (rolloverState.readBRecord outOfRangeTimeLine).2._tracks =
      [[{ coordinates := ⟨10, 50⟩,
          timestamp := ⟨QDate.ymd 2099 12 31, QTime.hms 0 0 0⟩,
          elevation := some 200 }]] ∧
    QTime.hms 0 0 0 ≠ QTime.hms 25 61 99 ∧
    IGCParser.fresh.loadFile outOfRangeTimeInput =
      (true, { IGCParser.fresh with
        _errorLine := 4
        _date := QDate.ymd 2090 1 1
        _time := QTime.null
        _tracks := [[{ coordinates := ⟨10, 50⟩,
                       timestamp := ⟨QDate.ymd 2090 1 1, QTime.hms 0 0 0⟩,
                       elevation := some 200 }]] }) := by
  decide!

/-- C8 (B-record handler), amended: on a line of at least 35 bytes `readBRecord`
decodes the timestamp at bytes 1..6, the latitude at 7..14, the longitude at
15..23 and the altitude pair at 24..34, in this order, and fails with the
message of the first field that does not decode, changing nothing but the error
string. When all four decode it succeeds, stores the decoded time
`QTime(h, m, s)`, which is valid only for fields in range, and appends one
trackpoint with the decoded longitude and latitude, the elevation and the
timestamp `QDateTime(date, time, Qt::UTC)` of the stored date and the decoded
time, at the end of the last track: the timestamp holds the stored date, and the
decoded time when that is valid or the date is not, and midnight when the
decoded time is invalid under a valid date. The earlier tracks and trackpoints,
the routes, the date, the error string and the line counter stay as they were.
Each decoder depends on the bytes of its own field only. -/
theorem C8_b_record_handler (st : IGCParser) (line : List Nat) (hlen : 35 ≤ line.length) :
    (readTimestamp line 1 = none →
      st.readBRecord line = (false, { st with _errorString := "Invalid timestamp" })) ∧
    (∀ t, readTimestamp line 1 = some t → readLat line 7 = none →
      st.readBRecord line = (false, { st with _errorString := "Invalid latitude" })) ∧
    (∀ t lat, readTimestamp line 1 = some t → readLat line 7 = some lat →
      readLon line 15 = none →
      st.readBRecord line = (false, { st with _errorString := "Invalid longitude" })) ∧
    (∀ t lat lon, readTimestamp line 1 = some t → readLat line 7 = some lat →
      readLon line 15 = some lon → readAltitude line 24 = none →
      st.readBRecord line = (false, { st with _errorString := "Invalid altitude" })) ∧
    (∀ t lat lon ele, readTimestamp line 1 = some t → readLat line 7 = some lat →
      readLon line 15 = some lon → readAltitude line 24 = some ele →
      (st.readBRecord line).1 = true ∧
      (st.readBRecord line).2._time = t ∧
      t = QTime.hms (str2int line 1 2) (str2int line 3 2) (str2int line 5 2) ∧
      (st.readBRecord line).2._routes = st._routes ∧
      (st.readBRecord line).2._date = st._date ∧
      (st.readBRecord line).2._errorString = st._errorString ∧
      (st.readBRecord line).2._errorLine = st._errorLine ∧
      (∀ init last, st._tracks = init ++ [last] →
        (st.readBRecord line).2._tracks =
          init ++ [last ++ [{ coordinates := { lon := lon, lat := lat },
                              timestamp := QDateTime.utc st._date t,
                              elevation := ele }]]) ∧
      (QDateTime.utc st._date t).date = st._date ∧
      (t.isValid = true → QDateTime.utc st._date t = { date := st._date, time := t }) ∧
      (st._date.isValid = false →
        QDateTime.utc st._date t = { date := st._date, time := t }) ∧
      (t.isValid = false → st._date.isValid = true →
        QDateTime.utc st._date t = { date := st._date, time := QTime.hms 0 0 0 })) ∧
    (∀ h m s : Int, (QTime.hms h m s).isValid = true ↔
      (0 ≤ h ∧ h < 24) ∧ (0 ≤ m ∧ m < 60) ∧ (0 ≤ s ∧ s < 60)) ∧
    (∀ line2 : List Nat,
      ((∀ j, 1 ≤ j → j ≤ 6 → byteAt line2 j = byteAt line j) →
        readTimestamp line2 1 = readTimestamp line 1) ∧
      ((∀ j, 7 ≤ j → j ≤ 14 → byteAt line2 j = byteAt line j) →
        readLat line2 7 = readLat line 7) ∧
      ((∀ j, 15 ≤ j → j ≤ 23 → byteAt line2 j = byteAt line j) →
        readLon line2 15 = readLon line 15) ∧
      ((∀ j, 24 ≤ j → j ≤ 34 → byteAt line2 j = byteAt line j) →
        readAltitude line2 24 = readAltitude line 24)) := by
  have hl : ¬ line.length < 35 := by omega
  refine ⟨?_, ?_, ?_, ?_, ?_, ?_, ?_⟩
  · intro h1
    simp only [IGCParser.readBRecord, hl, if_false, h1]
  · intro t h1 h2
    simp only [IGCParser.readBRecord, hl, if_false, h1, h2]
  · intro t lat h1 h2 h3
    simp only [IGCParser.readBRecord, hl, if_false, h1, h2, h3]
  · intro t lat lon h1 h2 h3 h4
    simp only [IGCParser.readBRecord, hl, if_false, h1, h2, h3, h4]
  · intro t lat lon ele h1 h2 h3 h4
    have ht : t = QTime.hms (str2int line 1 2) (str2int line 3 2) (str2int line 5 2) := by
      unfold readTimestamp at h1
      simp only at h1
      split at h1
      · cases h1
      · exact (Option.some.inj h1).symm
    have hv : t.isValid = false → st._date.isValid = true →
        QDateTime.utc st._date t = { date := st._date, time := QTime.hms 0 0 0 } := by
      intro h5 h6
      unfold QDateTime.utc
      rw [h5, h6]
      rfl
    simp only [IGCParser.readBRecord, hl, if_false, h1, h2, h3, h4, true_and]
    refine ⟨ht, ?_, QDateTime.utc_date _ _, QDateTime.utc_of_valid _ _,
      QDateTime.utc_of_invalid_date _ _, hv⟩
    intro init last ht
    rw [ht, appendToLast_append]
  · intro h m s
    rw [QTime.hms_isValid]
    simp only [QTime.isValidHMS, Bool.and_eq_true, decide_eq_true_eq]
    tauto
  · intro line2
    refine ⟨fun h => ?_, fun h => ?_, fun h => ?_, fun h => ?_⟩
    · exact readTimestamp_congr line line2 1 (fun j h1 h2 => h j h1 (by omega))
    · exact readLat_congr line line2 7 (fun j h1 h2 => h j h1 (by omega))
    · exact readLon_congr line line2 15 (fun j h1 h2 => h j h1 (by omega))
    · exact readAltitude_congr line line2 24 (fun j h1 h2 => h j h1 (by omega))

/-- C8 at a fix for 10:00:00 at 50 N 10 E, elevation 200, appended to an open,
empty track on 2099-12-31. -/
theorem C8_b_record_handler_witness :
    (rolloverState.readBRecord fixLine).2._tracks =
      [] ++ [[] ++ [{ coordinates := { lon := 10, lat := 50 },
                      timestamp := QDateTime.utc rolloverState._date (QTime.hms 10 0 0),
                      elevation := some 200 }]] ∧
    QDateTime.utc rolloverState._date (QTime.hms 10 0 0) =
      { date := QDate.ymd 2099 12 31, time := QTime.hms 10 0 0 } :=
  ⟨((C8_b_record_handler rolloverState fixLine (by decide)).2.2.2.2.1
    (QTime.hms 10 0 0) 50 10 (some 200) (by decide!) (by decide!) (by decide!)
    (by decide!)).2.2.2.2.2.2.2.1 [] [] rfl, by decide!⟩

/-- C9 (HFDTE date decoding): on a line that begins with "HFDTE" and has at
least 10 bytes, `readHRecord` reads bytes 5..10 as `DDMMYY`. If one of these
bytes is not a digit it fails with "Invalid date header format". Otherwise, if
`(2000 + YY, MM, DD)` is not a calendar date it fails with "Invalid date", and
if it is one it succeeds and the stored date is year `2000 + YY`, month `MM`,
day `DD`, a year in `2000..2099`. -/
theorem C9_hfdte_date (st : IGCParser) (line : List Nat)
    (hp : line.take 5 = HFDTE) (hl : 10 ≤ line.length) :
    ((∃ i, 5 ≤ i ∧ i ≤ 10 ∧ ¬ (48 ≤ byteAt line i ∧ byteAt line i ≤ 57)) →
      st.readHRecord line =
        (false, { st with _errorString := "Invalid date header format" })) ∧
    ((∀ i, 5 ≤ i → i ≤ 10 → 48 ≤ byteAt line i ∧ byteAt line i ≤ 57) →
      ∀ DD MM YY : Int,
        DD = 10 * ((byteAt line 5 : Int) - 48) + ((byteAt line 6 : Int) - 48) →
        MM = 10 * ((byteAt line 7 : Int) - 48) + ((byteAt line 8 : Int) - 48) →
        YY = 10 * ((byteAt line 9 : Int) - 48) + ((byteAt line 10 : Int) - 48) →
        (QDate.isValidYMD (2000 + YY) MM DD = false →
          st.readHRecord line =
            (false, { st with _date := QDate.null, _errorString := "Invalid date" })) ∧
        (QDate.isValidYMD (2000 + YY) MM DD = true →
          st.readHRecord line = (true, { st with _date := QDate.ymd (2000 + YY) MM DD }) ∧
          2000 ≤ 2000 + YY ∧ 2000 + YY ≤ 2099)) := by
  have hg : ¬ (line.length < 10 ∨ line.take 5 ≠ HFDTE) := by
    rintro (h | h)
    · omega
    · exact h hp
  constructor
  · rintro ⟨i, hi1, hi2, hbad⟩
    have hbad2 : isdigit (byteAt line i) = false := by
      rw [Bool.eq_false_iff, Ne, isdigit_iff]; exact hbad
    have hneg : str2int line 9 2 < 0 ∨ str2int line 7 2 < 0 ∨ str2int line 5 2 < 0 := by
      have hcases : i = 5 ∨ i = 6 ∨ i = 7 ∨ i = 8 ∨ i = 9 ∨ i = 10 := by omega
      rcases hcases with h | h | h | h | h | h <;> subst h
      · right; right; rw [str2int_two_bad line 5 (Or.inl hbad2)]; decide
      · right; right; rw [str2int_two_bad line 5 (Or.inr hbad2)]; decide
      · right; left; rw [str2int_two_bad line 7 (Or.inl hbad2)]; decide
      · right; left; rw [str2int_two_bad line 7 (Or.inr hbad2)]; decide
      · left; rw [str2int_two_bad line 9 (Or.inl hbad2)]; decide
      · left; rw [str2int_two_bad line 9 (Or.inr hbad2)]; decide
    simp only [IGCParser.readHRecord, hg, if_false, hneg, if_true]
  · intro hdig DD MM YY hD hM hY
    have dg : ∀ i, 5 ≤ i → i ≤ 10 → isdigit (byteAt line i) = true :=
      fun i h1 h2 => (isdigit_iff _).2 (hdig i h1 h2)
    have e5 := str2int_two line 5 (dg 5 (by omega) (by omega)) (dg 6 (by omega) (by omega))
    have e7 := str2int_two line 7 (dg 7 (by omega) (by omega)) (dg 8 (by omega) (by omega))
    have e9 := str2int_two line 9 (dg 9 (by omega) (by omega)) (dg 10 (by omega) (by omega))
    rw [← hD] at e5
    rw [← hM] at e7
    rw [← hY] at e9
    have b5 := hdig 5 (by omega) (by omega)
    have b6 := hdig 6 (by omega) (by omega)
    have b7 := hdig 7 (by omega) (by omega)
    have b8 := hdig 8 (by omega) (by omega)
    have b9 := hdig 9 (by omega) (by omega)
    have b10 := hdig 10 (by omega) (by omega)
    have hnn : ¬ (YY < 0 ∨ MM < 0 ∨ DD < 0) := by omega
    constructor
    · intro hv
      simp only [IGCParser.readHRecord, hg, if_false, e5, e7, e9, hnn, QDate.ofYMD, hv,
        QDate.isValid]
      simp
    · intro hv
      refine ⟨?_, by omega, by omega⟩
      simp only [IGCParser.readHRecord, hg, if_false, e5, e7, e9, hnn, QDate.ofYMD, hv,
        QDate.isValid]
      simp [hv]

/-- C9 at the header of 29 February 2024. -/
theorem C9_hfdte_date_witness :
    IGCParser.fresh.readHRecord leapDayLine =
      (true, { IGCParser.fresh with _date := QDate.ymd (2000 + 24) 2 29 }) :=
  (((C9_hfdte_date IGCParser.fresh leapDayLine (by decide) (by decide)).2
    (fun i h1 h2 => by interval_cases i <;> decide) 29 2 24 (by decide) (by decide)
    (by decide)).2 (by decide)).1

/-- C10, the claim as stated fails: a line of 9 bytes that begins with "HFDTE"
is answered with success. -/
theorem C10_counterexample :
    shortHfdte.take 5 = HFDTE ∧ shortHfdte.length < 10 ∧
      (IGCParser.fresh.readHRecord shortHfdte).1 = true := by
  decide

/-- C10 (HFDTE length), amended: `readHRecord` answers every line shorter than
10 bytes, also one that begins with "HFDTE", and every line that does not begin
with "HFDTE", with success and leaves the parser as it was; a line on which the
stored date changes begins with "HFDTE" and has `len ≥ 10`. -/
theorem C10_short_or_other_h_line_ignored (st : IGCParser) (line : List Nat)
    (h : line.length < 10 ∨ line.take 5 ≠ HFDTE) :
    st.readHRecord line = (true, st) ∧
    ∀ line2 : List Nat, (st.readHRecord line2).2._date ≠ st._date →
      line2.take 5 = HFDTE ∧ 10 ≤ line2.length := by
  constructor
  · simp only [IGCParser.readHRecord, h, if_true]
  · intro line2 hne
    by_contra hc
    have hg : line2.length < 10 ∨ line2.take 5 ≠ HFDTE := by
      by_cases h5 : line2.take 5 = HFDTE
      · left
        by_contra h10
        exact hc ⟨h5, by omega⟩
      · exact Or.inr h5
    apply hne
    simp only [IGCParser.readHRecord, hg, if_true]

/-- C10 at a date header cut after the month. -/
theorem C10_short_or_other_h_line_ignored_witness :
    IGCParser.fresh.readHRecord shortHfdte = (true, IGCParser.fresh) :=
  (C10_short_or_other_h_line_ignored IGCParser.fresh shortHfdte (Or.inl (by decide))).1

/-- C11 (latitude decoding, over exact rationals): on the field `DDMMmmmH` at
offset `off`, with `DD`, `MM` and `mmm` the decimal values of its digit groups,
`readLat` succeeds exactly when the seven leading bytes are ASCII digits, `H` is `'N'` or `'S'` and `DD + (MM + mmm / 1000) / 60 ≤ 90`; the result
is that value for `'N'` and its negation for `'S'`. The minutes are not
range-checked: the field "0099999N" decodes to `(99 + 999 / 1000) / 60`. -/
theorem C11_readLat (line : List Nat) (off : Nat) :
    ((readLat line off).isSome = true ↔
      ((∀ j, j < 7 → 48 ≤ byteAt line (off + j) ∧ byteAt line (off + j) ≤ 57) ∧
        (byteAt line (off + 7) = 78 ∨ byteAt line (off + 7) = 83) ∧
        ((decimalValue line off 2 : ℚ) +
          ((decimalValue line (off + 2) 2 : ℚ) +
            (decimalValue line (off + 4) 3 : ℚ) / 1000) / 60) ≤ 90)) ∧
    (∀ v, readLat line off = some v →
      (byteAt line (off + 7) = 78 →
        v = ((decimalValue line off 2 : ℚ) +
          ((decimalValue line (off + 2) 2 : ℚ) +
            (decimalValue line (off + 4) 3 : ℚ) / 1000) / 60)) ∧
      (byteAt line (off + 7) = 83 →
        v = -((decimalValue line off 2 : ℚ) +
          ((decimalValue line (off + 2) 2 : ℚ) +
            (decimalValue line (off + 4) 3 : ℚ) / 1000) / 60))) ∧
    readLat (bytes "0099999N") 0 = some ((99 + 999 / 1000) / 60) := by
  have hval : ((decimalValue line off 2 : ℚ) +
      ((decimalValue line (off + 2) 2 : ℚ) + (decimalValue line (off + 4) 3 : ℚ) / 1000) / 60) =
      angleValue line off 2 := rfl
  have hdig : allDigits line off 7 = true ↔
      ∀ j, j < 7 → 48 ≤ byteAt line (off + j) ∧ byteAt line (off + j) ≤ 57 := by
    rw [allDigits_iff]
    constructor
    · intro h j hj
      exact h (off + j) (by omega) (by omega)
    · intro h j h1 h2
      have := h (j - off) (by omega)
      rwa [show off + (j - off) = j by omega] at this
  rw [hval, readLat_eq, ← hdig]
  refine ⟨?_, ?_, ?_⟩
  · by_cases hc : allDigits line off 7 = true ∧
        (byteAt line (off + 7) = 78 ∨ byteAt line (off + 7) = 83) ∧ angleValue line off 2 ≤ 90
    · rw [if_pos hc]
      constructor
      · exact fun _ => hc
      · intro _
        split <;> rfl
    · rw [if_neg hc]
      constructor
      · intro h; cases h
      · intro h; exact absurd h hc
  · intro v hv
    by_cases hc : allDigits line off 7 = true ∧
        (byteAt line (off + 7) = 78 ∨ byteAt line (off + 7) = 83) ∧ angleValue line off 2 ≤ 90
    · rw [if_pos hc] at hv
      constructor
      · intro hN
        rw [if_neg (by omega)] at hv
        exact (Option.some.inj hv).symm
      · intro hS
        rw [if_pos hS] at hv
        exact (Option.some.inj hv).symm
    · rw [if_neg hc] at hv
      cases hv
  · have h := readLat_eq (bytes "0099999N") 0
    have hc : allDigits (bytes "0099999N") 0 7 = true ∧
        byteAt (bytes "0099999N") (0 + 7) = 78 := by decide
    have hv : angleValue (bytes "0099999N") 0 2 = (99 + 999 / 1000) / 60 := by
      have e1 : decimalValue (bytes "0099999N") 0 2 = 0 := by decide
      have e2 : decimalValue (bytes "0099999N") (0 + 2) 2 = 99 := by decide
      have e3 : decimalValue (bytes "0099999N") (0 + 2 + 2) 3 = 999 := by decide
      unfold angleValue
      rw [e1, e2, e3]
      norm_num
    rw [hv] at h
    rw [h, if_pos ⟨hc.1, Or.inl hc.2, by norm_num⟩, if_neg (by rw [hc.2]; decide)]

/-- C12 (coordinate range, over exact rationals): every value a successful
`readLat` returns lies in `[-90, 90]` and every value a successful `readLon`
returns in `[-180, 180]`; and on every input, accepted or not, every trackpoint
and every route waypoint that `loadFile` produces on a parser without output has
its latitude in `[-90, 90]` and its longitude in `[-180, 180]`. -/
theorem C12_coordinate_range :
    (∀ (line : List Nat) (off : Nat) (v : ℚ), readLat line off = some v → -90 ≤ v ∧ v ≤ 90) ∧
    (∀ (line : List Nat) (off : Nat) (v : ℚ),
      readLon line off = some v → -180 ≤ v ∧ v ≤ 180) ∧
    (∀ (st : IGCParser) (dev : List Nat), st._tracks = [] → st._routes = [] →
      (∀ tr ∈ (st.loadFile dev).2._tracks, ∀ tp ∈ tr,
        (-90 ≤ tp.coordinates.lat ∧ tp.coordinates.lat ≤ 90) ∧
        (-180 ≤ tp.coordinates.lon ∧ tp.coordinates.lon ≤ 180)) ∧
      (∀ rt ∈ (st.loadFile dev).2._routes, ∀ w ∈ rt,
        (-90 ≤ w.coordinates.lat ∧ w.coordinates.lat ≤ 90) ∧
        (-180 ≤ w.coordinates.lon ∧ w.coordinates.lon ≤ 180))) := by
  refine ⟨readLat_range, readLon_range, ?_⟩
  intro st dev ht hr
  exact loadFile_outputsSatisfy
    (fun tp => (-90 ≤ tp.coordinates.lat ∧ tp.coordinates.lat ≤ 90) ∧
      (-180 ≤ tp.coordinates.lon ∧ tp.coordinates.lon ≤ 180))
    (fun w => (-90 ≤ w.coordinates.lat ∧ w.coordinates.lat ≤ 90) ∧
      (-180 ≤ w.coordinates.lon ∧ w.coordinates.lon ≤ 180))
    (fun x lat lon _ _ _ hlat hlon => ⟨readLat_range x 7 lat hlat, readLon_range x 15 lon hlon⟩)
    (fun x lat lon hlat hlon _ => ⟨readLat_range x 1 lat hlat, readLon_range x 9 lon hlon⟩)
    st dev ht hr

/-- C12 at the southern latitude field "8959999S". -/
theorem C12_coordinate_range_witness :
    (-90 : ℚ) ≤ -(89 + (59 + 999 / 1000) / 60) ∧ (-(89 + (59 + 999 / 1000) / 60) : ℚ) ≤ 90 :=
  C12_coordinate_range.1 (bytes "8959999S") 0 (-(89 + (59 + 999 / 1000) / 60)) (by decide!)

/-- C13, the claim as stated fails: the fields "0060000N" and "0100000N" are
both accepted and both decode to 1, and "0000000N" and "0000000S" both decode
to 0, so `readLat` is not injective on the fields it accepts and no re-encoder
gives back every accepted field. -/
theorem C13_counterexample :
    readLat (bytes "0060000N") 0 = some 1 ∧ readLat (bytes "0100000N") 0 = some 1 ∧
    bytes "0060000N" ≠ bytes "0100000N" ∧
    readLat (bytes "0000000N") 0 = some 0 ∧ readLat (bytes "0000000S") 0 = some 0 ∧
    bytes "0000000N" ≠ bytes "0000000S" := by
  decide!

/-- C13 (latitude round trip), amended: `encodeLat` gives back every 8-byte field
that `readLat` accepts, whose minutes `MM` are at most 59 and that is not the
southern zero "0000000S"; so on these fields `readLat` is injective. -/
theorem C13_latitude_round_trip :
    (∀ (field : List Nat) (v : ℚ), field.length = 8 → readLat field 0 = some v →
      decimalValue field 2 2 ≤ 59 → field ≠ bytes "0000000S" → encodeLat v = field) ∧
    (∀ (f1 f2 : List Nat) (v : ℚ), f1.length = 8 → f2.length = 8 →
      readLat f1 0 = some v → readLat f2 0 = some v →
      decimalValue f1 2 2 ≤ 59 → decimalValue f2 2 2 ≤ 59 →
      f1 ≠ bytes "0000000S" → f2 ≠ bytes "0000000S" → f1 = f2) := by
  have hS : bytes "0000000S" = [48, 48, 48, 48, 48, 48, 48, 83] := by decide
  rw [hS]
  constructor
  · intro field v hlen hv hmm hz
    exact encodeLat_readLat field v hlen hv hmm hz
  · intro f1 f2 v h1 h2 hv1 hv2 hm1 hm2 hz1 hz2
    rw [← encodeLat_readLat f1 v h1 hv1 hm1 hz1, ← encodeLat_readLat f2 v h2 hv2 hm2 hz2]

/-- C13 at the field "5030123N", which decodes to `50 + (30 + 123 / 1000) / 60`. -/
theorem C13_latitude_round_trip_witness :
    encodeLat (50 + (30 + 123 / 1000) / 60) = bytes "5030123N" :=
  C13_latitude_round_trip.1 (bytes "5030123N") (50 + (30 + 123 / 1000) / 60)
    (by decide) (by decide!) (by decide) (by decide)

/-- C14 (altitude pair decoding): on the 11-byte field at offset `off`,
`readAltitude` succeeds exactly when byte 0 is `'A'` or `'V'`, the pressure
field is well formed (bytes 2..5 digits when byte 1 is `'-'`, else bytes 1..5
digits) and bytes 6..10 are digits. On success the elevation is the decimal
value of bytes 6..10 for `'A'` and unknown for `'V'`; two fields that are both
accepted and agree on byte 0 and on bytes 6..10 give the same elevation. -/
theorem C14_readAltitude (line : List Nat) (off : Nat) :
    ((readAltitude line off).isSome = true ↔
      ((byteAt line off = 65 ∨ byteAt line off = 86) ∧
        (if byteAt line (off + 1) = 45 then
            ∀ j, 2 ≤ j → j ≤ 5 → 48 ≤ byteAt line (off + j) ∧ byteAt line (off + j) ≤ 57
          else
            ∀ j, 1 ≤ j → j ≤ 5 → 48 ≤ byteAt line (off + j) ∧ byteAt line (off + j) ≤ 57) ∧
        (∀ j, 6 ≤ j → j ≤ 10 → 48 ≤ byteAt line (off + j) ∧ byteAt line (off + j) ≤ 57))) ∧
    (∀ e, readAltitude line off = some e →
      (byteAt line off = 65 → e = some (decimalValue line (off + 6) 5 : ℚ)) ∧
      (byteAt line off = 86 → e = none)) ∧
    (∀ (line2 : List Nat) (e e2 : Option ℚ),
      readAltitude line off = some e → readAltitude line2 off = some e2 →
      byteAt line2 off = byteAt line off →
      (∀ j, 6 ≤ j → j ≤ 10 → byteAt line2 (off + j) = byteAt line (off + j)) →
      e2 = e) := by
  have hrange : ∀ (l : List Nat) (a n : Nat), 0 < n → (allDigits l (off + a) n = true ↔
      ∀ j, a ≤ j → j ≤ a + n - 1 → 48 ≤ byteAt l (off + j) ∧ byteAt l (off + j) ≤ 57) := by
    intro l a n hn
    rw [allDigits_iff]
    constructor
    · intro h j h1 h2
      exact h (off + j) (by omega) (by omega)
    · intro h j h1 h2
      have := h (j - off) (by omega) (by omega)
      rwa [show off + (j - off) = j by omega] at this
  have key : ∀ (l : List Nat) (e : Option ℚ), readAltitude l off = some e →
      ((byteAt l off = 65 ∨ byteAt l off = 86) ∧
        (if byteAt l (off + 1) = 45 then allDigits l (off + 2) 4 = true
         else allDigits l (off + 1) 5 = true) ∧ allDigits l (off + 6) 5 = true) ∧
      e = if byteAt l off = 65 then some (decimalValue l (off + 6) 5 : ℚ) else none := by
    intro l e he
    rw [readAltitude_eq] at he
    by_cases hc : (byteAt l off = 65 ∨ byteAt l off = 86) ∧
        (if byteAt l (off + 1) = 45 then allDigits l (off + 2) 4 = true
         else allDigits l (off + 1) 5 = true) ∧ allDigits l (off + 6) 5 = true
    · rw [if_pos hc] at he
      refine ⟨hc, ?_⟩
      by_cases hA : byteAt l off = 65
      · rw [if_pos hA] at he
        rw [if_pos hA]
        exact (Option.some.inj he).symm
      · rw [if_neg hA] at he
        rw [if_neg hA]
        exact (Option.some.inj he).symm
    · rw [if_neg hc] at he
      cases he
  refine ⟨?_, ?_, ?_⟩
  · rw [readAltitude_eq]
    have h4 := hrange line 2 4 (by omega)
    have h5 := hrange line 1 5 (by omega)
    have h6 := hrange line 6 5 (by omega)
    simp only [show 2 + 4 - 1 = 5 from rfl, show 1 + 5 - 1 = 5 from rfl,
      show 6 + 5 - 1 = 10 from rfl] at h4 h5 h6
    rw [← h6]
    have hp : (if byteAt line (off + 1) = 45 then
            ∀ j, 2 ≤ j → j ≤ 5 → 48 ≤ byteAt line (off + j) ∧ byteAt line (off + j) ≤ 57
          else
            ∀ j, 1 ≤ j → j ≤ 5 → 48 ≤ byteAt line (off + j) ∧ byteAt line (off + j) ≤ 57) ↔
        (if byteAt line (off + 1) = 45 then allDigits line (off + 2) 4 = true
         else allDigits line (off + 1) 5 = true) := by
      by_cases hm : byteAt line (off + 1) = 45
      · rw [if_pos hm, if_pos hm]; exact h4.symm
      · rw [if_neg hm, if_neg hm]; exact h5.symm
    rw [hp]
    by_cases hc : (byteAt line off = 65 ∨ byteAt line off = 86) ∧
        (if byteAt line (off + 1) = 45 then allDigits line (off + 2) 4 = true
         else allDigits line (off + 1) 5 = true) ∧ allDigits line (off + 6) 5 = true
    · rw [if_pos hc]
      constructor
      · exact fun _ => hc
      · intro _
        by_cases hA : byteAt line off = 65
        · rw [if_pos hA]; rfl
        · rw [if_neg hA]; rfl
    · rw [if_neg hc]
      constructor
      · intro h; cases h
      · intro h; exact absurd h hc
  · intro e he
    obtain ⟨-, hv⟩ := key line e he
    constructor
    · intro hA
      rw [hv, if_pos hA]
    · intro hV
      rw [hv, if_neg (by omega)]
  · intro line2 e e2 he he2 h0 h6
    obtain ⟨-, hv⟩ := key line e he
    obtain ⟨-, hv2⟩ := key line2 e2 he2
    rw [hv, hv2, h0, decimalValue_congr line line2 (off + 6) 5
      (fun j h1 h2 => by
        have := h6 (j - off) (by omega) (by omega)
        rwa [show off + (j - off) = j by omega] at this)]

/-- C15 (track count), a defect of the code: the input has three lines, of 9, 12
and 115 bytes, and none after the first begins with `'B'`; yet `loadFile`
accepts it with one track of one trackpoint, because the third line is read in
two pieces and the second piece, which begins with `'B'`, is taken for a line. -/
theorem C15_track_from_long_line :
    (inputLines hiddenFixInput).map List.length = [9, 12, 115] ∧
    (inputLines hiddenFixInput).tail.filter (fun x => decide (byteAt x 0 = 66)) = [] ∧
    (deviceLines hiddenFixInput).map List.length = [9, 12, 79, 36] ∧
    IGCParser.fresh.loadFile hiddenFixInput =
      (true, { IGCParser.fresh with
        _errorLine := 5
        _date := QDate.ymd 2090 1 1
        _time := QTime.hms 10 0 0
        _tracks := [[{ coordinates := ⟨10, 50⟩,
                       timestamp := ⟨QDate.ymd 2090 1 1, QTime.hms 10 0 0⟩,
                       elevation := some 200 }]] }) ∧
    (IGCParser.fresh.loadFile hiddenFixInput).2._tracks.length = 1 := by
  decide!

/-- C16, the claim as stated fails: an input whose only `C` line is the header of
the task declaration is accepted with one route, an empty one, not with none. -/
theorem C16_counterexample :
    (inputLines headerOnlyInput).tail.filter (fun x => decide (byteAt x 0 = 67)) =
      [bytes "C0000000N00000000E TASK\n"] ∧
    IGCParser.fresh.loadFile headerOnlyInput =
      (true, { IGCParser.fresh with _errorLine := 3, _routes := [[]] }) ∧
    (IGCParser.fresh.loadFile headerOnlyInput).2._routes.length = 1 := by
  decide!

/-- C16 (route count), amended: when `loadFile` accepts an input, starting with
no routes, the output has no route if no line after the first begins with
`'C'`, and exactly one route otherwise; the route holds at most one waypoint for
each `'C'` line but the first, so it is empty when the only `'C'` line is the
header of the task declaration. The lines are those the driver reads; they are
the newline-terminated lines of the input whenever none of these has more than
79 bytes. -/
theorem C16_route_count (st s : IGCParser) (dev : List Nat)
    (hst : st._routes = []) (h : st.loadFile dev = (true, s)) :
    (((deviceLines dev).tail.filter (fun x => decide (byteAt x 0 = 67)) = [] →
        s._routes = [] ∧ s._routes.length = 0) ∧
      ((deviceLines dev).tail.filter (fun x => decide (byteAt x 0 = 67)) ≠ [] →
        s._routes.length = 1 ∧
        ∃ wps : List Waypoint, s._routes = [wps] ∧
          wps.length + 1 ≤
            ((deviceLines dev).tail.filter (fun x => decide (byteAt x 0 = 67))).length)) ∧
    ((∀ l ∈ inputLines dev, l.length ≤ 79) → deviceLines dev = inputLines dev) := by
  refine ⟨?_, deviceLines_eq_inputLines dev⟩
  rcases loadFile_accepted st s dev h with ⟨hd, hs⟩ | ⟨r, t, hrun⟩
  · rw [hd, hs]
    constructor
    · intro _
      exact ⟨hst, by show st._routes.length = 0; rw [hst]; rfl⟩
    · intro hne
      exact absurd rfl hne
  · obtain ⟨j1, j2⟩ := runLines_route_closed _ _ _ _ _ _ hrun (Nat.le_refl 2)
    constructor
    · intro hnil
      have := (j1 hnil).2
      change s._routes = st._routes at this
      rw [hst] at this
      exact ⟨this, by rw [this]; rfl⟩
    · intro hne
      obtain ⟨-, wps, e1, e2⟩ := j2 hne
      change s._routes = st._routes ++ [wps] at e1
      rw [hst] at e1
      exact ⟨by rw [e1]; rfl, wps, e1, e2⟩

/-- C16 at an input with a task header, a placeholder and a turnpoint: one route. -/
theorem C16_route_count_witness :
    (IGCParser.fresh.loadFile taskInput).2._routes.length = 1 :=
  ((C16_route_count IGCParser.fresh (IGCParser.fresh.loadFile taskInput).2 taskInput rfl
    (by decide!)).1.2 (by decide)).1

/-- C17, the claim as stated fails: when the name bytes hold a NUL byte, the name
stored is cut there. The line `C5100000N01000000E` followed by `AB`, a blank, a
NUL and `CD` gives a waypoint named `AB` and a blank, which is not the trimmed
name bytes and ends in whitespace. -/
theorem C17_counterexample :
    18 ≤ nulNameLine.length ∧
    readLat nulNameLine 1 = some 51 ∧ readLon nulNameLine 9 = some 10 ∧
    routeOpenState.readCRecord nulNameLine =
      (true, { routeOpenState with
        _routes := [[{ coordinates := ⟨10, 51⟩, name := bytes "AB " }]] }) ∧
    trimmed (nameBytes nulNameLine) = bytes "AB " ++ [0] ++ bytes "CD" ∧
    trimmed (nameBytes nulNameLine) ≠ bytes "AB " ∧
    (bytes "AB ").getLast? = some 32 ∧ isspace 32 = true := by
  decide!

/-- C17 (turnpoint handler), amended: on a line of at least 18 bytes whose
latitude (bytes 1..8) and longitude (bytes 9..17) decode, `readCRecord`
succeeds. For the coordinate `(0, 0)` it changes nothing. Otherwise it appends
one waypoint to the end of the last route, with that coordinate and with the
name made of the bytes at offsets `18 .. len - 2`, ASCII whitespace removed from
both ends and then cut at the first NUL byte, if there is one. Hence in the
output of `loadFile` on a parser without routes every waypoint is the one that
a turnpoint line read after the first line encodes: it does not have the
coordinate `(0, 0)`, its name does not begin with whitespace, and when the name
bytes of its line hold no NUL the name is these bytes trimmed and does not end
in whitespace. The lines read are the newline-terminated lines of the input
whenever none of these has more than 79 bytes. -/
theorem C17_turnpoint_handler :
    (∀ (st : IGCParser) (line : List Nat) (lat lon : ℚ), 18 ≤ line.length →
      readLat line 1 = some lat → readLon line 9 = some lon →
      ((lat = 0 ∧ lon = 0) → st.readCRecord line = (true, st)) ∧
      (¬ (lat = 0 ∧ lon = 0) →
        st.readCRecord line = (true, { st with
          _routes := appendToLast st._routes
            { coordinates := ⟨lon, lat⟩,
              name := qstringBytes (trimmed (nameBytes line)) } }) ∧
        (∀ init last, st._routes = init ++ [last] →
          (st.readCRecord line).2._routes =
            init ++ [last ++ [{ coordinates := ⟨lon, lat⟩,
                                name := qstringBytes (trimmed (nameBytes line)) }]]) ∧
        (0 ∉ nameBytes line →
          qstringBytes (trimmed (nameBytes line)) = trimmed (nameBytes line)))) ∧
    (∀ line : List Nat, (nameBytes line).length = line.length - 19 ∧
      ∀ i, i < line.length - 19 → byteAt (nameBytes line) i = byteAt line (18 + i)) ∧
    (∀ raw : List Nat,
      (∃ pre post, raw = pre ++ trimmed raw ++ post ∧
        (∀ c ∈ pre, isspace c = true) ∧ (∀ c ∈ post, isspace c = true)) ∧
      (∀ c, (trimmed raw).head? = some c → isspace c = false) ∧
      (∀ c, (trimmed raw).getLast? = some c → isspace c = false)) ∧
    (∀ (st : IGCParser) (dev : List Nat), st._routes = [] →
      ∀ rt ∈ (st.loadFile dev).2._routes, ∀ w ∈ rt,
        ¬ (w.coordinates.lat = 0 ∧ w.coordinates.lon = 0) ∧
        (∀ c, w.name.head? = some c → isspace c = false) ∧
        ∃ x ∈ (deviceLines dev).tail, byteAt x 0 = 67 ∧ 18 ≤ x.length ∧
          readLat x 1 = some w.coordinates.lat ∧ readLon x 9 = some w.coordinates.lon ∧
          w.name = qstringBytes (trimmed (nameBytes x)) ∧
          (0 ∉ nameBytes x →
            w.name = trimmed (nameBytes x) ∧
            ∀ c, w.name.getLast? = some c → isspace c = false)) ∧
    (∀ dev : List Nat, (∀ l ∈ inputLines dev, l.length ≤ 79) →
      deviceLines dev = inputLines dev) := by
  have hnul : ∀ raw : List Nat, 0 ∉ raw → 0 ∉ trimmed raw := by
    intro raw h0 hm
    obtain ⟨pre, post, e, -, -⟩ := trimmed_split raw
    apply h0
    rw [e]
    exact List.mem_append_left _ (List.mem_append_right _ hm)
  refine ⟨?_, nameBytes_spec, ?_, ?_, deviceLines_eq_inputLines⟩
  · intro st line lat lon hlen hlat hlon
    have hl : ¬ line.length < 18 := by omega
    constructor
    · intro hz
      simp only [IGCParser.readCRecord, hl, if_false, hlat, hlon, hz, and_self,
        not_true_eq_false]
    · intro hz
      have he : st.readCRecord line = (true, { st with
          _routes := appendToLast st._routes
            { coordinates := ⟨lon, lat⟩,
              name := qstringBytes (trimmed (nameBytes line)) } }) := by
        simp only [IGCParser.readCRecord, hl, if_false, hlat, hlon, hz, not_false_eq_true,
          if_true, nameBytes]
      refine ⟨he, ?_, ?_⟩
      · intro init last hr
        rw [he]
        show appendToLast st._routes _ = _
        rw [hr, appendToLast_append]
      · intro h0
        exact qstringBytes_of_no_nul _ (hnul _ h0)
  · intro raw
    exact ⟨trimmed_split raw, trimmed_head raw, trimmed_last raw⟩
  · intro st dev hr rt hrt w hw
    obtain ⟨x, hx, hC, hlen, lat, lon, hlat, hlon, hz, hwx⟩ :=
      loadFile_waypoints st dev hr rt hrt w hw
    subst hwx
    refine ⟨hz, ?_, x, hx, hC, hlen, hlat, hlon, rfl, ?_⟩
    · intro c hc
      exact trimmed_head _ c (qstringBytes_head _ c hc)
    · intro h0
      have hq := qstringBytes_of_no_nul _ (hnul _ h0)
      refine ⟨hq, ?_⟩
      intro c hc
      change (qstringBytes (trimmed (nameBytes x))).getLast? = some c at hc
      rw [hq] at hc
      exact trimmed_last _ c hc

/-- C17 at a turnpoint line with blanks around the name `START`. -/
theorem C17_turnpoint_handler_witness :
    (routeOpenState.readCRecord startLine).2._routes =
      [] ++ [[] ++ [{ coordinates := ⟨10, 51⟩,
                      name := qstringBytes (trimmed (nameBytes startLine)) }]] :=
  ((C17_turnpoint_handler.1 routeOpenState startLine 51 10 (by decide) (by decide!)
    (by decide!)).2 (by decide!)).2.1 [] [] rfl

/-- C18, the claim as stated fails: the second line of the input begins with `'C'`
and has 81 bytes; it is read in two pieces, the first opens the route and the
second, `B` and a newline, stops `loadFile` with "Missing date header". -/
theorem C18_counterexample :
    (inputLines longHeaderInput).map List.length = [9, 81] ∧
    ((inputLines longHeaderInput).tail.map (fun x => byteAt x 0)) = [67] ∧
    IGCParser.fresh.loadFile longHeaderInput =
      (false, { IGCParser.fresh with
        _errorLine := 3, _errorString := "Missing date header", _routes := [[]] }) := by
  decide!

/-- C18 (first C-record policy), amended: the turn of the loop on a line of at
most 79 bytes after the first that begins with `'C'`, while no route is open,
falls through whatever the rest of the line holds: it raises no error, makes no
waypoint, appends one empty route, sets the route flag and changes nothing
else. In a file the route flag is off until the first such line is read, so the
result of `loadFile` is that of going on after this line from the state with the
empty route appended. The lines read are the newline-terminated lines of the
input whenever none of these has more than 79 bytes. -/
theorem C18_first_c_record :
    (∀ (track : Bool) (st : IGCParser) (x : List Nat), 0 < x.length → x.length ≤ 79 →
      st._errorLine ≠ 1 → byteAt x 0 = 67 →
      loopBody false track st x =
        Except.ok (true, track, { st with _routes := st._routes ++ [[]] })) ∧
    (∀ (st : IGCParser) (dev : List Nat) (pre : List (List Nat)) (x : List Nat)
      (post : List (List Nat)) (r t : Bool) (s : IGCParser),
      deviceLines dev = pre ++ x :: post → pre ≠ [] →
      (∀ y ∈ pre.tail, byteAt y 0 ≠ 67) → byteAt x 0 = 67 →
      runLines false false st.entered pre = Except.ok (r, t, s) →
      r = false ∧
      loopBody r t s x = Except.ok (true, t, { s with _routes := s._routes ++ [[]] }) ∧
      st.loadFile dev =
        finish (runLines true t
          { s with _routes := s._routes ++ [[]], _errorLine := s._errorLine + 1 } post)) ∧
    (∀ dev : List Nat, (∀ l ∈ inputLines dev, l.length ≤ 79) →
      deviceLines dev = inputLines dev) := by
  refine ⟨?_, ?_, deviceLines_eq_inputLines⟩
  · intro track st x _ hl h1 hC
    exact loopBody_first_C track st x hl h1 hC
  · intro st dev pre x post r t s hd hne hpre hC hrun
    obtain ⟨hr, hline⟩ := runLines_before_first_C st pre r t s hne hpre hrun
    subst hr
    have hx : x ∈ deviceLines dev := by
      rw [hd]; exact List.mem_append_right _ (List.mem_cons_self _ _)
    have hl := (deviceLines_bounds dev x hx).2
    have hb := loopBody_first_C t s x hl (by omega) hC
    refine ⟨rfl, hb, ?_⟩
    rw [loadFile_eq_runLines, hd, runLines_append, hrun]
    simp only [runLines, hb]

/-- C18 at a task whose header line is followed by two turnpoint lines. -/
theorem C18_first_c_record_witness :
    IGCParser.fresh.loadFile taskInput =
      finish (runLines true false
        { ({ IGCParser.fresh.entered with _errorLine := 2 } : IGCParser) with
          _routes := ({ IGCParser.fresh.entered with _errorLine := 2 } : IGCParser)._routes ++ [[]],
          _errorLine := ({ IGCParser.fresh.entered with _errorLine := 2 } : IGCParser)._errorLine + 1 }
        [bytes "C0000000N00000000E\n", bytes "C5100000N01000000E START \n"]) :=
  (C18_first_c_record.2.1 IGCParser.fresh taskInput [bytes "AXXX000\r\n"]
    (bytes "C0000000N00000000E TASK\n")
    [bytes "C0000000N00000000E\n", bytes "C5100000N01000000E START \n"] false false
    { IGCParser.fresh.entered with _errorLine := 2 }
    (by decide) (by decide) (by decide) (by decide) rfl).2.2

/-- C19 (silent skipping): the turn of the loop on a line after the first, of 1 to
79 bytes, whose first byte is none of `'H'`, `'C'`, `'B'`, falls through and
leaves the flags and the whole parser state as they are; the loop then adds one
to the line counter. Hence deleting such a line, which follows a newline, from
an accepted input leaves the input accepted, with the same tracks, routes and
other state, the line counter being one less. -/
theorem C19_silent_skipping :
    (∀ (route track : Bool) (st : IGCParser) (x : List Nat), 0 < x.length → x.length ≤ 79 →
      st._errorLine ≠ 1 → byteAt x 0 ≠ 72 → byteAt x 0 ≠ 67 → byteAt x 0 ≠ 66 →
      loopBody route track st x = Except.ok (route, track, st) ∧
      ∀ ls, runLines route track st (x :: ls) =
        runLines route track { st with _errorLine := st._errorLine + 1 } ls) ∧
    (∀ (st s : IGCParser) (pre x post : List Nat), pre ≠ [] → pre.getLast? = some 10 →
      0 < x.length → x.length ≤ 79 → 10 ∉ x.dropLast → (x.getLast? = some 10 ∨ post = []) →
      byteAt x 0 ≠ 72 → byteAt x 0 ≠ 67 → byteAt x 0 ≠ 66 →
      st.loadFile (pre ++ x ++ post) = (true, s) →
      ∃ s2, st.loadFile (pre ++ post) = (true, s2) ∧
        s = { s2 with _errorLine := s2._errorLine + 1 } ∧
        s2._tracks = s._tracks ∧ s2._routes = s._routes) := by
  constructor
  · intro route track st x _ hl h1 hH hC hB
    have hb := loopBody_skip route track st x hl h1 hH hC hB
    refine ⟨hb, ?_⟩
    intro ls
    simp only [runLines, hb]
  · intro st s pre x post hne hpre hpos hl h10 hend hH hC hB hload
    have hx : deviceLines (x ++ post) = x :: deviceLines post := by
      rcases hend with h | h
      · rw [deviceLines_append x post (Or.inr h), deviceLines_single x hpos hl h10]
        rfl
      · subst h
        rw [List.append_nil, deviceLines_single x hpos hl h10]
        rfl
    have hd1 : deviceLines (pre ++ x ++ post) =
        deviceLines pre ++ x :: deviceLines post := by
      rw [List.append_assoc, deviceLines_append pre _ (Or.inr hpre), hx]
    have hd2 : deviceLines (pre ++ post) = deviceLines pre ++ deviceLines post :=
      deviceLines_append pre post (Or.inr hpre)
    have hP : 0 < (deviceLines pre).length := List.length_pos.2 (deviceLines_ne_nil pre hne)
    rw [loadFile_eq_runLines, hd1, runLines_append] at hload
    rw [loadFile_eq_runLines, hd2, runLines_append]
    cases hrun : runLines false false st.entered (deviceLines pre) with
    | error s1 => rw [hrun] at hload; cases hload
    | ok v =>
      obtain ⟨r, t, s1⟩ := v
      rw [hrun] at hload
      simp only at hload ⊢
      have hline := (runLines_ok _ _ _ _ _ _ _ hrun).1
      have h2 : 2 ≤ s1._errorLine := by
        rw [hline]; show 2 ≤ 1 + (deviceLines pre).length; omega
      have hb := loopBody_skip r t s1 x hl (by omega) hH hC hB
      simp only [runLines, hb] at hload
      cases hrest : runLines r t { s1 with _errorLine := s1._errorLine + 1 }
          (deviceLines post) with
      | error s3 => rw [hrest] at hload; cases hload
      | ok v =>
        obtain ⟨r3, t3, s3⟩ := v
        rw [hrest] at hload
        simp only [finish, Prod.mk.injEq, true_and] at hload
        subst hload
        have hw := runLines_withLine _ _ _ _ _ _ _ s1._errorLine hrest
          (by show 2 ≤ s1._errorLine + 1; omega) h2
        have hself : ({ ({ s1 with _errorLine := s1._errorLine + 1 } : IGCParser) with
            _errorLine := s1._errorLine } : IGCParser) = s1 := withLine_self s1
        rw [hself] at hw
        rw [hw]
        have hline3 := (runLines_ok _ _ _ _ _ _ _ hrest).1
        refine ⟨_, rfl, ?_, rfl, rfl⟩
        have : s3._errorLine = s1._errorLine + (deviceLines post).length + 1 := by
          rw [hline3]; show s1._errorLine + 1 + _ = _; omega
        cases s3
        simp only at this
        subst this
        rfl

/-- C19 at an accepted input whose third line is a comment: without the comment
the input is accepted with the same tracks. -/
theorem C19_silent_skipping_witness :
    ∃ s2, IGCParser.fresh.loadFile
        (bytes "AXXX000\r\nHFDTE010190\n" ++
          bytes ("B1000005000000N01000000EA0010000200\n" ++
            "B1000105030123N01030123WV0010000210\n")) = (true, s2) ∧
      (IGCParser.fresh.loadFile twoFixInput).2 = { s2 with _errorLine := s2._errorLine + 1 } ∧
      s2._tracks = (IGCParser.fresh.loadFile twoFixInput).2._tracks ∧
      s2._routes = (IGCParser.fresh.loadFile twoFixInput).2._routes :=
  C19_silent_skipping.2 IGCParser.fresh (IGCParser.fresh.loadFile twoFixInput).2
    (bytes "AXXX000\r\nHFDTE010190\n") (bytes "LXXX comment\n")
    (bytes ("B1000005000000N01000000EA0010000200\n" ++
      "B1000105030123N01030123WV0010000210\n"))
    (by decide) (by decide) (by decide) (by decide) (by decide) (Or.inl (by decide))
    (by decide) (by decide) (by decide) (by decide!)

/-- C20 (in-bounds field reads): with the buffer holding the `len` bytes of a line
and then a NUL, and a read that fails for every index beyond `len`, the body of
the loop of `loadFile` on a line of 1 to 79 bytes, with its dispatch on byte 0,
the four record handlers and the field decoders they call, computes with
checked reads exactly what it computes without: no read fails, so every index
read is at most `len` and below the 80 bytes of the buffer. The handlers stay in
bounds on every line, by their own length tests. -/
theorem C20_in_bounds_reads :
    (∀ (line : List Nat) (i : Nat), byteAtChecked line i = none ↔ line.length < i) ∧
    (∀ (line : List Nat) (i : Nat), line.length ≤ 79 →
      (byteAtChecked line i).isSome = true → i < sizeofLine) ∧
    (∀ (route track : Bool) (st : IGCParser) (line : List Nat),
      1 ≤ line.length → line.length ≤ 79 →
      loopBodyChecked route track st line = some (loopBody route track st line)) ∧
    (∀ line : List Nat, readARecordChecked line = some (readARecord line)) ∧
    (∀ (st : IGCParser) (line : List Nat),
      st.readHRecordChecked line = some (st.readHRecord line)) ∧
    (∀ (st : IGCParser) (line : List Nat),
      st.readBRecordChecked line = some (st.readBRecord line)) ∧
    (∀ (st : IGCParser) (line : List Nat),
      st.readCRecordChecked line = some (st.readCRecord line)) := by
  refine ⟨?_, ?_, ?_, readARecordChecked_eq, readHRecordChecked_eq, readBRecordChecked_eq,
    readCRecordChecked_eq⟩
  · intro line i
    unfold byteAtChecked
    by_cases h : i ≤ line.length
    · rw [if_pos h]
      constructor
      · intro hn; cases hn
      · intro hlt; omega
    · rw [if_neg h]
      constructor
      · intro _; omega
      · intro _; rfl
  · intro line i hlen hsome
    unfold byteAtChecked at hsome
    by_cases h : i ≤ line.length
    · have : sizeofLine = 80 := rfl
      omega
    · rw [if_neg h] at hsome
      cases hsome
  · intro route track st line hpos _
    exact loopBodyChecked_eq route track st line hpos

/-- C20 at a fix read into an open track. -/
theorem C20_in_bounds_reads_witness :
    loopBodyChecked false true rolloverState fixLine =
      some (loopBody false true rolloverState fixLine) :=
  C20_in_bounds_reads.2.2.1 false true rolloverState fixLine (by decide) (by decide)

end GPXSee
